import Mathlib

/-!
# Verification of the kairos_memory_stream merge gate

A shallow embedding of the Python core (`app/core/*.py`, `app/models/*.py`)
of the deterministic merge-gate service, together with proofs and refutations
of the specified properties.

Strings are modelled as `List Char` (`Str`), JSON/Python values as `PyVal`,
and Python `dict`s as insertion-ordered association lists with unique keys.
Machine-level caveats are noted next to each definition.
-/

/-- Python/JSON strings, modelled as lists of characters. -/
abbrev Str := List Char

/-- Embed a Lean string literal as a `Str`. -/
def ofS (s : String) : Str := s.data

/-- Python floats as produced by `json.loads` and friends: we distinguish
NaN, +Infinity, -Infinity and finite values (modelled exactly as rationals;
IEEE-754 rounding is not modelled, which is irrelevant for the claims here,
none of which depend on float rounding). -/
inductive PFloat where
  | nan
  | inf
  | ninf
  | fin (q : ℚ)
deriving DecidableEq, Repr

/-- Python values that can result from `json.loads`: `None`, `bool`, `int`,
`float`, `str`, `list`, `dict` (insertion-ordered association list). -/
inductive PyVal where
  | none
  | bool (b : Bool)
  | int (n : ℤ)
  | float (f : PFloat)
  | str (s : Str)
  | list (xs : List PyVal)
  | dict (fs : List (Str × PyVal))

/-- `d.get(k)` on an insertion-ordered dict. -/
def dget {α : Type} (d : List (Str × α)) (k : Str) : Option α :=
  match d with
  | [] => Option.none
  | (k', v) :: rest => if k' = k then Option.some v else dget rest k

/-- `k in d` on a dict. -/
def dmem {α : Type} (d : List (Str × α)) (k : Str) : Bool :=
  (dget d k).isSome

/-- `d[k] = v` on a dict: replaces the value in place if the key exists
(keeping its position, as Python dicts do), else appends the new key at the
end (Python insertion order). -/
def dset {α : Type} (d : List (Str × α)) (k : Str) (v : α) : List (Str × α) :=
  match d with
  | [] => [(k, v)]
  | (k', v') :: rest =>
      if k' = k then (k', v) :: rest else (k', v') :: dset rest k v

/-- Keys of a dict in order. -/
def dkeys {α : Type} (d : List (Str × α)) : List Str := d.map Prod.fst

/-- `app/core/merge_engine.py::_is_missing`: `None`, whitespace-only strings
and empty containers count as missing.  Python's `str.strip` removes
whitespace; we model the whitespace class tested by `strip` on the
characters that occur in JSON data (ASCII whitespace and the common
Unicode space characters). -/
def pyIsSpace (c : Char) : Bool :=
  c = ' ' || c = '\t' || c = '\n' || c = '\r' ||
  c = (Char.ofNat 0x0b) || c = (Char.ofNat 0x0c) ||
  c = (Char.ofNat 0x1c) || c = (Char.ofNat 0x1d) ||
  c = (Char.ofNat 0x1e) || c = (Char.ofNat 0x1f) ||
  c = (Char.ofNat 0x85) || c = (Char.ofNat 0xa0)

/-- Python `str.strip()`. -/
def pyStrip (s : Str) : Str :=
  ((s.dropWhile pyIsSpace).reverse.dropWhile pyIsSpace).reverse

/-- `_is_missing` from `merge_engine.py`. -/
def is_missing (v : PyVal) : Bool :=
  match v with
  | .none => true
  | .str s => pyStrip s = []
  | .list xs => xs.isEmpty
  | .dict fs => fs.isEmpty
  | _ => false

/-- Errors raised by the embedded Python code. -/
inductive PyErr where
  | overflow      -- `OverflowError` (e.g. `int(float('inf'))`)
  | value         -- `ValueError`
deriving DecidableEq, Repr

/-- Parse a Python `float()` literal (after stripping): sign, then `inf`,
`infinity`, `nan`, or a decimal/exponent literal.  Underscore separators are
accepted between digits as in Python 3. Returns `Option.none` when Python's
`float()` would raise `ValueError`. -/
def asciiLower (c : Char) : Char :=
  if 'A' ≤ c ∧ c ≤ 'Z' then Char.ofNat (c.toNat + 32) else c

def isDigitCh (c : Char) : Bool := '0' ≤ c && c ≤ '9'

def digitsVal (ds : List Char) : ℕ :=
  ds.foldl (fun acc c => acc * 10 + (c.toNat - '0'.toNat)) 0

/-- Strip underscores that sit between two digits (Python numeric literal
separators); any other underscore makes the literal invalid. -/
def stripUnderscores : List Char → Option (List Char)
  | [] => Option.some []
  | '_' :: _ => Option.none
  | [c] => if c = '_' then Option.none else Option.some [c]
  | c :: '_' :: c' :: rest =>
      if isDigitCh c ∧ isDigitCh c' then
        (stripUnderscores (c' :: rest)).map (fun t => c :: t)
      else Option.none
  | c :: rest => (stripUnderscores rest).map (fun t => c :: t)

/-- Parse an unsigned decimal float body `digits[.digits][e[sign]digits]`. -/
def parseFloatBody (s : List Char) : Option ℚ :=
  let (ip, rest) := s.span isDigitCh
  let (fp, rest1) :=
    match rest with
    | '.' :: t => let (f, r) := t.span isDigitCh; (f, r)
    | _ => ([], rest)
  if ip = [] ∧ fp = [] then Option.none
  else
    let mant : ℚ := (digitsVal ip : ℚ) + (digitsVal fp : ℚ) / ((10 : ℚ) ^ fp.length)
    match rest1 with
    | [] => Option.some mant
    | e :: t =>
        if e = 'e' ∨ e = 'E' then
          let (sgn, t1) :=
            match t with
            | '+' :: t' => ((1 : ℤ), t')
            | '-' :: t' => ((-1 : ℤ), t')
            | _ => ((1 : ℤ), t)
          let (ed, t2) := t1.span isDigitCh
          if ed = [] ∨ t2 ≠ [] then Option.none
          else
            let ex : ℤ := sgn * (digitsVal ed : ℤ)
            Option.some (mant * (10 : ℚ) ^ ex)
        else Option.none

/-- Python `float(s)` on an already-stripped string. -/
def pyFloatOfStr (s0 : Str) : Option PFloat :=
  let s := pyStrip s0
  let (neg, s1) :=
    match s with
    | '+' :: t => (false, t)
    | '-' :: t => (true, t)
    | _ => (false, s)
  let low := s1.map asciiLower
  if low = ofS "inf" ∨ low = ofS "infinity" then
    Option.some (if neg then PFloat.ninf else PFloat.inf)
  else if low = ofS "nan" then Option.some PFloat.nan
  else
    match stripUnderscores s1 with
    | Option.none => Option.none
    | Option.some s2 =>
        match parseFloatBody s2 with
        | Option.none => Option.none
        | Option.some q => Option.some (.fin (if neg then -q else q))

/-- Truncation toward zero, `int(f)` on a finite float. -/
def ratTrunc (q : ℚ) : ℤ := q.num / (q.den : ℤ)

/-- `app/core/kai_time.py::_safe_int`.  Bools map to 0; ints pass through;
NaN floats map to 0 but `int()` of an infinite float raises `OverflowError`
(modelled as `.error .overflow`); strings are parsed with `float()` inside a
`try` that swallows every exception (so `"inf"` maps to 0); everything else
maps to 0. -/
def safe_int (v : PyVal) : Except PyErr ℤ :=
  match v with
  | .bool _ => .ok 0
  | .int n => .ok n
  | .float f =>
      match f with
      | .nan => .ok 0
      | .inf => .error .overflow
      | .ninf => .error .overflow
      | .fin q => .ok (ratTrunc q)
  | .str s =>
      let t := pyStrip s
      if t = [] then .ok 0
      else
        match pyFloatOfStr t with
        | Option.none => .ok 0          -- float() raised; caught
        | Option.some PFloat.nan => .ok 0
        | Option.some PFloat.inf => .ok 0   -- int(inf) raises; caught
        | Option.some PFloat.ninf => .ok 0
        | Option.some (.fin q) => .ok (ratTrunc q)
  | _ => .ok 0

/-! ## Python `==` (used by `upsert_payload`'s change detection)

Python equality: numeric cross-type equality (`True == 1 == 1.0`),
`nan != nan`, strings/lists compared structurally, dicts compared as
key→value maps ignoring insertion order.  Implemented with a fuel
parameter for termination; `sizeOf` of the operands bounds the recursion
depth, so the fuel used by `pyEq` never runs out. -/

/-- Numeric view of a Python value (`bool`/`int`/`float`). -/
inductive NumV where
  | q (x : ℚ)
  | pinf
  | nnf
  | nanv
deriving DecidableEq

def numOf : PyVal → Option NumV
  | .bool b => Option.some (.q (if b then 1 else 0))
  | .int n => Option.some (.q n)
  | .float .nan => Option.some .nanv
  | .float .inf => Option.some .pinf
  | .float .ninf => Option.some .nnf
  | .float (.fin x) => Option.some (.q x)
  | _ => Option.none

def numEq : NumV → NumV → Bool
  | .q a, .q b => a == b
  | .pinf, .pinf => true
  | .nnf, .nnf => true
  | _, _ => false

/-- The recursion of Python `==`, as a single fuel-indexed function so that
it evaluates by kernel reduction.  The flag selects between proper equality
(`true`) and the one-sided dict inclusion check (`false`); list and dict
tails are compared through the wrapped constructors.  Fuel is consumed per
comparison step; CPython's recursive `==` aborts with `RecursionError` on
deeply nested values, and the fixed fuel below is unreachable for every
value in this development. -/
def pyEqM : ℕ → Bool → PyVal → PyVal → Bool
  | 0, _, _, _ => false
  | f + 1, true, a, b =>
      (match numOf a, numOf b with
       | Option.some x, Option.some y => numEq x y
       | _, _ =>
         match a, b with
         | .none, .none => true
         | .str s, .str t => s == t
         | .list [], .list [] => true
         | .list (x :: xs), .list (y :: ys) =>
             pyEqM f true x y && pyEqM f true (.list xs) (.list ys)
         | .dict fs, .dict gs =>
             fs.length == gs.length && pyEqM f false (.dict fs) (.dict gs)
         | _, _ => false)
  | f + 1, false, a, b =>
      (match a with
       | .dict [] => true
       | .dict (kv :: rest) =>
           (match b with
            | .dict gs =>
                (match dget gs kv.1 with
                 | Option.some w => pyEqM f true kv.2 w
                 | Option.none => false) && pyEqM f false (.dict rest) b
            | _ => false)
       | _ => false)

/-- Python `==` on values. -/
def pyEq (a b : PyVal) : Bool := pyEqM 100000 true a b

/-! ## `app/models/payload.py::SigilPayloadLoose` -/

/-- A validated `SigilPayloadLoose`: the ten declared fields plus the
preserved extra fields (pydantic `extra="allow"`), in insertion order. -/
structure Payload where
  pulse : Option ℤ
  beat : Option ℤ
  stepIndex : Option ℤ
  chakraDay : Option Str
  kaiSignature : Option Str
  originUrl : Option Str
  parentUrl : Option Str
  userPhiKey : Option Str
  phiKey : Option Str
  phikey : Option Str
  extras : List (Str × PyVal)

/-- `isinstance(v, int)` — `True` for Python bools as well. -/
def isPyIntInst : Option PyVal → Bool
  | Option.some (.int _) => true
  | Option.some (.bool _) => true
  | _ => false

/-- `isinstance(v, str)`. -/
def isPyStrInst : Option PyVal → Bool
  | Option.some (.str _) => true
  | _ => false

/-- One alias rule: `if canon not in d and guard(d.get(src)): d[canon] = d.get(src)`. -/
def aliasStep (canon srcKey : Str) (guard : Option PyVal → Bool)
    (d : List (Str × PyVal)) : List (Str × PyVal) :=
  if ¬ dmem d canon ∧ guard (dget d srcKey) then
    dset d canon ((dget d srcKey).getD .none)
  else d

/-- `SigilPayloadLoose._normalize_aliases` on a dict (the model validator
returns non-dicts unchanged; validation then fails on them). The rules are
applied in source order. -/
def normalize_aliases (d0 : List (Str × PyVal)) : List (Str × PyVal) :=
  let d := d0
  let d := aliasStep (ofS "pulse") (ofS "u") isPyIntInst d
  let d := aliasStep (ofS "beat") (ofS "b") isPyIntInst d
  let d := aliasStep (ofS "stepIndex") (ofS "s") isPyIntInst d
  let d := aliasStep (ofS "chakraDay") (ofS "c") isPyStrInst d
  let d := aliasStep (ofS "stepIndex") (ofS "step_index") isPyIntInst d
  let d := aliasStep (ofS "chakraDay") (ofS "chakra_day") isPyStrInst d
  let d := aliasStep (ofS "kaiSignature") (ofS "kai_signature") isPyStrInst d
  let d := aliasStep (ofS "originUrl") (ofS "origin_url") isPyStrInst d
  let d := aliasStep (ofS "parentUrl") (ofS "parent_url") isPyStrInst d
  let d := aliasStep (ofS "stepIndex") (ofS "step") isPyIntInst d
  d

/-- pydantic lax validation of an `int | None` field: ints pass, bools are
rejected, integral floats are accepted, strings of an (optionally signed)
integer literal are accepted, everything else is rejected. -/
def vIntOpt : Option PyVal → Except PyErr (Option ℤ)
  | Option.none => .ok Option.none
  | Option.some .none => .ok Option.none
  | Option.some (.int n) => .ok (Option.some n)
  | Option.some (.bool _) => .error .value
  | Option.some (.float (.fin q)) =>
      if q.den = 1 then .ok (Option.some q.num) else .error .value
  | Option.some (.float _) => .error .value
  | Option.some (.str s) =>
      let t := pyStrip s
      let (neg, ds) := match t with
        | '-' :: r => (true, r)
        | '+' :: r => (false, r)
        | r => (false, r)
      if ds ≠ [] ∧ ds.all isDigitCh then
        .ok (Option.some (if neg then -(digitsVal ds : ℤ) else (digitsVal ds : ℤ)))
      else .error .value
  | Option.some _ => .error .value

/-- pydantic lax validation of a `str | None` field: only strings and
`None` are accepted (no numeric coercion in pydantic v2). -/
def vStrOpt : Option PyVal → Except PyErr (Option Str)
  | Option.none => .ok Option.none
  | Option.some .none => .ok Option.none
  | Option.some (.str s) => .ok (Option.some s)
  | Option.some _ => .error .value

/-- The declared field names, in declaration order. -/
def knownKeys : List Str :=
  [ofS "pulse", ofS "beat", ofS "stepIndex", ofS "chakraDay",
   ofS "kaiSignature", ofS "originUrl", ofS "parentUrl",
   ofS "userPhiKey", ofS "phiKey", ofS "phikey"]

/-- `SigilPayloadLoose.model_validate`: alias normalisation, then field
validation; unknown keys are preserved as extras in insertion order. -/
def model_validate (v : PyVal) : Except PyErr Payload :=
  match v with
  | .dict d0 =>
      let d := normalize_aliases d0
      do
        let pulse ← vIntOpt (dget d (ofS "pulse"))
        let beat ← vIntOpt (dget d (ofS "beat"))
        let stepIndex ← vIntOpt (dget d (ofS "stepIndex"))
        let chakraDay ← vStrOpt (dget d (ofS "chakraDay"))
        let kaiSignature ← vStrOpt (dget d (ofS "kaiSignature"))
        let originUrl ← vStrOpt (dget d (ofS "originUrl"))
        let parentUrl ← vStrOpt (dget d (ofS "parentUrl"))
        let userPhiKey ← vStrOpt (dget d (ofS "userPhiKey"))
        let phiKey ← vStrOpt (dget d (ofS "phiKey"))
        let phikey ← vStrOpt (dget d (ofS "phikey"))
        .ok { pulse := pulse, beat := beat, stepIndex := stepIndex,
              chakraDay := chakraDay, kaiSignature := kaiSignature,
              originUrl := originUrl, parentUrl := parentUrl,
              userPhiKey := userPhiKey, phiKey := phiKey, phikey := phikey,
              extras := d.filter (fun kv => ¬ knownKeys.contains kv.1) }
  | _ => .error .value

def optIntPy : Option ℤ → PyVal
  | Option.none => .none
  | Option.some n => .int n

def optStrPy : Option Str → PyVal
  | Option.none => .none
  | Option.some s => .str s

/-- `model_dump(exclude_none=False)`: all declared fields (in declaration
order) followed by the extras (in insertion order). -/
def model_dump (p : Payload) : List (Str × PyVal) :=
  [(ofS "pulse", optIntPy p.pulse),
   (ofS "beat", optIntPy p.beat),
   (ofS "stepIndex", optIntPy p.stepIndex),
   (ofS "chakraDay", optStrPy p.chakraDay),
   (ofS "kaiSignature", optStrPy p.kaiSignature),
   (ofS "originUrl", optStrPy p.originUrl),
   (ofS "parentUrl", optStrPy p.parentUrl),
   (ofS "userPhiKey", optStrPy p.userPhiKey),
   (ofS "phiKey", optStrPy p.phiKey),
   (ofS "phikey", optStrPy p.phikey)]
  ++ p.extras

/-! ## `app/core/kai_time.py` -/

/-- A Kai logical-time tuple. -/
abbrev KaiT := ℤ × ℤ × ℤ

/-- Lexicographic `<` on 3-tuples, as Python compares tuples. -/
def tup_lt (a b : KaiT) : Bool :=
  a.1 < b.1 || (a.1 == b.1 && (a.2.1 < b.2.1 || (a.2.1 == b.2.1 && a.2.2 < b.2.2)))

/-- `kai_tuple_from_payload(p).as_tuple()`: `_safe_int` applied to each of
the three fields.  After validation the fields hold `int | None`, on which
`_safe_int` never raises, so the exception branch is dead (`getD 0`
below is never taken; see `safe_int_optInt` in the theorems). -/
def kai_tuple_from_payload (p : Payload) : KaiT :=
  (((safe_int (optIntPy p.pulse)).toOption).getD 0,
   ((safe_int (optIntPy p.beat)).toOption).getD 0,
   ((safe_int (optIntPy p.stepIndex)).toOption).getD 0)

/-- `latest_kai`: fold with strict lexicographic improvement, starting from
`(0, 0, 0)`. -/
def latest_kai (items : List Payload) : KaiT :=
  items.foldl
    (fun latest p =>
      let kt := kai_tuple_from_payload p
      if tup_lt latest kt then kt else latest)
    (0, 0, 0)

/-! ## `app/core/merge_engine.py`: richness, merge, upsert, ordering -/

/-- `_richness_score`. -/
def richness_score (p : Payload) : ℕ :=
  (model_dump p).foldl
    (fun score kv =>
      if is_missing kv.2 then score
      else
        let score := score + 1
        let score :=
          if [ofS "originUrl", ofS "parentUrl", ofS "kaiSignature",
              ofS "userPhiKey", ofS "phiKey", ofS "phikey"].contains kv.1
          then score + 2 else score
        if [ofS "pulse", ofS "beat", ofS "stepIndex", ofS "chakraDay"].contains kv.1
        then score + 1 else score)
    0

/-- The fill loop of `_merge_payload`: for every key of `od`, copy the value
into `bd` when `bd`'s value is missing and `od`'s is not. -/
def fill_missing (bd od : List (Str × PyVal)) : List (Str × PyVal) :=
  od.foldl
    (fun acc kv =>
      let bv := (dget acc kv.1).getD .none
      if is_missing bv ∧ ¬ is_missing kv.2 then dset acc kv.1 kv.2 else acc)
    bd

/-- The final step of `_merge_payload`: dump both payloads, fill missing
keys of the base from the other, re-validate. -/
def merge_fill (base other : Payload) : Except PyErr Payload :=
  model_validate (.dict (fill_missing (model_dump base) (model_dump other)))

/-- `_merge_payload`: newer Kai tuple wins; on ties the richer payload is
the base; on equal richness `prev` stays the base; then missing fields of
the base are filled from the other payload and the result is re-validated. -/
def merge_payload (prev inc : Payload) : Except PyErr Payload :=
  let prev_k := kai_tuple_from_payload prev
  let inc_k := kai_tuple_from_payload inc
  let (base, other) :=
    if tup_lt prev_k inc_k then (inc, prev)
    else if tup_lt inc_k prev_k then (prev, inc)
    else if richness_score inc > richness_score prev then (inc, prev)
    else (prev, inc)
  merge_fill base other

/-- The registry: a Python dict `canonical_url → payload`. -/
abbrev Registry := List (Str × Payload)

/-- `upsert_payload`: insert when absent; otherwise merge and report whether
the dict representation changed (Python `==` on the dumps). -/
def upsert_payload (reg : Registry) (url_key : Str) (payload : Payload) :
    Except PyErr (Registry × Bool) :=
  match dget reg url_key with
  | Option.none => .ok (dset reg url_key payload, true)
  | Option.some prev => do
      let merged ← merge_payload prev payload
      if pyEq (.dict (model_dump prev)) (.dict (model_dump merged)) then
        .ok (reg, false)
      else
        .ok (dset reg url_key merged, true)

/-- Python string `<`: lexicographic by code point. -/
def str_lt : Str → Str → Bool
  | [], [] => false
  | [], _ :: _ => true
  | _ :: _, [] => false
  | a :: as, b :: bs => a < b || (a = b && str_lt as bs)

/-- `<` on the sort keys `((pulse, beat, stepIndex), url)` of
`build_ordered_urls`: lexicographic on the Kai tuple, then Python string
order on the URL (Python tuple comparison). -/
def item_key_lt (x y : Str × Payload) : Bool :=
  tup_lt (kai_tuple_from_payload x.2) (kai_tuple_from_payload y.2) ||
  (kai_tuple_from_payload x.2 = kai_tuple_from_payload y.2 && str_lt x.1 y.1)

/-- Stable insertion into a list sorted descending by `item_key_lt`:
`x` goes before the first element with a strictly smaller key, so equal
keys keep their original relative order, as Python's stable sort does. -/
def insDesc (x : Str × Payload) : List (Str × Payload) → List (Str × Payload)
  | [] => [x]
  | y :: ys => if item_key_lt y x then x :: y :: ys else y :: insDesc x ys

/-- Stable descending sort — the result of Python's
`list.sort(key=key, reverse=True)` on the item list (any two stable sorts
of a list under the same total preorder agree). -/
def sortDesc : List (Str × Payload) → List (Str × Payload)
  | [] => []
  | x :: xs => insDesc x (sortDesc xs)

/-- `build_ordered_urls`: sort the registry items by
`((kai tuple), url)` with `reverse=True`, and return the URLs. -/
def build_ordered_urls (reg : Registry) : List Str :=
  (sortDesc reg).map Prod.fst

/-! ## Canonical JSON and the seal (`app/core/jsonio.py`, `state_store.py`)

`dumps_canonical_json` is `json.dumps(obj, ensure_ascii=False, sort_keys=True,
separators=(",", ":"))`.  The seal code applies it to the single-key object
`{"urls": urls}` whose values are strings, so we instantiate the dump at
that shape (string escaping as in CPython's json encoder with
`ensure_ascii=False`). -/

def hexDigitCh (n : ℕ) : Char :=
  if n < 10 then Char.ofNat ('0'.toNat + n) else Char.ofNat ('a'.toNat + n - 10)

/-- JSON escaping of one character (`ensure_ascii=False`): only `"`, `\`
and control characters below 0x20 are escaped. -/
def jsonEscapeChar (c : Char) : Str :=
  if c = '"' then ['\\', '"']
  else if c = '\\' then ['\\', '\\']
  else if c = '\n' then ['\\', 'n']
  else if c = '\t' then ['\\', 't']
  else if c = '\r' then ['\\', 'r']
  else if c = Char.ofNat 0x08 then ['\\', 'b']
  else if c = Char.ofNat 0x0c then ['\\', 'f']
  else if c.toNat < 0x20 then
    ['\\', 'u', '0', '0', hexDigitCh (c.toNat / 16), hexDigitCh (c.toNat % 16)]
  else [c]

def jsonStrDump (s : Str) : Str :=
  '"' :: (s.map jsonEscapeChar).join ++ ['"']

/-- `dumps_canonical_json({"urls": urls})`. -/
def dumps_canonical_urls (urls : List Str) : Str :=
  ofS "\x7b\"urls\":[" ++ List.intercalate [','] (urls.map jsonStrDump) ++ ofS "]\x7d"

/-- UTF-8 encoding of one character. -/
def utf8Char (c : Char) : List ℕ :=
  let n := c.toNat
  if n < 0x80 then [n]
  else if n < 0x800 then [0xC0 + n / 64, 0x80 + n % 64]
  else if n < 0x10000 then [0xE0 + n / 4096, 0x80 + (n / 64) % 64, 0x80 + n % 64]
  else [0xF0 + n / 262144, 0x80 + (n / 4096) % 64, 0x80 + (n / 64) % 64, 0x80 + n % 64]

/-- `str.encode("utf-8")`. -/
def utf8Encode (s : Str) : List ℕ := (s.map utf8Char).join

/-! ### BLAKE2b (RFC 7693), `digest_size=16`, no key

64-bit words are naturals taken modulo `2^64`. -/

def w64mod : ℕ := 2 ^ 64

def wadd (a b : ℕ) : ℕ := (a + b) % w64mod

/-- Right rotation of a 64-bit word. -/
def ror64 (x n : ℕ) : ℕ :=
  Nat.lor (x >>> n) ((x % 2 ^ n) <<< (64 - n))

def blakeIV : List ℕ :=
  [0x6a09e667f3bcc908, 0xbb67ae8584caa73b, 0x3c6ef372fe94f82b, 0xa54ff53a5f1d36f1,
   0x510e527fade682d1, 0x9b05688c2b3e6c1f, 0x1f83d9abfb41bd6b, 0x5be0cd19137e2179]

def blakeSigma : List (List ℕ) :=
  [[0, 1, 2, 3, 4, 5, 6, 7, 8, 9, 10, 11, 12, 13, 14, 15],
   [14, 10, 4, 8, 9, 15, 13, 6, 1, 12, 0, 2, 11, 7, 5, 3],
   [11, 8, 12, 0, 5, 2, 15, 13, 10, 14, 3, 6, 7, 1, 9, 4],
   [7, 9, 3, 1, 13, 12, 11, 14, 2, 6, 5, 10, 4, 0, 15, 8],
   [9, 0, 5, 7, 2, 4, 10, 15, 14, 1, 11, 12, 6, 8, 3, 13],
   [2, 12, 6, 10, 0, 11, 8, 3, 4, 13, 7, 5, 15, 14, 1, 9],
   [12, 5, 1, 15, 14, 13, 4, 10, 0, 7, 6, 3, 9, 2, 8, 11],
   [13, 11, 7, 14, 12, 1, 3, 9, 5, 0, 15, 4, 8, 6, 2, 10],
   [6, 15, 14, 9, 11, 3, 0, 8, 12, 2, 13, 7, 1, 4, 10, 5],
   [10, 2, 8, 4, 7, 6, 1, 5, 15, 11, 9, 14, 3, 12, 13, 0]]

def vget (v : List ℕ) (i : ℕ) : ℕ := v.getD i 0

def vset (v : List ℕ) (i : ℕ) (x : ℕ) : List ℕ := v.set i x

/-- The BLAKE2b `G` mixing function on state positions `a b c d` with
message words `x y`. -/
def blakeG (v : List ℕ) (a b c d : ℕ) (x y : ℕ) : List ℕ :=
  let va := wadd (wadd (vget v a) (vget v b)) x
  let vd := ror64 (Nat.xor (vget v d) va) 32
  let vc := wadd (vget v c) vd
  let vb := ror64 (Nat.xor (vget v b) vc) 24
  let va := wadd (wadd va vb) y
  let vd := ror64 (Nat.xor vd va) 16
  let vc := wadd vc vd
  let vb := ror64 (Nat.xor vb vc) 63
  vset (vset (vset (vset v a va) b vb) c vc) d vd

/-- One round of mixing with schedule row `s` and message words `m`. -/
def blakeRound (m : List ℕ) (s : List ℕ) (v : List ℕ) : List ℕ :=
  let ms := fun i => vget m (vget s i)
  let v := blakeG v 0 4 8 12 (ms 0) (ms 1)
  let v := blakeG v 1 5 9 13 (ms 2) (ms 3)
  let v := blakeG v 2 6 10 14 (ms 4) (ms 5)
  let v := blakeG v 3 7 11 15 (ms 6) (ms 7)
  let v := blakeG v 0 5 10 15 (ms 8) (ms 9)
  let v := blakeG v 1 6 11 12 (ms 10) (ms 11)
  let v := blakeG v 2 7 8 13 (ms 12) (ms 13)
  blakeG v 3 4 9 14 (ms 14) (ms 15)

/-- Little-endian 64-bit words from 128 padded bytes. -/
def bytesToWords64 (bs : List ℕ) : List ℕ :=
  (List.range 16).map (fun i =>
    (List.range 8).foldr (fun j acc => acc * 256 + (bs.getD (8 * i + j) 0)) 0)

/-- The BLAKE2b compression function. -/
def blakeCompress (h : List ℕ) (block : List ℕ) (t : ℕ) (last : Bool) : List ℕ :=
  let m := bytesToWords64 block
  let v := h ++ blakeIV
  let v := vset v 12 (Nat.xor (vget v 12) (t % w64mod))
  let v := vset v 13 (Nat.xor (vget v 13) (t / w64mod))
  let v := if last then vset v 14 (Nat.xor (vget v 14) (w64mod - 1)) else v
  let v := (List.range 12).foldl (fun v i => blakeRound m (blakeSigma.getD (i % 10) []) v) v
  (List.range 8).map (fun i => Nat.xor (Nat.xor (vget h i) (vget v i)) (vget v (i + 8)))

/-- Split the message into 128-byte blocks (at least one, possibly empty). -/
def blakeBlocks (msg : List ℕ) : List (List ℕ) :=
  if msg.length = 0 then [[]]
  else
    let rec go (fuel : ℕ) (bs : List ℕ) : List (List ℕ) :=
      match fuel with
      | 0 => []
      | fuel + 1 =>
          if bs.length ≤ 128 then [bs]
          else bs.take 128 :: go fuel (bs.drop 128)
    go (msg.length + 1) msg

/-- BLAKE2b with `digest_size = nn` bytes and no key. -/
def blake2bBytes (nn : ℕ) (msg : List ℕ) : List ℕ :=
  let h0 := vset blakeIV 0 (Nat.xor (vget blakeIV 0) (0x01010000 + nn))
  let blocks := blakeBlocks msg
  let nblocks := blocks.length
  let h := (List.range nblocks).foldl
    (fun h i =>
      let b := blocks.getD i []
      if i + 1 = nblocks then
        blakeCompress h (b ++ List.replicate (128 - b.length) 0) msg.length true
      else
        blakeCompress h b ((i + 1) * 128) false)
    h0
  ((h.map (fun w => (List.range 8).map (fun j => (w >>> (8 * j)) % 256))).join).take nn

def byteHex (b : ℕ) : Str := [hexDigitCh (b / 16), hexDigitCh (b % 16)]

/-- `hashlib.blake2b(blob, digest_size=16).hexdigest()`. -/
def blake2b16Hex (msg : List ℕ) : Str :=
  ((blake2bBytes 16 msg).map byteHex).join

/-- `state_store.py::_compute_seal_from_urls`. -/
def compute_seal_from_urls (urls : List Str) : Str :=
  blake2b16Hex (utf8Encode (dumps_canonical_urls urls))

/-! ## `app/core/state_store.py::SigilStateStore` (in-memory part)

Persistence and pruning are modelled separately (`load_registry_from_obj`
below); the store here is the in-memory registry with its three caches. -/

structure KaiMoment where
  pulse : ℤ := 0
  beat : ℤ := 0
  stepIndex : ℤ := 0

structure SigilEntry where
  url : Str
  payload : Payload

structure SigilState where
  total_urls : ℕ
  latest : KaiMoment
  state_seal : Str
  registry : List SigilEntry
  urls : List Str

structure Store where
  registry : Registry
  cache_urls : Option (List Str)
  cache_seal : Str
  cache_state : Option SigilState

/-- A freshly constructed store without persistence: empty registry,
`_cache_urls = None`, `_cache_seal = ""`, `_cache_state = None`. -/
def store_init : Store :=
  { registry := [], cache_urls := Option.none, cache_seal := [], cache_state := Option.none }

def invalidate_cache (s : Store) : Store :=
  { s with cache_urls := Option.none, cache_seal := [], cache_state := Option.none }

/-- `_ensure_urls_cache`. -/
def ensure_urls_cache (s : Store) : Store :=
  match s.cache_urls with
  | Option.some _ => s
  | Option.none =>
      let ordered := build_ordered_urls s.registry
      { s with cache_urls := Option.some ordered,
               cache_seal := compute_seal_from_urls ordered }

/-- `_ensure_state_cache`. -/
def ensure_state_cache (s : Store) : Store :=
  match s.cache_state with
  | Option.some _ => s
  | Option.none =>
      let s := ensure_urls_cache s
      let urls := s.cache_urls.getD []
      let entries := urls.filterMap
        (fun u => (dget s.registry u).map (fun p => SigilEntry.mk u p))
      let payloads := entries.map SigilEntry.payload
      let latest :=
        if payloads.isEmpty then ({} : KaiMoment)
        else
          let lt := latest_kai payloads
          KaiMoment.mk lt.1 lt.2.1 lt.2.2
      let st : SigilState :=
        { total_urls := entries.length, latest := latest,
          state_seal := s.cache_seal, registry := entries, urls := urls }
      { s with cache_state := Option.some st }

/-- `get_seal`: ensure the urls cache, then return the cached seal. -/
def get_seal (s : Store) : Str × Store :=
  let s' := ensure_urls_cache s
  (s'.cache_seal, s')

/-- `get_state`: ensure the state cache, then return (a shallow copy of)
the cached state. -/
def get_state (s : Store) : Option SigilState × Store :=
  let s' := ensure_state_cache s
  (s'.cache_state, s')

/-- `exhale_urls`. -/
def exhale_urls (s : Store) : List Str × Store :=
  let s' := ensure_urls_cache s
  (s'.cache_urls.getD [], s')

/-- `exhale_urls_page`: clamps `offset ≥ 0`, `limit ≥ 1`. -/
def exhale_urls_page (s : Store) (offset limit : ℤ) : (List Str × ℕ) × Store :=
  let o : ℕ := (max 0 offset).toNat
  let l : ℕ := (max 1 limit).toNat
  let s' := ensure_urls_cache s
  let cache := s'.cache_urls.getD []
  (((cache.drop o).take l, cache.length), s')

/-! ## `urllib.parse` (CPython 3.11) — the parts used by `url_extract.py`

Modelled from CPython's `urllib/parse.py`: `urlsplit`, `urlunsplit`,
`urlparse`/`urlunparse` (params handling), `urljoin`, `quote(…, safe='')`,
`unquote`, `parse_qs`.  Caveats, noted inline: `str.lower()` is modelled on
ASCII (the URLs in scope are ASCII; Unicode case mapping is not modelled),
and the newer bracketed-host/IDNA validation of `urlsplit` is modelled by
the mismatched-bracket check only. -/

def isAsciiAlpha (c : Char) : Bool := ('a' ≤ c && c ≤ 'z') || ('A' ≤ c && c ≤ 'Z')

/-- `_WHATWG_C0_CONTROL_OR_SPACE` (codepoints 0x00–0x20). -/
def c0OrSpace (c : Char) : Bool := c.toNat ≤ 0x20

/-- `_UNSAFE_URL_BYTES_TO_REMOVE` = tab, CR, LF (removed anywhere). -/
def removeUnsafe (s : Str) : Str :=
  s.filter (fun c => ¬ (c = '\t' ∨ c = '\r' ∨ c = '\n'))

/-- `scheme_chars`. -/
def schemeChar (c : Char) : Bool :=
  isAsciiAlpha c || isDigitCh c || c = '+' || c = '-' || c = '.'

/-- `s.split(c, 1)`: `some (before, after)` at the first occurrence. -/
def splitOnceCh (c : Char) : Str → Option (Str × Str)
  | [] => Option.none
  | x :: xs =>
      if x = c then Option.some ([], xs)
      else (splitOnceCh c xs).map (fun p => (x :: p.1, p.2))

/-- Python `str.split(c)` (single-character separator, no maxsplit). -/
def splitChar (c : Char) : Str → List Str
  | [] => [[]]
  | x :: xs =>
      let r := splitChar c xs
      if x = c then [] :: r else (x :: r.headD []) :: r.tail

/-- The scheme-detection step of `urlsplit`: `i = url.find(':')`,
`if i > 0 and url[0].isascii() and url[0].isalpha()` and all of `url[:i]`
are scheme characters, split off the lowercased scheme. -/
def trySplitScheme (url : Str) : Str × Str :=
  match splitOnceCh ':' url with
  | Option.none => ([], url)
  | Option.some (pre, post) =>
      match pre with
      | [] => ([], url)
      | c :: _ =>
          if isAsciiAlpha c ∧ pre.all schemeChar then (pre.map asciiLower, post)
          else ([], url)

structure SplitRes where
  scheme : Str
  netloc : Str
  path : Str
  query : Str
  fragment : Str
deriving DecidableEq, Repr

def notNetlocDelim (c : Char) : Bool := ¬ (c = '/' ∨ c = '?' ∨ c = '#')

/-- The `_splitnetloc` step of `urlsplit`: splits off the netloc when the
remainder starts with `//`, raising `ValueError` on mismatched brackets. -/
def splitNetloc (u2 : Str) : Except PyErr (Str × Str) :=
  if u2.take 2 = ['/', '/'] then
    let rest := u2.drop 2
    let n := rest.takeWhile notNetlocDelim
    let r := rest.drop n.length
    if ('[' ∈ n ∧ ']' ∉ n) ∨ (']' ∈ n ∧ '[' ∉ n) then .error .value
    else .ok (n, r)
  else .ok (([] : Str), u2)

/-- `urlsplit(url)` (with `allow_fragments=True`); raises `ValueError` on a
netloc with mismatched brackets. -/
def urlsplit (url0 : Str) : Except PyErr SplitRes :=
  let url1 := removeUnsafe (url0.dropWhile c0OrSpace)
  let (scheme, u2) := trySplitScheme url1
  match splitNetloc u2 with
  | .error e => .error e
  | .ok (netloc, u3) =>
    let (u4, fragment) :=
      match splitOnceCh '#' u3 with
      | Option.some (a, b) => (a, b)
      | Option.none => (u3, ([] : Str))
    let (path, query) :=
      match splitOnceCh '?' u4 with
      | Option.some (a, b) => (a, b)
      | Option.none => (u4, ([] : Str))
    .ok ⟨scheme, netloc, path, query, fragment⟩

def usesRelative : List Str :=
  [ofS "", ofS "ftp", ofS "http", ofS "gopher", ofS "nntp", ofS "imap",
   ofS "wais", ofS "file", ofS "https", ofS "shttp", ofS "mms",
   ofS "prospero", ofS "rtsp", ofS "rtsps", ofS "rtspu", ofS "sftp",
   ofS "svn", ofS "svn+ssh", ofS "ws", ofS "wss"]

def usesNetloc : List Str :=
  [ofS "", ofS "ftp", ofS "http", ofS "gopher", ofS "nntp", ofS "telnet",
   ofS "imap", ofS "wais", ofS "file", ofS "mms", ofS "https", ofS "shttp",
   ofS "snews", ofS "prospero", ofS "rtsp", ofS "rtsps", ofS "rtspu",
   ofS "rsync", ofS "svn", ofS "svn+ssh", ofS "sftp", ofS "nfs",
   ofS "git", ofS "git+ssh", ofS "ws", ofS "wss"]

def usesParams : List Str :=
  [ofS "", ofS "ftp", ofS "hdl", ofS "prospero", ofS "http", ofS "imap",
   ofS "https", ofS "shttp", ofS "rtsp", ofS "rtsps", ofS "rtspu", ofS "sip",
   ofS "sips", ofS "mms", ofS "sftp", ofS "tel"]

/-- `urlunsplit` (CPython 3.11). -/
def urlunsplit (t : SplitRes) : Str :=
  let url := t.path
  let url :=
    if t.netloc ≠ [] ∨ (t.scheme ≠ [] ∧ usesNetloc.contains t.scheme ∧ url.take 2 ≠ ['/', '/']) then
      let url' := if url ≠ [] ∧ url.take 1 ≠ ['/'] then '/' :: url else url
      ['/', '/'] ++ t.netloc ++ url'
    else url
  let url := if t.scheme ≠ [] then t.scheme ++ ':' :: url else url
  let url := if t.query ≠ [] then url ++ '?' :: t.query else url
  if t.fragment ≠ [] then url ++ '#' :: t.fragment else url

structure ParseRes where
  scheme : Str
  netloc : Str
  path : Str
  params : Str
  query : Str
  fragment : Str
deriving DecidableEq, Repr

/-- Index of the first occurrence of `c` at or after position `start`. -/
def idxOfFrom (c : Char) (s : Str) (start : ℕ) : Option ℕ :=
  ((s.drop start).findIdx? (fun x => x = c)).map (fun k => start + k)

/-- Index of the last occurrence of `c` (`str.rfind`), `none` if absent. -/
def rIdxOf (c : Char) (s : Str) : Option ℕ :=
  (s.reverse.findIdx? (fun x => x = c)).map (fun k => s.length - 1 - k)

/-- `_splitparams` (called only when `';' in url`). -/
def splitparams (url : Str) : Str × Str :=
  if '/' ∈ url then
    match idxOfFrom ';' url ((rIdxOf '/' url).getD 0) with
    | Option.some i => (url.take i, url.drop (i + 1))
    | Option.none => (url, [])
  else
    match splitOnceCh ';' url with
    | Option.some (a, b) => (a, b)
    | Option.none => (url, [])

/-- The params split as `urlparse` applies it: only for schemes that use
params and paths containing `;`. -/
def paramsSplit (scheme path : Str) : Str × Str :=
  if usesParams.contains scheme ∧ ';' ∈ path then splitparams path
  else (path, ([] : Str))

/-- Reattaching params to a path, as `urlunparse` does. -/
def reassembleParams (pp : Str × Str) : Str :=
  if pp.2 ≠ [] then pp.1 ++ ';' :: pp.2 else pp.1

/-- `urlparse(url, defScheme)`: `urlsplit` plus the params split and the
default scheme. -/
def urlparse (url : Str) (defScheme : Str) : Except PyErr ParseRes :=
  match urlsplit url with
  | .error e => .error e
  | .ok t =>
    let scheme := if t.scheme = [] then defScheme else t.scheme
    let (path, params) := paramsSplit scheme t.path
    .ok ⟨scheme, t.netloc, path, params, t.query, t.fragment⟩

/-- `urlunparse`. -/
def urlunparse (t : ParseRes) : Str :=
  urlunsplit ⟨t.scheme, t.netloc, reassembleParams (t.path, t.params), t.query, t.fragment⟩

/-- `segments[1:-1] = filter(None, segments[1:-1])`. -/
def filterInterior (segs : List Str) : List Str :=
  match segs with
  | [] => []
  | [a] => [a]
  | a :: rest => a :: ((rest.dropLast.filter (fun s => s ≠ [])) ++ [rest.getLastD []])

/-- The relative-path merge of `urljoin`: the segment list, dot-segment
resolution and re-join. -/
def joinPath (bpath upath : Str) : Str :=
  let baseParts0 := splitChar '/' bpath
  let baseParts := if baseParts0.getLastD [] ≠ [] then baseParts0.dropLast else baseParts0
  let segments :=
    if upath.take 1 = ['/'] then splitChar '/' upath
    else filterInterior (baseParts ++ splitChar '/' upath)
  let resolved := segments.foldl
    (fun acc seg =>
      if seg = ofS ".." then acc.dropLast
      else if seg = ofS "." then acc
      else acc ++ [seg])
    ([] : List Str)
  let resolved :=
    if segments.getLastD [] = ofS ".." ∨ segments.getLastD [] = ofS "." then
      resolved ++ [[]]
    else resolved
  let joined := List.intercalate ['/'] resolved
  if joined = [] then ['/'] else joined

/-- `urljoin(base, url)` (CPython 3.11). -/
def urljoin (base url : Str) : Except PyErr Str :=
  if base = [] then .ok url
  else if url = [] then .ok base
  else match urlparse base [] with
  | .error e => .error e
  | .ok b =>
    match urlparse url b.scheme with
    | .error e => .error e
    | .ok u =>
      if u.scheme ≠ b.scheme ∨ ¬ usesRelative.contains u.scheme then .ok url
      else if usesNetloc.contains u.scheme ∧ u.netloc ≠ [] then .ok (urlunparse u)
      else
        let netloc := if usesNetloc.contains u.scheme then b.netloc else u.netloc
        if u.path = [] ∧ u.params = [] then
          let query := if u.query = [] then b.query else u.query
          .ok (urlunparse ⟨u.scheme, netloc, b.path, b.params, query, u.fragment⟩)
        else
          .ok (urlunparse ⟨u.scheme, netloc, joinPath b.path u.path, u.params,
            u.query, u.fragment⟩)

/-! ### `quote`, `unquote`, `parse_qs` -/

def isHexCh (c : Char) : Bool :=
  isDigitCh c || ('a' ≤ c && c ≤ 'f') || ('A' ≤ c && c ≤ 'F')

def hexChVal (c : Char) : ℕ :=
  if isDigitCh c then c.toNat - '0'.toNat
  else if 'a' ≤ c ∧ c ≤ 'f' then c.toNat - 'a'.toNat + 10
  else c.toNat - 'A'.toNat + 10

def hexDigitUpper (n : ℕ) : Char :=
  if n < 10 then Char.ofNat ('0'.toNat + n) else Char.ofNat ('A'.toNat + n - 10)

/-- `_ALWAYS_SAFE` bytes: letters, digits, `_.-~`. -/
def alwaysSafeByte (b : ℕ) : Bool :=
  (0x41 ≤ b && b ≤ 0x5a) || (0x61 ≤ b && b ≤ 0x7a) || (0x30 ≤ b && b ≤ 0x39) ||
  b = '_'.toNat || b = '.'.toNat || b = '-'.toNat || b = '~'.toNat

/-- `quote(s, safe='')`: UTF-8 encode, percent-encode every byte outside
`_ALWAYS_SAFE` with uppercase hex. -/
def quoteAll (s : Str) : Str :=
  ((utf8Encode s).map (fun b =>
    if alwaysSafeByte b then [Char.ofNat b]
    else ['%', hexDigitUpper (b / 16), hexDigitUpper (b % 16)])).join

/-- Percent-decode one ASCII run to bytes (`unquote_to_bytes` on a run):
`%` followed by two hex digits becomes a byte; otherwise the `%` is
literal. -/
def pctBytes : Str → List ℕ
  | [] => []
  | '%' :: a :: b :: rest =>
      if isHexCh a ∧ isHexCh b then (hexChVal a * 16 + hexChVal b) :: pctBytes rest
      else '%'.toNat :: pctBytes (a :: b :: rest)
  | c :: rest => c.toNat :: pctBytes rest

def isContByte (b : ℕ) : Bool := 0x80 ≤ b && b ≤ 0xbf

/-- The U+FFFD replacement character. -/
def replCh : Char := Char.ofNat 0xfffd

/-- `bytes.decode('utf-8', errors='replace')` (fuel-based; the fuel is the
byte count, which bounds the recursion). -/
def utf8DecodeReplaceF : ℕ → List ℕ → Str
  | 0, _ => []
  | _, [] => []
  | fuel + 1, b :: bs =>
      if b < 0x80 then Char.ofNat b :: utf8DecodeReplaceF fuel bs
      else if 0xc2 ≤ b ∧ b ≤ 0xdf then
        match bs with
        | b2 :: rest =>
            if isContByte b2 then
              Char.ofNat ((b - 0xc0) * 64 + (b2 - 0x80)) :: utf8DecodeReplaceF fuel rest
            else replCh :: utf8DecodeReplaceF fuel bs
        | [] => [replCh]
      else if 0xe0 ≤ b ∧ b ≤ 0xef then
        match bs with
        | b2 :: b3 :: rest =>
            if (isContByte b2 ∧ (b ≠ 0xe0 ∨ 0xa0 ≤ b2) ∧ (b ≠ 0xed ∨ b2 ≤ 0x9f)) then
              if isContByte b3 then
                Char.ofNat ((b - 0xe0) * 4096 + (b2 - 0x80) * 64 + (b3 - 0x80)) ::
                  utf8DecodeReplaceF fuel rest
              else replCh :: utf8DecodeReplaceF fuel (b3 :: rest)
            else replCh :: utf8DecodeReplaceF fuel (b2 :: b3 :: rest)
        | [b2] =>
            if isContByte b2 ∧ (b ≠ 0xe0 ∨ 0xa0 ≤ b2) ∧ (b ≠ 0xed ∨ b2 ≤ 0x9f) then [replCh]
            else [replCh, replCh]
        | [] => [replCh]
      else if 0xf0 ≤ b ∧ b ≤ 0xf4 then
        match bs with
        | b2 :: b3 :: b4 :: rest =>
            if isContByte b2 ∧ (b ≠ 0xf0 ∨ 0x90 ≤ b2) ∧ (b ≠ 0xf4 ∨ b2 ≤ 0x8f) then
              if isContByte b3 then
                if isContByte b4 then
                  Char.ofNat ((b - 0xf0) * 262144 + (b2 - 0x80) * 4096 +
                    (b3 - 0x80) * 64 + (b4 - 0x80)) :: utf8DecodeReplaceF fuel rest
                else replCh :: utf8DecodeReplaceF fuel (b4 :: rest)
              else replCh :: utf8DecodeReplaceF fuel (b3 :: b4 :: rest)
            else replCh :: utf8DecodeReplaceF fuel (b2 :: b3 :: b4 :: rest)
        | _ => [replCh]
      else replCh :: utf8DecodeReplaceF fuel bs

def utf8DecodeReplace (bs : List ℕ) : Str := utf8DecodeReplaceF bs.length bs

/-- `unquote(s)` (per-ASCII-run percent decoding, UTF-8 with replacement;
non-ASCII characters pass through unchanged). -/
def unquoteF : ℕ → Str → Str
  | 0, _ => []
  | fuel + 1, s =>
      match s with
      | [] => []
      | c :: rest =>
          if c.toNat < 0x80 then
            let run := s.takeWhile (fun c' => c'.toNat < 0x80)
            utf8DecodeReplace (pctBytes run) ++ unquoteF fuel (s.drop run.length)
          else c :: unquoteF fuel rest

def unquote (s : Str) : Str := unquoteF s.length s

/-- `safe_decode_uri_component` (`unquote` never raises with
`errors='replace'`). -/
def safe_decode_uri_component (s : Str) : Str := unquote s

def plusToSpace (s : Str) : Str := s.map (fun c => if c = '+' then ' ' else c)

/-- `parse_qsl(qs, keep_blank_values=False)` with separator `&`. -/
def parse_qsl (qs : Str) : List (Str × Str) :=
  let args := if qs = [] then [] else splitChar '&' qs
  args.filterMap (fun nv =>
    if nv = [] then Option.none
    else
      match splitOnceCh '=' nv with
      | Option.none => Option.none
      | Option.some (n, v) =>
          if v = [] then Option.none
          else Option.some (unquote (plusToSpace n), unquote (plusToSpace v)))

/-- `parse_qs(qs, keep_blank_values=False)`. -/
def parse_qs (qs : Str) : List (Str × List Str) :=
  (parse_qsl qs).foldl
    (fun acc nv =>
      match dget acc nv.1 with
      | Option.some vs => dset acc nv.1 (vs ++ [nv.2])
      | Option.none => acc ++ [(nv.1, [nv.2])])
    []

/-! ## `app/core/url_extract.py`: canonicaliser and token candidates -/

def b64urlChar (c : Char) : Bool :=
  isAsciiAlpha c || isDigitCh c || c = '_' || c = '-'

/-- `looks_like_bare_token`. -/
def looks_like_bare_token (s : Str) : Bool :=
  let t := pyStrip s
  16 ≤ t.length && t.all b64urlChar

/-- `_P_TILDE_RE` `^/p~([^/]+)$` as a capture. -/
def pTildeToken (path : Str) : Option Str :=
  if path.take 3 = ofS "/p~" then
    let tok := path.drop 3
    if tok ≠ [] ∧ '/' ∉ tok then Option.some tok else Option.none
  else Option.none

/-- `_STREAM_P_TILDE_RE` `^/stream/p~([^/]+)$`. -/
def streamPTildeToken (path : Str) : Option Str :=
  if path.take 10 = ofS "/stream/p~" then
    let tok := path.drop 10
    if tok ≠ [] ∧ '/' ∉ tok then Option.some tok else Option.none
  else Option.none

/-- `_STREAM_P_RE` `^/stream/p/([^/]+)$`. -/
def streamPToken (path : Str) : Option Str :=
  if path.take 10 = ofS "/stream/p/" then
    let tok := path.drop 10
    if tok ≠ [] ∧ '/' ∉ tok then Option.some tok else Option.none
  else Option.none

/-- `_STREAM_C_RE` `^/stream/c/([0-9a-fA-F]{16,})$`. -/
def streamCMatch (path : Str) : Bool :=
  path.take 10 = ofS "/stream/c/" &&
    (let h := path.drop 10
     16 ≤ h.length && h.all isHexCh)

/-- `_canonicalize_parsed`: lowercase scheme and netloc, recompose. -/
def canonicalize_parsed (u : SplitRes) : Str :=
  urlunsplit { u with scheme := u.scheme.map asciiLower, netloc := u.netloc.map asciiLower }

/-- `canonicalize_url(url, base_origin=…)`. -/
def canonicalize_url (url : Str) (base_origin : Str) : Except PyErr Str :=
  let raw := pyStrip url
  if raw = [] then .ok []
  else
    let raw := if looks_like_bare_token raw then ofS "/stream/p/" ++ raw else raw
    match urljoin base_origin raw with
    | .error e => .error e
    | .ok abs_url =>
      match urlsplit abs_url with
      | .error e => .error e
      | .ok u =>
        match pTildeToken u.path with
        | Option.some tok =>
            .ok (canonicalize_parsed { u with path := ofS "/stream/p/" ++ quoteAll tok })
        | Option.none =>
          match streamPTildeToken u.path with
          | Option.some tok =>
              .ok (canonicalize_parsed { u with path := ofS "/stream/p/" ++ quoteAll tok })
          | Option.none => .ok (canonicalize_parsed u)

/-! ## `json.loads` / `json.dumps` (the parts used by `jsonio.py`)

A recursive-descent parser for Python's `json.loads` (strict mode, with the
Python extensions `NaN`, `Infinity`, `-Infinity`).  Finite floats are kept
as exact rationals (CPython converts to IEEE doubles; no claim depends on
float rounding).  Lone surrogates in `\u` escapes are rejected (they are
unrepresentable in Lean's `Char`; none of the data here contains them). -/

def lbraceCh : Char := Char.ofNat 0x7b
def rbraceCh : Char := Char.ofNat 0x7d

def jsonWsCh (c : Char) : Bool := c = ' ' || c = '\t' || c = '\n' || c = '\r'

def skipWs (s : Str) : Str := s.dropWhile jsonWsCh

/-- Parse the body of a JSON string (after the opening quote): returns the
decoded string and the remainder after the closing quote. -/
def jsonStringF : ℕ → Str → Except PyErr (Str × Str)
  | 0, _ => throw .value
  | _, [] => throw .value
  | fuel + 1, c :: rest =>
      if c = '"' then pure ([], rest)
      else if c = '\\' then
        match rest with
        | [] => throw .value
        | e :: r2 =>
            if e = '"' ∨ e = '\\' ∨ e = '/' then do
              let (s, r) ← jsonStringF fuel r2
              pure (e :: s, r)
            else if e = 'b' then do
              let (s, r) ← jsonStringF fuel r2
              pure (Char.ofNat 0x08 :: s, r)
            else if e = 'f' then do
              let (s, r) ← jsonStringF fuel r2
              pure (Char.ofNat 0x0c :: s, r)
            else if e = 'n' then do
              let (s, r) ← jsonStringF fuel r2
              pure ('\n' :: s, r)
            else if e = 'r' then do
              let (s, r) ← jsonStringF fuel r2
              pure ('\r' :: s, r)
            else if e = 't' then do
              let (s, r) ← jsonStringF fuel r2
              pure ('\t' :: s, r)
            else if e = 'u' then
              match r2 with
              | h1 :: h2 :: h3 :: h4 :: r3 =>
                  if isHexCh h1 ∧ isHexCh h2 ∧ isHexCh h3 ∧ isHexCh h4 then
                    let cp := ((hexChVal h1 * 16 + hexChVal h2) * 16 + hexChVal h3) * 16 + hexChVal h4
                    if 0xd800 ≤ cp ∧ cp ≤ 0xdbff then
                      match r3 with
                      | '\\' :: 'u' :: l1 :: l2 :: l3 :: l4 :: r4 =>
                          if isHexCh l1 ∧ isHexCh l2 ∧ isHexCh l3 ∧ isHexCh l4 then
                            let lo := ((hexChVal l1 * 16 + hexChVal l2) * 16 + hexChVal l3) * 16 + hexChVal l4
                            if 0xdc00 ≤ lo ∧ lo ≤ 0xdfff then do
                              let (s, r) ← jsonStringF fuel r4
                              pure (Char.ofNat (0x10000 + (cp - 0xd800) * 1024 + (lo - 0xdc00)) :: s, r)
                            else throw .value
                          else throw .value
                      | _ => throw .value
                    else if 0xdc00 ≤ cp ∧ cp ≤ 0xdfff then throw .value
                    else do
                      let (s, r) ← jsonStringF fuel r3
                      pure (Char.ofNat cp :: s, r)
                  else throw .value
              | _ => throw .value
            else throw .value
      else if c.toNat < 0x20 then throw .value
      else do
        let (s, r) ← jsonStringF fuel rest
        pure (c :: s, r)

/-- JSON number at the head of `s` (regex
`(-?(?:0|[1-9]\d*))(\.\d+)?([eE][-+]?\d+)?`): `none` when the regex does
not match at the start. -/
def jsonNumber (s : Str) : Option (PyVal × Str) :=
  let (neg, s1) := match s with
    | '-' :: t => (true, t)
    | t => (false, t)
  match s1 with
  | [] => Option.none
  | c :: _ =>
      if ¬ isDigitCh c then Option.none
      else
        let (ip, r0) :=
          if c = '0' then ([c], s1.tail)
          else s1.span isDigitCh
        let (fp, r1) :=
          match r0 with
          | '.' :: t =>
              let (f, r) := t.span isDigitCh
              if f = [] then (([] : Str), r0) else (f, r)
          | _ => ([], r0)
        let (ep, r2) :=
          match r1 with
          | e :: t =>
              if e = 'e' ∨ e = 'E' then
                let (sg, t1) := match t with
                  | '+' :: t' => ((1 : ℤ), t')
                  | '-' :: t' => ((-1 : ℤ), t')
                  | _ => ((1 : ℤ), t)
                let (ed, r) := t1.span isDigitCh
                if ed = [] then (Option.none, r1) else (Option.some (sg * (digitsVal ed : ℤ)), r)
              else (Option.none, r1)
          | _ => (Option.none, r1)
        if fp = [] ∧ ep = Option.none then
          let n : ℤ := if neg then -(digitsVal ip : ℤ) else (digitsVal ip : ℤ)
          Option.some (.int n, r0)
        else
          let mant : ℚ := (digitsVal ip : ℚ) + (digitsVal fp : ℚ) / ((10 : ℚ) ^ fp.length)
          let v : ℚ := mant * (10 : ℚ) ^ (ep.getD 0)
          Option.some (.float (.fin (if neg then -v else v)), r2)

/-- The scanner of `json.loads`, as a single fuel-indexed function so that
it evaluates by kernel reduction.  Mode 0 parses a value, mode 1 the
elements of a non-empty array, mode 2 the members of a non-empty object
(accumulating into `acc`); these are the scanner's three mutually recursive
procedures.  Every call consumes fuel; `pyJsonLoads` supplies fuel
`3·|s| + 8`, which bounds the number of calls for any input. -/
def jsonP : ℕ → ℕ → List (Str × PyVal) → Str → Except PyErr (PyVal × Str)
  | 0, _, _, _ => throw .value
  | f + 1, 0, _, s =>
      (match s with
       | [] => throw .value
       | c :: rest =>
          if c = '"' then do
            let (str, r) ← jsonStringF rest.length rest
            pure (.str str, r)
          else if c = lbraceCh then
            let s1 := skipWs rest
            match s1 with
            | c2 :: r2 =>
                if c2 = rbraceCh then pure (.dict [], r2)
                else jsonP f 2 [] s1
            | [] => throw .value
          else if c = '[' then
            let s1 := skipWs rest
            match s1 with
            | ']' :: r2 => pure (.list [], r2)
            | _ => jsonP f 1 [] s1
          else if s.take 4 = ofS "true" then pure (.bool true, s.drop 4)
          else if s.take 5 = ofS "false" then pure (.bool false, s.drop 5)
          else if s.take 4 = ofS "null" then pure (.none, s.drop 4)
          else if s.take 3 = ofS "NaN" then pure (.float .nan, s.drop 3)
          else if s.take 8 = ofS "Infinity" then pure (.float .inf, s.drop 8)
          else if s.take 9 = ofS "-Infinity" then pure (.float .ninf, s.drop 9)
          else
            match jsonNumber s with
            | Option.some (v, r) => pure (v, r)
            | Option.none => throw .value)
  | f + 1, 1, _, s => do
      let (v, r) ← jsonP f 0 [] s
      let r1 := skipWs r
      match r1 with
      | ',' :: r2 => do
          let (vs, r3) ← jsonP f 1 [] (skipWs r2)
          match vs with
          | .list xs => pure (.list (v :: xs), r3)
          | _ => throw .value
      | ']' :: r2 => pure (.list [v], r2)
      | _ => throw .value
  | f + 1, 2, acc, s =>
      (match s with
       | '"' :: r => do
          let (k, r1) ← jsonStringF r.length r
          let r2 := skipWs r1
          match r2 with
          | ':' :: r3 => do
              let (v, r4) ← jsonP f 0 [] (skipWs r3)
              let acc' := dset acc k v
              let r5 := skipWs r4
              match r5 with
              | ',' :: r6 => jsonP f 2 acc' (skipWs r6)
              | c :: r6 =>
                  if c = rbraceCh then pure (.dict acc', r6) else throw .value
              | [] => throw .value
          | _ => throw .value
       | _ => throw .value)
  | _, _ + 3, _, _ => throw .value

/-- `json.loads`. -/
def pyJsonLoads (s : Str) : Except PyErr PyVal := do
  let s1 := skipWs s
  let (v, rest) ← jsonP (3 * s1.length + 8) 0 [] s1
  if skipWs rest = [] then pure v else throw .value

/-- `bytes.decode('utf-8')` (strict). -/
def utf8DecodeStrictF : ℕ → List ℕ → Except PyErr Str
  | _, [] => pure []
  | 0, _ => throw .value
  | fuel + 1, b :: bs =>
      if b < 0x80 then do
        let s ← utf8DecodeStrictF fuel bs
        pure (Char.ofNat b :: s)
      else if 0xc2 ≤ b ∧ b ≤ 0xdf then
        match bs with
        | b2 :: rest =>
            if isContByte b2 then do
              let s ← utf8DecodeStrictF fuel rest
              pure (Char.ofNat ((b - 0xc0) * 64 + (b2 - 0x80)) :: s)
            else throw .value
        | [] => throw .value
      else if 0xe0 ≤ b ∧ b ≤ 0xef then
        match bs with
        | b2 :: b3 :: rest =>
            if isContByte b2 ∧ (b ≠ 0xe0 ∨ 0xa0 ≤ b2) ∧ (b ≠ 0xed ∨ b2 ≤ 0x9f) ∧ isContByte b3 then do
              let s ← utf8DecodeStrictF fuel rest
              pure (Char.ofNat ((b - 0xe0) * 4096 + (b2 - 0x80) * 64 + (b3 - 0x80)) :: s)
            else throw .value
        | _ => throw .value
      else if 0xf0 ≤ b ∧ b ≤ 0xf4 then
        match bs with
        | b2 :: b3 :: b4 :: rest =>
            if isContByte b2 ∧ (b ≠ 0xf0 ∨ 0x90 ≤ b2) ∧ (b ≠ 0xf4 ∨ b2 ≤ 0x8f) ∧
               isContByte b3 ∧ isContByte b4 then do
              let s ← utf8DecodeStrictF fuel rest
              pure (Char.ofNat ((b - 0xf0) * 262144 + (b2 - 0x80) * 4096 +
                (b3 - 0x80) * 64 + (b4 - 0x80)) :: s)
            else throw .value
        | _ => throw .value
      else throw .value

def utf8DecodeStrict (bs : List ℕ) : Except PyErr Str :=
  utf8DecodeStrictF bs.length bs

/-- `jsonio.py::loads_json_bytes`: strict UTF-8 decode, then `json.loads`
(both failures surface as `ValueError`). -/
def loads_json_bytes (blob : List ℕ) : Except PyErr PyVal := do
  let text ← utf8DecodeStrict blob
  pyJsonLoads text

/-! ## base64url and token decoding (`url_extract.py`) -/

/-- `_add_b64_padding`. -/
def add_b64_padding (s : Str) : Str :=
  let r := s.length % 4
  if r = 0 then s else s ++ List.replicate (4 - r) '='

def b64StdChar (c : Char) : Bool := isAsciiAlpha c || isDigitCh c || c = '+' || c = '/'

def b64Val (c : Char) : ℕ :=
  if 'A' ≤ c ∧ c ≤ 'Z' then c.toNat - 65
  else if 'a' ≤ c ∧ c ≤ 'z' then c.toNat - 97 + 26
  else if isDigitCh c then c.toNat - 48 + 52
  else if c = '+' then 62
  else 63

def b64FlushQuad (quad : List ℕ) : List ℕ :=
  match quad with
  | [a, b, c, d] =>
      let x := ((a * 64 + b) * 64 + c) * 64 + d
      [x / 65536, (x / 256) % 256, x % 256]
  | _ => []

def b64Partial (quad : List ℕ) : List ℕ :=
  match quad with
  | [a, b] => [a * 4 + b / 16]
  | [a, b, c] => [a * 4 + b / 16, (b % 16) * 16 + c / 4]
  | _ => []

/-- The state machine of `binascii.a2b_base64` in non-strict mode
(CPython 3.11): invalid characters are skipped; `=` with at least two
accumulated characters and enough total padding finishes the partial quad;
leftover characters at the end raise. -/
def b64Machine : Str → List ℕ → ℕ → Except PyErr (List ℕ)
  | [], quad, _ => if quad = [] then .ok [] else .error .value
  | c :: rest, quad, pads =>
      if c = '=' then
        if 2 ≤ quad.length ∧ 4 ≤ quad.length + (pads + 1) then .ok (b64Partial quad)
        else if 2 ≤ quad.length then b64Machine rest quad (pads + 1)
        else b64Machine rest quad pads
      else if b64StdChar c then
        let quad' := quad ++ [b64Val c]
        if quad'.length = 4 then do
          let out ← b64Machine rest [] pads
          pure (b64FlushQuad quad' ++ out)
        else b64Machine rest quad' pads
      else b64Machine rest quad pads

/-- `_decode_base64url_to_bytes`: strip, pad to a multiple of four,
`urlsafe_b64decode` (translate `-_` to `+/`, then the non-strict base64
machine), then the 2 MB cap. -/
def decode_base64url_to_bytes (token : Str) : Except PyErr (List ℕ) := do
  let raw := add_b64_padding (pyStrip token)
  let tr := raw.map (fun c => if c = '-' then '+' else if c = '_' then '/' else c)
  let out ← b64Machine tr [] 0
  if out.length > 2000000 then .error .value else .ok out

/-- `_strip_token_prefixes`: strip a single-letter `c:`/`j:`/`p:`/`t:`
prefix (the string must have length ≥ 3). -/
def strip_token_prefixes (token : Str) : Str :=
  let t := pyStrip token
  match t with
  | c :: ':' :: rest =>
      if rest ≠ [] ∧ (asciiLower c = 'c' ∨ asciiLower c = 'j' ∨ asciiLower c = 'p' ∨ asciiLower c = 't')
      then rest else t
  | _ => t

/-- `_parse_token_to_obj`: URL-decode, raw-JSON tokens (`{…}`), otherwise
prefix stripping + base64url + UTF-8 + JSON; must decode to an object. -/
def parse_token_to_obj (token : Str) : Except PyErr (List (Str × PyVal)) := do
  let tok := pyStrip (safe_decode_uri_component token)
  if tok.headD ' ' = lbraceCh ∧ tok.getLastD ' ' = rbraceCh then
    match pyJsonLoads tok with
    | .ok (.dict d) => pure d
    | .ok _ => throw .value
    | .error e => throw e
  else do
    let b64 := strip_token_prefixes tok
    let decoded ← decode_base64url_to_bytes b64
    let text ← utf8DecodeStrict decoded
    match pyJsonLoads text with
    | .ok (.dict d) => pure d
    | .ok _ => throw .value
    | .error e => throw e

/-! ## Candidate extraction and payload hits (`url_extract.py`) -/

structure UrlPayloadHit where
  url_key : Str
  payload : Payload

/-- `_extract_candidate_tokens_from_url`: path captures, then query
parameters `p`, `t`, `root`, `token`, then the same keys from the fragment;
de-duplicated in order after URL-decoding and stripping. -/
def extract_candidate_tokens_from_url (u : SplitRes) : List Str :=
  let path := u.path
  if streamCMatch path then []
  else
    let cPath :=
      (match streamPToken path with
       | Option.some t => [t]
       | Option.none => []) ++
      (match pTildeToken path with
       | Option.some t => [t]
       | Option.none => []) ++
      (match streamPTildeToken path with
       | Option.some t => [t]
       | Option.none => [])
    let q := parse_qs u.query
    let qc := ([ofS "p", ofS "t", ofS "root", ofS "token"].map
      (fun k => ((dget q k).getD []).filterMap
        (fun v => if pyStrip v ≠ [] then Option.some (pyStrip v) else Option.none))).join
    let frag := if u.fragment.take 1 = ['#'] then u.fragment.drop 1 else u.fragment
    let hc :=
      if frag ≠ [] then
        let h := parse_qs frag
        ([ofS "p", ofS "t", ofS "root", ofS "token"].map
          (fun k => ((dget h k).getD []).filterMap
            (fun v => if pyStrip v ≠ [] then Option.some (pyStrip v) else Option.none))).join
      else []
    let candidates := cPath ++ qc ++ hc
    (candidates.foldl
      (fun (acc : List Str × List Str) c =>
        let c2 := pyStrip (safe_decode_uri_component c)
        if c2 = [] then acc
        else if acc.2.contains c2 then acc
        else (acc.1 ++ [c2], acc.2 ++ [c2]))
      ([], [])).1

/-- Try candidate tokens until one parses and validates
(the per-candidate `try/except` of `extract_payload_from_url`). -/
def tryTokens : List Str → Option Payload
  | [] => Option.none
  | t :: rest =>
      match parse_token_to_obj t with
      | .ok d =>
          match model_validate (.dict d) with
          | .ok p => Option.some p
          | .error _ => tryTokens rest
      | .error _ => tryTokens rest

/-- `extract_payload_from_url`. -/
def extract_payload_from_url (url : Str) (base_origin : Str) :
    Except PyErr (Option UrlPayloadHit) := do
  let key ← canonicalize_url url base_origin
  if key = [] then return Option.none
  let u ← urlsplit key
  let candidates := extract_candidate_tokens_from_url u
  if candidates = [] then return Option.none
  match tryTokens candidates with
  | Option.some p => return Option.some ⟨key, p⟩
  | Option.none => return Option.none

/-- Python `sub in s` (substring test). -/
def strContains (s sub : Str) : Bool := decide (sub <:+: s)

/-- Relevance test of the extractor walk for string nodes. -/
def looksRelevant (s : Str) : Bool :=
  looks_like_bare_token s || strContains s (ofS "/stream") ||
  strContains s (ofS "/s/") || strContains s (ofS "/p~") || strContains s (ofS "http")

/-- `extract_many_payloads_from_any`'s `visit`: depth-first walk; strings
are tried when they look relevant; dict values and list elements are
recursed into; other primitives are ignored.  Implemented as a single
fuel-indexed function (list and dict tails recurse through the wrapped
constructors) so that it evaluates by kernel reduction; the caller supplies
fuel `2·(file size) + 4`, which bounds the walk for any value parsed from
the file's bytes. -/
def extract_walkF (base : Str) : ℕ → PyVal → Except PyErr (List UrlPayloadHit)
  | 0, _ => .ok []
  | f + 1, v =>
      match v with
      | .str x =>
          let s := pyStrip x
          if s = [] then .ok []
          else if looksRelevant s then do
            let h ← extract_payload_from_url s base
            pure (match h with
              | Option.some hit => [hit]
              | Option.none => [])
          else .ok []
      | .dict [] => .ok []
      | .dict (kv :: rest) => do
          let h1 ← extract_walkF base f kv.2
          let h2 ← extract_walkF base f (.dict rest)
          pure (h1 ++ h2)
      | .list [] => .ok []
      | .list (x :: xs) => do
          let h1 ← extract_walkF base f x
          let h2 ← extract_walkF base f (.list xs)
          pure (h1 ++ h2)
      | _ => .ok []

/-- `extract_many_payloads_from_any` (`fuel` bounds the walk; see
`extract_walkF`). -/
def extract_many_payloads_from_any (obj : PyVal) (base : Str) (fuel : ℕ) :
    Except PyErr (List UrlPayloadHit) :=
  extract_walkF base fuel obj

/-! ## Witness derivation (`app/core/witness.py` — absent from `src/`)

The repository imports `derive_witness_context`, `merge_derived_context`
and `synthesize_edges_from_witness_chain` from `app.core.witness`, a module
that is not part of the source tree.  The three definitions below are
modelled from the spec (§4.4, §4.5 step 6, §9). -/

structure WitnessCtx where
  chain : List Str
  originUrl : Option Str
  parentUrl : Option Str

def optStrMissing : Option Str → Bool
  | Option.none => true
  | Option.some s => pyStrip s = []

/-- Modelled from the spec: `witness.py::derive_witness_context` is missing
from `src/`.  §4.4: the `add` parameter (in query or fragment) encodes an
ordered witness chain `u₁ … uₙ`; the context canonicalises the chain and
sets `originUrl = canonicalize(u₁)`, `parentUrl = canonicalize(uₙ)` when
the chain is non-empty. -/
def derive_witness_context (url : Str) (base : Str) : Except PyErr WitnessCtx := do
  let u ← urlsplit url
  let qs := parse_qs u.query
  let frag := if u.fragment.take 1 = ['#'] then u.fragment.drop 1 else u.fragment
  let fs := parse_qs frag
  let addVals := ((dget qs (ofS "add")).getD []) ++ ((dget fs (ofS "add")).getD [])
  let raw := addVals.headD []
  let parts := ((splitChar ',' raw).map pyStrip).filter (fun p => p ≠ [])
  let canon ← parts.mapM (fun p => canonicalize_url p base)
  let chain := canon.filter (fun c => c ≠ [])
  pure { chain := chain, originUrl := chain.head?, parentUrl := chain.getLast? }

/-- Modelled from the spec: `witness.py::merge_derived_context` is missing
from `src/`.  §4.4: fills only missing topology fields; explicit fields in
the payload are never overwritten. -/
def merge_derived_context (p : Payload) (ctx : WitnessCtx) : Payload :=
  let p1 :=
    match ctx.originUrl with
    | Option.some o => if optStrMissing p.originUrl then { p with originUrl := Option.some o } else p
    | Option.none => p
  match ctx.parentUrl with
  | Option.some pr =>
      if optStrMissing p1.parentUrl then { p1 with parentUrl := Option.some pr } else p1
  | Option.none => p1

/-- `merge_engine.py::_ensure_url_in_registry`. -/
def ensure_url_in_registry (reg : Registry) (url : Str) (base : Str) :
    Except PyErr (Registry × Bool) := do
  let hit ← extract_payload_from_url url base
  match hit with
  | Option.none => pure (reg, false)
  | Option.some h =>
      if dmem reg h.url_key then pure (reg, false)
      else pure (dset reg h.url_key h.payload, true)

/-- Modelled from the spec: `witness.py::synthesize_edges_from_witness_chain`
is missing from `src/`.  §4.5 step 6 with the policy recommended in §9:
ensure every chain URL and the leaf are present (when their token decodes),
soft-fill `parentUrl` of each inserted URL from its predecessor in
`chain ++ [leaf]`, soft-fill `originUrl` of the leaf from the chain root;
never overwrite a non-missing field.  Returns the number of changes.
`synth_step` is the per-URL fold step. -/
def synth_fill1 (pred : Option Str) (p : Payload) : Payload × ℕ :=
  match pred with
  | Option.some pu =>
      if optStrMissing p.parentUrl then ({ p with parentUrl := Option.some pu }, 1)
      else (p, 0)
  | Option.none => (p, 0)

def synth_fill2 (u leaf : Str) (root : Option Str) (p : Payload) : Payload × ℕ :=
  if u = leaf then
    match root with
    | Option.some r =>
        if optStrMissing p.originUrl then ({ p with originUrl := Option.some r }, 1)
        else (p, 0)
    | Option.none => (p, 0)
  else (p, 0)

def synth_step (base leaf : Str) (root : Option Str)
    (acc : Registry × ℕ × Option Str) (u : Str) :
    Except PyErr (Registry × ℕ × Option Str) :=
  match ensure_url_in_registry acc.1 u base with
  | .error e => .error e
  | .ok (reg1, ins) =>
      let changes := acc.2.1 + (if ins then 1 else 0)
      match dget reg1 u with
      | Option.none => .ok (reg1, changes, Option.some u)
      | Option.some p =>
          let pc1 := synth_fill1 acc.2.2 p
          let pc2 := synth_fill2 u leaf root pc1.1
          if pc1.2 + pc2.2 = 0 then .ok (reg1, changes, Option.some u)
          else .ok (dset reg1 u pc2.1, changes + pc1.2 + pc2.2, Option.some u)

def synthesize_edges_from_witness_chain (chain : List Str) (leaf : Str)
    (reg : Registry) (base : Str) : Except PyErr (Registry × ℕ) :=
  match (chain ++ [leaf]).foldlM (synth_step base leaf chain.head?) (reg, 0, Option.none) with
  | .error e => .error e
  | .ok (reg, changes, _) => .ok (reg, changes)

/-- `merge_engine.py::_canonicalize_topology`. -/
def canonicalize_topology (p : Payload) (base : Str) : Except PyErr Payload := do
  let p1 ←
    match p.originUrl with
    | Option.some o0 =>
        if pyStrip o0 ≠ [] then do
          let o ← canonicalize_url o0 base
          if o ≠ [] ∧ o ≠ o0 then pure { p with originUrl := Option.some o } else pure p
        else pure p
    | Option.none => pure p
  match p.parentUrl with
  | Option.some pr0 =>
      if pyStrip pr0 ≠ [] then do
        let pr ← canonicalize_url pr0 base
        if pr ≠ [] ∧ pr ≠ pr0 then pure { p1 with parentUrl := Option.some pr } else pure p1
      else pure p1
  | Option.none => pure p1

/-- The loop of `_stitch_explicit_parent_chain` (`max_depth` as fuel).
Besides the registry and the change count it returns the trace of
`cur_url` values processed by the iterations that were entered, so the
claimed cycle-detection behaviour can be stated. -/
def stitch_origin_step (base : Str) (reg : Registry) (p : Payload) :
    Except PyErr (Registry × ℕ) :=
  match p.originUrl with
  | Option.some o0 =>
      if pyStrip o0 ≠ [] then
        match canonicalize_url o0 base with
        | .error e => .error e
        | .ok o =>
            if o ≠ [] then
              match ensure_url_in_registry reg o base with
              | .error e => .error e
              | .ok (reg', ins) => .ok (reg', if ins then (1 : ℕ) else 0)
            else .ok (reg, 0)
      else .ok (reg, (0 : ℕ))
  | Option.none => .ok (reg, (0 : ℕ))

def stitch_loop (base : Str) : ℕ → Registry → Str → Except PyErr (Registry × ℕ × List Str)
  | 0, reg, _ => .ok (reg, 0, [])
  | fuel + 1, reg, cur =>
      match dget reg cur with
      | Option.none => .ok (reg, 0, [cur])
      | Option.some p =>
          match stitch_origin_step base reg p with
          | .error e => .error e
          | .ok (reg, c1) =>
              match p.parentUrl with
              | Option.some pr0 =>
                  if pyStrip pr0 ≠ [] then
                    match canonicalize_url pr0 base with
                    | .error e => .error e
                    | .ok parent =>
                        if parent = [] then .ok (reg, c1, [cur])
                        else
                          match ensure_url_in_registry reg parent base with
                          | .error e => .error e
                          | .ok (reg, ins) =>
                              match stitch_loop base fuel reg parent with
                              | .error e => .error e
                              | .ok (reg, c3, tr) =>
                                  .ok (reg, c1 + (if ins then 1 else 0) + c3, cur :: tr)
                  else .ok (reg, c1, [cur])
              | Option.none => .ok (reg, c1, [cur])

/-- `_stitch_explicit_parent_chain` with its default `max_depth = 128`. -/
def stitch_explicit_parent_chain (reg : Registry) (start_url : Str) (base : Str) :
    Except PyErr (Registry × ℕ × List Str) :=
  stitch_loop base 128 reg start_url

/-! ## `inhale_files_into_registry` (`merge_engine.py`) -/

structure InhaleReport where
  crystals_total : ℕ := 0
  crystals_imported : ℕ := 0
  crystals_failed : ℕ := 0
  registry_urls : ℕ := 0
  latest_pulse : Option ℤ := Option.none
  errors : List PyErr := []

/-- The registry effect of one extracted hit (the inner loop body of
`inhale_files_into_registry`): the new registry together with the `changed`
flag of the upsert.  The loop body touches the report only through that
flag, so the two are factored apart. -/
def process_hit_core (base : Str) (reg : Registry) (hit : UrlPayloadHit) :
    Except PyErr (Registry × Bool) := do
  let url_key ← canonicalize_url hit.url_key base
  if url_key = [] then pure (reg, false)
  else do
    let ctx ← derive_witness_context url_key base
    let merged_leaf := merge_derived_context hit.payload ctx
    let merged_leaf ← canonicalize_topology merged_leaf base
    let (reg, changed) ← upsert_payload reg url_key merged_leaf
    let (reg, _) ←
      if ctx.chain ≠ [] then synthesize_edges_from_witness_chain ctx.chain url_key reg base
      else pure (reg, (0 : ℕ))
    let (reg, _, _) ← stitch_loop base 128 reg url_key
    pure (reg, changed)

/-- Process one extracted hit: the registry effect plus the report update
(`crystals_imported` bumped when the upsert changed the registry). -/
def process_hit (base : Str) (reg : Registry) (report : InhaleReport)
    (hit : UrlPayloadHit) : Except PyErr (Registry × InhaleReport) :=
  (process_hit_core base reg hit).map (fun rc =>
    (rc.1,
     if rc.2 then { report with crystals_imported := report.crystals_imported + 1 }
     else report))

/-- Process one uploaded file. -/
def process_file (base : Str) (reg : Registry) (report : InhaleReport)
    (file : Str × List ℕ) : Except PyErr (Registry × InhaleReport) := do
  match loads_json_bytes file.2 with
  | .error e =>
      pure (reg, { report with crystals_failed := report.crystals_failed + 1,
                               errors := report.errors ++ [e] })
  | .ok obj => do
      let hits ← extract_many_payloads_from_any obj base (2 * file.2.length + 4)
      let report := { report with crystals_total := report.crystals_total + hits.length }
      hits.foldlM (fun (acc : Registry × InhaleReport) h => process_hit base acc.1 acc.2 h)
        (reg, report)

/-- `inhale_files_into_registry`: mutates the registry over all files, then
fills `registry_urls` and `latest_pulse` (max over `pulse` fields). -/
def inhale_files_into_registry (reg0 : Registry) (files : List (Str × List ℕ))
    (base : Str) : Except PyErr (Registry × InhaleReport) := do
  let (reg, report) ← files.foldlM
    (fun (acc : Registry × InhaleReport) f => process_file base acc.1 acc.2 f)
    (reg0, {})
  let latest_pulse := reg.foldl
    (fun acc kv =>
      match (kv : Str × Payload).2.pulse with
      | Option.none => acc
      | Option.some pu =>
          match acc with
          | Option.none => Option.some pu
          | Option.some m => if pu > m then Option.some pu else Option.some m)
    Option.none
  pure (reg, { report with registry_urls := reg.length, latest_pulse := latest_pulse })

/-! ## Loading persisted state (`state_store.py::_load_from_disk_best_effort`)

The file-system part is I/O; the registry reconstruction from the parsed
JSON object (lines 149–161) is modelled here: keys are accepted verbatim
(only non-empty strings), payload dicts are validated, malformed entries
are dropped. -/

def load_registry_from_obj (obj : Option PyVal) : Registry :=
  match obj with
  | Option.some (.dict o) =>
      match dget o (ofS "registry") with
      | Option.some (.dict reg) =>
          reg.foldl
            (fun acc kv =>
              if pyStrip kv.1 = [] then acc
              else
                match kv.2 with
                | .dict pd =>
                    match model_validate (.dict pd) with
                    | .ok p => dset acc kv.1 p
                    | .error _ => acc
                | _ => acc)
            []
      | _ => []
  | _ => []

/-! ## Concrete instances and helper definitions used by the theorems -/

/-- The default `KAI_BASE_ORIGIN`. -/
def defaultBase : Str := ofS "https://example.invalid"

/-- The payload with no fields set. -/
def payload0 : Payload :=
  { pulse := Option.none, beat := Option.none, stepIndex := Option.none,
    chakraDay := Option.none, kaiSignature := Option.none,
    originUrl := Option.none, parentUrl := Option.none,
    userPhiKey := Option.none, phiKey := Option.none, phikey := Option.none,
    extras := [] }

/-- A store holding `reg` with empty caches (the state after `_invalidate_cache`,
or after construction for `reg = {}`). -/
def store_of_registry (reg : Registry) : Store :=
  { registry := reg, cache_urls := Option.none, cache_seal := [], cache_state := Option.none }

/-- Lexicographic view of a Kai tuple (for order reasoning). -/
def toLexT (k : KaiT) : ℤ ×ₗ ℤ ×ₗ ℤ := toLex (k.1, toLex (k.2.1, k.2.2))

/-- A payload with Kai tuple `(1, 1, 1)`. -/
def p111 : Payload :=
  { payload0 with pulse := Option.some 1, beat := Option.some 1, stepIndex := Option.some 1 }

/-- Two registry entries with equal Kai tuples and URLs `"a" < "b"`. -/
def c1reg : Registry := [(ofS "a", p111), (ofS "b", p111)]

def pay150 : Payload :=
  { payload0 with pulse := Option.some 1, beat := Option.some 5, stepIndex := Option.some 0 }

def pay200 : Payload :=
  { payload0 with pulse := Option.some 2, beat := Option.some 0, stepIndex := Option.some 0 }

/-- A registry whose componentwise tuple maximum `(2, 5, 0)` differs from its
lexicographic maximum `(2, 0, 0)`. -/
def c2reg : Registry := [(ofS "https://h/u1", pay150), (ofS "https://h/u2", pay200)]

/-- The state snapshot built for a registry (through `get_state` on a fresh
store). -/
def state_of_registry (reg : Registry) : Option SigilState :=
  (get_state (store_of_registry reg)).1

/-- Two URLs forming an explicit parent cycle (both canonical, neither
carries a decodable token). -/
def stitchA : Str := ofS "https://h/a"

def stitchB : Str := ofS "https://h/b"

def stitchCycReg : Registry :=
  [(stitchA, { payload0 with parentUrl := Option.some stitchB }),
   (stitchB, { payload0 with parentUrl := Option.some stitchA })]

/-- The trace of `cur_url` values processed by
`_stitch_explicit_parent_chain` (empty when the call raises). -/
def stitch_trace (reg : Registry) (start_url : Str) (base : Str) : List Str :=
  match stitch_explicit_parent_chain reg start_url base with
  | .ok (_, _, tr) => tr
  | .error _ => []

/-- A `/stream/p/<token>` URL whose token is percent-encoded raw JSON
`{"pulse":1,"originUrl":"QQQQQQQQQQQQQQQQ"}` — the registry key `K`. -/
def cexKtok : Str := ofS "%7B%22pulse%22:1,%22originUrl%22:%22QQQQQQQQQQQQQQQQ%22%7D"

def cexK : Str := ofS "https://h/stream/p/" ++ cexKtok

/-- A `/stream/p/<token>` URL whose token decodes (through the double
URL-decoding performed by candidate extraction and token parsing) to
`{"pulse":1,"parentUrl":"<K>"}`. -/
def cexLtok : Str := ofS "%7B%22pulse%22:1,%22parentUrl%22:%22https:%2F%2Fh%2Fstream%2Fp%2F%25257B%252522pulse%252522:1,%252522originUrl%252522:%252522QQQQQQQQQQQQQQQQ%252522%25257D%22%7D"

def cexL : Str := ofS "https://h/stream/p/" ++ cexLtok

/-- One-hit file containing the URL `K`. -/
def cexF1 : Str × List ℕ := (ofS "f1.json", utf8Encode (ofS "\x7b\"a\":\"" ++ cexK ++ ofS "\"\x7d"))

/-- One-hit file containing the URL `L` (whose payload's `parentUrl` is `K`). -/
def cexF2 : Str × List ℕ := (ofS "f2.json", utf8Encode (ofS "\x7b\"a\":\"" ++ cexL ++ ofS "\"\x7d"))

/-- Final registry of the batch `[F1, F2]` on an empty registry. -/
def c3regA : Registry :=
  match inhale_files_into_registry [] [cexF1, cexF2] defaultBase with
  | .ok (r, _) => r
  | .error _ => []

/-- Final registry of the batch `[F2, F1]` on an empty registry. -/
def c3regB : Registry :=
  match inhale_files_into_registry [] [cexF2, cexF1] defaultBase with
  | .ok (r, _) => r
  | .error _ => []

/-- The alias-normalisation input `{"u": "5"}` (string-valued short key). -/
def c9d : List (Str × PyVal) := [(ofS "u", .str (ofS "5"))]

/-- A persisted-state object whose registry key is not canonical. -/
def c8obj : PyVal := .dict [(ofS "registry", .dict [(ofS "HTTPS://h/x", .dict [])])]

/-- `k` is a fixed point of the canonicaliser for `base` — the invariant
claimed for registry keys. -/
def IsCanonKey (base k : Str) : Prop := canonicalize_url k base = .ok k

/-- C7 counterexample data: a base origin that does not parse as an
absolute URL, and an input whose dot segments collapse to a bare token. -/
def c7base1 : Str := ofS "abc"

def c7u1 : Str := ofS "x/../zzzzzzzzzzzzzzzzz"

/-- C7 counterexample data: an absolute base origin with a trailing space
in its path, and the input `"?"`. -/
def c7base2 : Str := ofS "https://h/x "

def c7u2 : Str := ofS "?"

/-- C7 counterexample data: a well-formed absolute base origin together with
an input that carries a foreign scheme with an empty netloc: `urlunsplit`
inserts `///`, turning the path into `/p~TOK`, which only the second pass
rewrites. -/
def c7base3 : Str := ofS "https://h"

def c7u3 : Str := ofS "ftp:p~TOK"

/-- `p111` enriched with a signature (same Kai tuple, higher richness). -/
def p111rich : Payload := { p111 with kaiSignature := Option.some (ofS "sig") }

/-- A concrete dict for the C9 witness: `beat` present, `u` an int alias. -/
def c9wd : List (Str × PyVal) := [(ofS "beat", .int 7), (ofS "u", .int 5)]

/-- A character that survives all of `urlsplit`'s cleaning and Python's
`str.strip`: not C0-control-or-space and not Python whitespace. -/
def goodCh (c : Char) : Bool := ¬ c0OrSpace c && ¬ pyIsSpace c

/-- A string of `goodCh` characters (whitespace- and control-free). -/
def goodStr (s : Str) : Bool := s.all goodCh

/-- The path adjustment `urlunsplit` applies inside a netloc URL: a
non-empty path that does not start with `/` gets one prepended. -/
def normPath (p : Str) : Str :=
  if p = [] then [] else if p.take 1 = ['/'] then p else '/' :: p

/-- The last `/`-separated segment of a path. -/
def lastSeg (x : Str) : Str := (splitChar '/' x).getLastD []

/-- A path whose final segment either has no `;`, or has a non-empty params
part after its first `;`: exactly the paths on which `urlparse`'s params
split followed by `urlunparse`'s reattachment is lossless. -/
def SegSafe (x : Str) : Prop :=
  x = [] ∨ ∃ A L, x = A ++ '/' :: L ∧ '/' ∉ L ∧
    (';' ∉ L ∨ ∃ L1 L2, L = L1 ++ ';' :: L2 ∧ ';' ∉ L1 ∧ L2 ≠ [])

/-- The shape of every non-empty `canonicalize_url` output against an
absolute base with scheme `sch`: a recomposed URL whose netloc is non-empty,
lowercase and delimiter-free, and whose path is normalised, free of `?`/`#`,
matched by neither `p~` pattern, and params-safe.  This is the invariant that
makes a second canonicalisation pass the identity. -/
def CanonForm (sch v : Str) : Prop :=
  ∃ N P2 Q F, v = urlunsplit ⟨sch, N, P2, Q, F⟩ ∧
    N ≠ [] ∧ N.all notNetlocDelim = true ∧
    ¬ (('[' ∈ N ∧ ']' ∉ N) ∨ (']' ∈ N ∧ '[' ∉ N)) ∧
    goodStr N = true ∧ N.map asciiLower = N ∧
    goodStr P2 = true ∧ '?' ∉ P2 ∧ '#' ∉ P2 ∧ normPath P2 = P2 ∧
    pTildeToken P2 = Option.none ∧ streamPTildeToken P2 = Option.none ∧
    (usesParams.contains sch = true → ';' ∈ P2 → SegSafe P2) ∧
    goodStr Q = true ∧ '#' ∉ Q ∧ goodStr F = true

/-- `k` is a possible output of the canonicaliser against `base`: the key
provenance invariant of the ingestion pipeline. -/
def KeyCanon (base k : Str) : Prop := ∃ x, canonicalize_url x base = .ok k

/-! # Theorems -/

/-- C4 (the code at the failing input): `_safe_int(float('inf'))` raises
`OverflowError` — `int()` of an infinite float is evaluated outside any
`try` — so the coercion is not total on JSON-producible values
(`json.loads("Infinity")` yields exactly this float). -/
theorem safe_int_raises_on_infinity :
    safe_int (.float .inf) = .error .overflow ∧
    safe_int (.float .ninf) = .error .overflow ∧
    pyJsonLoads (ofS "Infinity") = .ok (.float .inf) :=
  ⟨rfl, rfl, rfl⟩

/-- C1 (the code at the failing input): on two entries with equal Kai
tuples and URLs `"a" < "b"`, `build_ordered_urls` returns `["b", "a"]` —
the tie breaks by URL *descending* (the `reverse=True` sort reverses the
URL component of the key too), contradicting the claimed (and
docstring-stated) URL-ascending tie-break, which would give `["a", "b"]`. -/
theorem build_ordered_urls_tie_descending :
    build_ordered_urls c1reg = [ofS "b", ofS "a"] ∧
    kai_tuple_from_payload p111 = kai_tuple_from_payload p111 ∧
    str_lt (ofS "a") (ofS "b") = true :=
  ⟨rfl, rfl, rfl⟩

/-- C9 counterexample: on the dict `{"u": "5"}` (no `pulse` key present),
alias normalisation adds no `pulse` key at all — the mapping `u→pulse` is
applied only to `int`-typed values, not "for every input dict" as
claimed. -/
theorem normalize_aliases_u_string_not_mapped :
    dget c9d (ofS "u") = Option.some (.str (ofS "5")) ∧
    dmem c9d (ofS "pulse") = false ∧
    dget (normalize_aliases c9d) (ofS "pulse") = Option.none :=
  ⟨rfl, rfl, rfl⟩

/-- C8 counterexample: loading the persisted object
`{"registry": {"HTTPS://h/x": {}}}` puts the verbatim key `"HTTPS://h/x"`
into the registry, although it is not a fixed point of the canonicaliser
(which lowercases the scheme and host) — the load path never
re-canonicalises keys. -/
theorem load_registry_key_not_canonical :
    dkeys (load_registry_from_obj (Option.some c8obj)) = [ofS "HTTPS://h/x"] ∧
    canonicalize_url (ofS "HTTPS://h/x") defaultBase = .ok (ofS "https://h/x") ∧
    (ofS "HTTPS://h/x" : Str) ≠ ofS "https://h/x" :=
  ⟨rfl, rfl, by decide⟩

set_option maxRecDepth 8000 in
/-- C5 counterexample: on a two-URL explicit-parent cycle the stitch walk
revisits its start URL at the third iteration (`trace[2] = trace[0]`) and
keeps walking for the full 128 iterations — there is no visited-set and no
early stop on a cycle, contradicting "stops as soon as … it reaches a URL
already visited". -/
theorem stitch_cycle_not_detected :
    (stitch_trace stitchCycReg stitchA defaultBase).length = 128 ∧
    (stitch_trace stitchCycReg stitchA defaultBase).getD 0 [] = stitchA ∧
    (stitch_trace stitchCycReg stitchA defaultBase).getD 2 [] = stitchA :=
  ⟨rfl, rfl, rfl⟩

set_option maxRecDepth 200000 in
/-- C3 counterexample: the batches `[F1, F2]` and `[F2, F1]` — the same
multiset of files — leave different registry contents: the payload at key
`K` ends with a canonicalised `originUrl` in one order and with the raw
bare-token `originUrl` in the other (first-writer-wins at equal Kai tuples
and equal richness is not commutative). -/
theorem inhale_order_dependent :
    List.Perm [cexF1, cexF2] [cexF2, cexF1] ∧
    (dget c3regA cexK).map Payload.originUrl =
      Option.some (Option.some (ofS "https://example.invalid/stream/p/QQQQQQQQQQQQQQQQ")) ∧
    (dget c3regB cexK).map Payload.originUrl =
      Option.some (Option.some (ofS "QQQQQQQQQQQQQQQQ")) :=
  ⟨List.Perm.swap _ _ _, rfl, rfl⟩

set_option maxRecDepth 400000 in
/-- C10: on a freshly constructed store (empty registry, empty caches),
`get_seal` builds the URL cache and returns the BLAKE2b-128 hex digest of
the canonical JSON `{"urls":[]}` — the fixed 32-character constant
`fbace09c6439af5ec18a780e9c7c8131` — and in particular never the empty
string. -/
theorem get_seal_empty_store :
    (get_seal store_init).1 = compute_seal_from_urls [] ∧
    compute_seal_from_urls [] = ofS "fbace09c6439af5ec18a780e9c7c8131" ∧
    (compute_seal_from_urls []).length = 32 ∧
    (get_seal store_init).1 ≠ [] ∧
    dumps_canonical_urls [] = ofS "\x7b\"urls\":[]\x7d" :=
  ⟨rfl, rfl, rfl, by decide, rfl⟩

/-! ## Order lemmas for Kai tuples -/

theorem tup_lt_irrefl (a : KaiT) : tup_lt a a = false := by
  obtain ⟨a1, a2, a3⟩ := a
  simp [tup_lt]

theorem tup_lt_asymm {a b : KaiT} (h : tup_lt a b = true) : tup_lt b a = false := by
  obtain ⟨a1, a2, a3⟩ := a
  obtain ⟨b1, b2, b3⟩ := b
  simp only [tup_lt, Bool.or_eq_true, Bool.or_eq_false_iff, Bool.and_eq_true,
    Bool.and_eq_false_iff, decide_eq_true_eq, decide_eq_false_iff_not,
    beq_iff_eq, beq_eq_false_iff_ne, ne_eq, not_lt] at h ⊢
  omega

theorem tup_lt_connex {a b : KaiT} (h : a ≠ b) :
    tup_lt a b = true ∨ tup_lt b a = true := by
  obtain ⟨a1, a2, a3⟩ := a
  obtain ⟨b1, b2, b3⟩ := b
  simp only [ne_eq, Prod.mk.injEq, not_and] at h
  simp only [tup_lt, Bool.or_eq_true, Bool.and_eq_true, decide_eq_true_eq, beq_iff_eq]
  by_cases h1 : a1 = b1
  · subst h1
    by_cases h2 : a2 = b2
    · subst h2
      have h3 : ¬ a3 = b3 := fun h3 => h rfl rfl h3
      omega
    · omega
  · omega

theorem tup_ge_trans {a b c : KaiT} (h1 : tup_lt a b = false) (h2 : tup_lt b c = false) :
    tup_lt a c = false := by
  obtain ⟨a1, a2, a3⟩ := a
  obtain ⟨b1, b2, b3⟩ := b
  obtain ⟨c1, c2, c3⟩ := c
  simp only [tup_lt, Bool.or_eq_false_iff, Bool.and_eq_false_iff,
    decide_eq_false_iff_not, beq_eq_false_iff_ne, ne_eq, not_lt] at h1 h2 ⊢
  omega

/-- C6: when the Kai tuples differ, `_merge_payload` is commutative (the
newer payload becomes the base either way); on equal tuples the payload
with strictly higher richness score becomes the base, and on equal scores
the first argument (`prev`) stays the base. -/
theorem merge_payload_commutes_and_ties (a b : Payload) :
    (kai_tuple_from_payload a ≠ kai_tuple_from_payload b →
      merge_payload a b = merge_payload b a) ∧
    (kai_tuple_from_payload a = kai_tuple_from_payload b →
      (richness_score b > richness_score a → merge_payload a b = merge_fill b a) ∧
      (richness_score b ≤ richness_score a → merge_payload a b = merge_fill a b)) := by
  constructor
  · intro hne
    rcases tup_lt_connex hne with h | h
    · simp [merge_payload, h, tup_lt_asymm h]
    · simp [merge_payload, h, tup_lt_asymm h]
  · intro heq
    constructor
    · intro hrich
      simp [merge_payload, heq, tup_lt_irrefl, hrich]
    · intro hle
      simp [merge_payload, heq, tup_lt_irrefl, Nat.not_lt.mpr hle]

/-- Witness for `merge_payload_commutes_and_ties`: distinct tuples
(`p111` vs `pay200`), a strictly richer tie (`p111` vs `p111rich`), and an
equal-richness tie (`p111` vs itself). -/
theorem merge_payload_commutes_and_ties_witness :
    merge_payload p111 pay200 = merge_payload pay200 p111 ∧
    merge_payload p111 p111rich = merge_fill p111rich p111 ∧
    merge_payload p111 p111 = merge_fill p111 p111 :=
  ⟨(merge_payload_commutes_and_ties p111 pay200).1 (by decide),
   ((merge_payload_commutes_and_ties p111 p111rich).2 (by decide)).1 (by decide),
   ((merge_payload_commutes_and_ties p111 p111).2 rfl).2 (by decide)⟩

/-! ## C2: `latest` is the lexicographic, not componentwise, maximum -/

/-- C2 counterexample: with payload tuples `(1,5,0)` and `(2,0,0)` the
snapshot's `latest` is the lexicographic maximum `(2,0,0)`, not the
claimed componentwise maximum `(2,5,0)`. -/
theorem state_latest_not_componentwise :
    (state_of_registry c2reg).map
        (fun st => (st.latest.pulse, st.latest.beat, st.latest.stepIndex)) =
      Option.some ((2 : ℤ), (0 : ℤ), (0 : ℤ)) ∧
    kai_tuple_from_payload pay150 = ((1 : ℤ), (5 : ℤ), (0 : ℤ)) ∧
    kai_tuple_from_payload pay200 = ((2 : ℤ), (0 : ℤ), (0 : ℤ)) :=
  ⟨rfl, rfl, rfl⟩

/-- The fold of `latest_kai`, with an explicit accumulator. -/
theorem latest_kai_fold_ge (ps : List Payload) (init : KaiT) :
    tup_lt (ps.foldl (fun latest p =>
        if tup_lt latest (kai_tuple_from_payload p) then kai_tuple_from_payload p
        else latest) init) init = false ∧
    ∀ p ∈ ps,
      tup_lt (ps.foldl (fun latest p =>
        if tup_lt latest (kai_tuple_from_payload p) then kai_tuple_from_payload p
        else latest) init) (kai_tuple_from_payload p) = false := by
  induction ps generalizing init with
  | nil => exact ⟨tup_lt_irrefl init, by simp⟩
  | cons q qs ih =>
      simp only [List.foldl_cons]
      set step := if tup_lt init (kai_tuple_from_payload q) then kai_tuple_from_payload q else init with hstep
      have hstep_init : tup_lt step init = false := by
        by_cases h : tup_lt init (kai_tuple_from_payload q) = true
        · simp only [hstep, h, if_true]
          exact tup_lt_asymm h
        · simp only [hstep, Bool.not_eq_true] at h
          simp only [hstep, h, if_false]
          exact tup_lt_irrefl init
      have hstep_q : tup_lt step (kai_tuple_from_payload q) = false := by
        by_cases h : tup_lt init (kai_tuple_from_payload q) = true
        · simp only [hstep, h, if_true]
          exact tup_lt_irrefl _
        · simp only [hstep, Bool.not_eq_true] at h
          simp only [hstep, h, if_false]
          exact h
      obtain ⟨ih1, ih2⟩ := ih step
      refine ⟨tup_ge_trans ih1 hstep_init, ?_⟩
      intro p hp
      rcases List.mem_cons.mp hp with rfl | hp
      · exact tup_ge_trans ih1 hstep_q
      · exact ih2 p hp

theorem latest_kai_fold_mem (ps : List Payload) (init : KaiT) :
    (ps.foldl (fun latest p =>
        if tup_lt latest (kai_tuple_from_payload p) then kai_tuple_from_payload p
        else latest) init) = init ∨
    ∃ p ∈ ps, (ps.foldl (fun latest p =>
        if tup_lt latest (kai_tuple_from_payload p) then kai_tuple_from_payload p
        else latest) init) = kai_tuple_from_payload p := by
  induction ps generalizing init with
  | nil => exact Or.inl rfl
  | cons q qs ih =>
      simp only [List.foldl_cons]
      rcases ih (if tup_lt init (kai_tuple_from_payload q) then kai_tuple_from_payload q else init) with h | ⟨p, hp, hep⟩
      · by_cases hq : tup_lt init (kai_tuple_from_payload q) = true
        · right
          exact ⟨q, List.mem_cons_self q qs, by simpa [hq] using h⟩
        · left
          simpa [hq] using h
      · right
        exact ⟨p, List.mem_cons_of_mem q hp, hep⟩

theorem dget_mem {α : Type} {d : List (Str × α)} {k : Str} {v : α}
    (h : dget d k = Option.some v) : (k, v) ∈ d := by
  induction d with
  | nil => simp [dget] at h
  | cons kv rest ih =>
      obtain ⟨k', v'⟩ := kv
      simp only [dget] at h
      by_cases hk : k' = k
      · rw [if_pos hk] at h
        obtain rfl : v' = v := Option.some.inj h
        subst hk
        exact List.mem_cons_self _ _
      · simp only [if_neg hk] at h
        exact List.mem_cons_of_mem _ (ih h)

theorem dget_of_mem_nodup {α : Type} {d : List (Str × α)} {k : Str} {v : α}
    (hmem : (k, v) ∈ d) (hnd : (dkeys d).Nodup) : dget d k = Option.some v := by
  induction d with
  | nil => simp at hmem
  | cons kv rest ih =>
      obtain ⟨k', v'⟩ := kv
      simp only [dkeys, List.map_cons, List.nodup_cons] at hnd
      rcases List.mem_cons.mp hmem with h | h
      · cases h
        simp [dget]
      · have hk : k' ≠ k := by
          intro he
          exact hnd.1 (he ▸ (List.mem_map.mpr ⟨(k, v), h, rfl⟩))
        simp only [dget, if_neg hk]
        exact ih h (by simpa [dkeys] using hnd.2)

theorem insDesc_perm (x : Str × Payload) (l : List (Str × Payload)) :
    List.Perm (insDesc x l) (x :: l) := by
  induction l with
  | nil => simp [insDesc]
  | cons y ys ih =>
      simp only [insDesc]
      by_cases h : item_key_lt y x = true
      · simp [h]
      · simp only [Bool.not_eq_true] at h
        simp only [h, if_false]
        exact (ih.cons y).trans (List.Perm.swap x y ys)

theorem sortDesc_perm (l : List (Str × Payload)) : List.Perm (sortDesc l) l := by
  induction l with
  | nil => simp [sortDesc]
  | cons x xs ih => exact (insDesc_perm x (sortDesc xs)).trans (ih.cons x)


/-- Partial snapshot helper: `get_state` on a fresh store always yields a
snapshot, and its `latest` tuple is the `latest_kai` fold over the payloads
of its entry list. -/
theorem state_latest_eq (reg : Registry) :
    ∃ st, state_of_registry reg = Option.some st ∧
      (st.latest.pulse, st.latest.beat, st.latest.stepIndex) =
        latest_kai (((build_ordered_urls reg).filterMap
          (fun u => (dget reg u).map (fun p => SigilEntry.mk u p))).map SigilEntry.payload) := by
  refine ⟨_, rfl, ?_⟩
  dsimp only [state_of_registry, get_state, store_of_registry, ensure_state_cache,
    ensure_urls_cache]
  by_cases hc : ((((build_ordered_urls reg).filterMap
      (fun u => (dget reg u).map (fun p => SigilEntry.mk u p))).map SigilEntry.payload)).isEmpty
  · have hnil := List.isEmpty_iff.mp hc
    simp only [Option.getD, hc, if_true, hnil, latest_kai, List.foldl_nil]
    rfl
  · simp only [Option.getD, hc, if_false]
    rfl

/-- C2 amended: for every registry with distinct keys, the snapshot's
`latest` is the *lexicographic* maximum of `(0,0,0)` and all payload Kai
tuples: it is not below any payload tuple in the lexicographic tuple order
`tup_lt`, and it is either `(0,0,0)` or one of the payload tuples. -/
theorem state_latest_lex_max (reg : Registry) (hnd : (dkeys reg).Nodup) :
    ∃ st, state_of_registry reg = Option.some st ∧
      (∀ kv ∈ reg,
        tup_lt (st.latest.pulse, st.latest.beat, st.latest.stepIndex)
          (kai_tuple_from_payload kv.2) = false) ∧
      ((st.latest.pulse, st.latest.beat, st.latest.stepIndex) = ((0 : ℤ), 0, 0) ∨
        ∃ kv ∈ reg,
          (st.latest.pulse, st.latest.beat, st.latest.stepIndex) =
            kai_tuple_from_payload kv.2) := by
  obtain ⟨st, hst, hstt⟩ := state_latest_eq reg
  set payloads := (((build_ordered_urls reg).filterMap
      (fun u => (dget reg u).map (fun p => SigilEntry.mk u p))).map SigilEntry.payload)
    with hpayloads
  have pay_sub : ∀ p ∈ payloads, ∃ kv, kv ∈ reg ∧ p = kv.2 := by
    intro p hp
    simp only [hpayloads, List.mem_map] at hp
    obtain ⟨e, he, hep⟩ := hp
    simp only [List.mem_filterMap] at he
    obtain ⟨u, _, hu⟩ := he
    cases hdg : dget reg u with
    | none => simp [hdg] at hu
    | some q =>
        simp only [hdg, Option.map] at hu
        cases hu
        exact ⟨(u, q), dget_mem hdg, by simpa using hep.symm⟩
  have sub_pay : ∀ kv ∈ reg, kv.2 ∈ payloads := by
    intro kv hkv
    have hmemurls : kv.1 ∈ build_ordered_urls reg := by
      simp only [build_ordered_urls]
      exact List.mem_map.mpr ⟨kv, (sortDesc_perm reg).mem_iff.mpr hkv, rfl⟩
    have hdg : dget reg kv.1 = Option.some kv.2 :=
      dget_of_mem_nodup (by simpa using hkv) hnd
    simp only [hpayloads, List.mem_map]
    refine ⟨SigilEntry.mk kv.1 kv.2, ?_, rfl⟩
    simp only [List.mem_filterMap]
    exact ⟨kv.1, hmemurls, by simp [hdg, Option.map]⟩
  refine ⟨st, hst, ?_, ?_⟩
  · intro kv hkv
    rw [hstt]
    have := (latest_kai_fold_ge payloads (0, 0, 0)).2
    exact this kv.2 (sub_pay kv hkv)
  · rcases latest_kai_fold_mem payloads (0, 0, 0) with h | ⟨p, hp, hep⟩
    · left
      rw [hstt]
      exact h
    · right
      obtain ⟨kv, hkv, hpe⟩ := pay_sub p hp
      exact ⟨kv, hkv, by rw [hstt]; exact hpe ▸ hep⟩

/-- Witness for the C2 amended theorem at the concrete registry `c2reg`. -/
theorem state_latest_lex_max_witness :
    ((dkeys c2reg).Nodup) ∧
    ∃ st, state_of_registry c2reg = Option.some st ∧
      (∀ kv ∈ c2reg,
        tup_lt (st.latest.pulse, st.latest.beat, st.latest.stepIndex)
          (kai_tuple_from_payload kv.2) = false) ∧
      ((st.latest.pulse, st.latest.beat, st.latest.stepIndex) = ((0 : ℤ), 0, 0) ∨
        ∃ kv ∈ c2reg,
          (st.latest.pulse, st.latest.beat, st.latest.stepIndex) =
            kai_tuple_from_payload kv.2) :=
  ⟨by decide, state_latest_lex_max c2reg (by decide)⟩

theorem stitch_loop_trace_len (base : Str) :
    ∀ fuel reg cur r, stitch_loop base fuel reg cur = .ok r → r.2.2.length ≤ fuel := by
  intro fuel
  induction fuel with
  | zero =>
      intro reg cur r h
      simp only [stitch_loop] at h
      cases h
      simp
  | succ fuel ih =>
      intro reg cur r h
      simp only [stitch_loop] at h
      cases hdg : dget reg cur with
      | none =>
          rw [hdg] at h
          dsimp only at h
          cases h
          simp
      | some p =>
          rw [hdg] at h
          dsimp only at h
          cases hos : stitch_origin_step base reg p with
          | error e => rw [hos] at h; cases h
          | ok rc =>
              obtain ⟨reg1, c1⟩ := rc
              rw [hos] at h
              dsimp only at h
              cases hpr : p.parentUrl with
              | none =>
                  rw [hpr] at h
                  dsimp only at h
                  cases h
                  simp
              | some pr0 =>
                  rw [hpr] at h
                  dsimp only at h
                  by_cases hstrip : pyStrip pr0 ≠ []
                  · rw [if_pos hstrip] at h
                    cases hcan : canonicalize_url pr0 base with
                    | error e => rw [hcan] at h; cases h
                    | ok parent =>
                        rw [hcan] at h
                        dsimp only at h
                        by_cases hpar : parent = []
                        · rw [if_pos hpar] at h
                          cases h
                          simp
                        · rw [if_neg hpar] at h
                          cases hens : ensure_url_in_registry reg1 parent base with
                          | error e => rw [hens] at h; cases h
                          | ok ri =>
                              obtain ⟨reg2, ins⟩ := ri
                              rw [hens] at h
                              dsimp only at h
                              cases hrec : stitch_loop base fuel reg2 parent with
                              | error e => rw [hrec] at h; cases h
                              | ok rr =>
                                  obtain ⟨reg3, c3, tr⟩ := rr
                                  rw [hrec] at h
                                  dsimp only at h
                                  cases h
                                  have := ih reg2 parent (reg3, c3, tr) hrec
                                  simpa using Nat.succ_le_succ this
                  · rw [if_neg hstrip] at h
                    cases h
                    simp

/-- C5 amended: the explicit-parent-chain stitch never performs more than
128 hops: the trace of processed URLs has length at most 128, for every
registry, start URL and base origin. -/
theorem stitch_depth_le_128 (reg : Registry) (start_url base : Str) :
    (stitch_trace reg start_url base).length ≤ 128 := by
  unfold stitch_trace
  cases h : stitch_explicit_parent_chain reg start_url base with
  | error e => simp
  | ok r =>
      obtain ⟨r1, r2, tr⟩ := r
      exact stitch_loop_trace_len base 128 reg start_url (r1, r2, tr) h

/-! ## C9: characterisation of `_normalize_aliases` -/

theorem dget_dset_eq {α : Type} (d : List (Str × α)) (k : Str) (v : α) :
    dget (dset d k v) k = Option.some v := by
  induction d with
  | nil => simp [dget, dset]
  | cons kv rest ih =>
      obtain ⟨k0, v0⟩ := kv
      by_cases h : k0 = k
      · simp [dget, dset, h]
      · simp [dget, dset, h, ih]

theorem dget_dset_ne {α : Type} (d : List (Str × α)) (k k' : Str) (v : α) (h : k ≠ k') :
    dget (dset d k v) k' = dget d k' := by
  induction d with
  | nil => simp [dget, dset, h]
  | cons kv rest ih =>
      obtain ⟨k0, v0⟩ := kv
      by_cases h0 : k0 = k
      · subst h0; simp [dget, dset, h]
      · simp [dget, dset, h0, ih]

theorem dmem_dset_eq {α : Type} (d : List (Str × α)) (k : Str) (v : α) :
    dmem (dset d k v) k = true := by
  unfold dmem; rw [dget_dset_eq]; rfl

theorem dget_of_not_dmem {α : Type} (d : List (Str × α)) (k : Str)
    (h : dmem d k = false) : dget d k = Option.none := by
  unfold dmem at h
  exact Option.not_isSome_iff_eq_none.mp (by simp [h])

theorem dget_aliasStep_ne (canon srcKey : Str) (g : Option PyVal → Bool)
    (d : List (Str × PyVal)) (k : Str) (h : canon ≠ k) :
    dget (aliasStep canon srcKey g d) k = dget d k := by
  unfold aliasStep
  split
  · exact dget_dset_ne d canon k _ h
  · rfl

theorem dmem_aliasStep_ne (canon srcKey : Str) (g : Option PyVal → Bool)
    (d : List (Str × PyVal)) (k : Str) (h : canon ≠ k) :
    dmem (aliasStep canon srcKey g d) k = dmem d k := by
  unfold dmem
  rw [dget_aliasStep_ne canon srcKey g d k h]

theorem dget_aliasStep_canon (canon srcKey : Str) (g : Option PyVal → Bool)
    (d : List (Str × PyVal)) (hg : g Option.none = false) :
    dget (aliasStep canon srcKey g d) canon =
      if dmem d canon then dget d canon
      else if g (dget d srcKey) then dget d srcKey else Option.none := by
  unfold aliasStep
  by_cases hm : dmem d canon
  · have hcond : ¬ (¬ dmem d canon = true ∧ g (dget d srcKey) = true) := fun hc => hc.1 hm
    rw [if_neg hcond, if_pos hm]
  · have hdn : dget d canon = Option.none := dget_of_not_dmem d canon (by simpa using hm)
    rw [if_neg hm]
    by_cases hgv : g (dget d srcKey) = true
    · have hcond : (¬ dmem d canon = true ∧ g (dget d srcKey) = true) := ⟨by simpa using hm, hgv⟩
      rw [if_pos hcond, if_pos hgv, dget_dset_eq]
      cases hu : dget d srcKey with
      | none => rw [hu] at hgv; simp [hg] at hgv
      | some v => rfl
    · have hcond : ¬ (¬ dmem d canon = true ∧ g (dget d srcKey) = true) := fun hc => hgv hc.2
      rw [if_neg hcond, if_neg hgv]
      exact hdn

theorem dmem_aliasStep_canon (canon srcKey : Str) (g : Option PyVal → Bool)
    (d : List (Str × PyVal)) :
    dmem (aliasStep canon srcKey g d) canon = (dmem d canon || g (dget d srcKey)) := by
  unfold aliasStep
  by_cases hm : dmem d canon
  · have hcond : ¬ (¬ dmem d canon = true ∧ g (dget d srcKey) = true) := fun hc => hc.1 hm
    rw [if_neg hcond, hm]
    simp
  · by_cases hgv : g (dget d srcKey) = true
    · have hcond : (¬ dmem d canon = true ∧ g (dget d srcKey) = true) := ⟨by simpa using hm, hgv⟩
      rw [if_pos hcond, dmem_dset_eq, hgv]
      simp
    · have hcond : ¬ (¬ dmem d canon = true ∧ g (dget d srcKey) = true) := fun hc => hgv hc.2
      rw [if_neg hcond]
      simp only [Bool.not_eq_true] at hm hgv
      rw [hm, hgv]
      rfl

theorem aliasStep_preserves (canon srcKey : Str) (g : Option PyVal → Bool)
    (d : List (Str × PyVal)) (k : Str) (h : dmem d k = true) :
    dget (aliasStep canon srcKey g d) k = dget d k ∧
      dmem (aliasStep canon srcKey g d) k = true := by
  by_cases he : canon = k
  · subst he
    unfold aliasStep
    have hcond : ¬ (¬ dmem d canon = true ∧ g (dget d srcKey) = true) := fun hc => hc.1 h
    rw [if_neg hcond]
    exact ⟨rfl, h⟩
  · rw [dget_aliasStep_ne canon srcKey g d k he, dmem_aliasStep_ne canon srcKey g d k he]
    exact ⟨rfl, h⟩

/-- C9 amended: alias normalisation is additive (every key present in the
input keeps its value) and fills each canonical field from its aliases only
under the `isinstance` type guards, with `stepIndex` taking the first
int-valued alias among `s`, `step_index`, `step` in source order. -/
theorem normalize_aliases_characterization (d : List (Str × PyVal)) :
    (∀ k, dmem d k = true → dget (normalize_aliases d) k = dget d k) ∧
    dget (normalize_aliases d) (ofS "pulse") =
      (if dmem d (ofS "pulse") then dget d (ofS "pulse")
       else if isPyIntInst (dget d (ofS "u")) then dget d (ofS "u") else Option.none) ∧
    dget (normalize_aliases d) (ofS "beat") =
      (if dmem d (ofS "beat") then dget d (ofS "beat")
       else if isPyIntInst (dget d (ofS "b")) then dget d (ofS "b") else Option.none) ∧
    dget (normalize_aliases d) (ofS "stepIndex") =
      (if dmem d (ofS "stepIndex") then dget d (ofS "stepIndex")
       else if isPyIntInst (dget d (ofS "s")) then dget d (ofS "s")
       else if isPyIntInst (dget d (ofS "step_index")) then dget d (ofS "step_index")
       else if isPyIntInst (dget d (ofS "step")) then dget d (ofS "step") else Option.none) ∧
    dget (normalize_aliases d) (ofS "chakraDay") =
      (if dmem d (ofS "chakraDay") then dget d (ofS "chakraDay")
       else if isPyStrInst (dget d (ofS "c")) then dget d (ofS "c")
       else if isPyStrInst (dget d (ofS "chakra_day")) then dget d (ofS "chakra_day")
       else Option.none) ∧
    dget (normalize_aliases d) (ofS "kaiSignature") =
      (if dmem d (ofS "kaiSignature") then dget d (ofS "kaiSignature")
       else if isPyStrInst (dget d (ofS "kai_signature")) then dget d (ofS "kai_signature")
       else Option.none) ∧
    dget (normalize_aliases d) (ofS "originUrl") =
      (if dmem d (ofS "originUrl") then dget d (ofS "originUrl")
       else if isPyStrInst (dget d (ofS "origin_url")) then dget d (ofS "origin_url")
       else Option.none) ∧
    dget (normalize_aliases d) (ofS "parentUrl") =
      (if dmem d (ofS "parentUrl") then dget d (ofS "parentUrl")
       else if isPyStrInst (dget d (ofS "parent_url")) then dget d (ofS "parent_url")
       else Option.none) := by
  refine ⟨?_, ?_, ?_, ?_, ?_, ?_, ?_, ?_⟩
  · intro k hk
    simp only [normalize_aliases]
    obtain ⟨e1, m1⟩ := aliasStep_preserves (ofS "pulse") (ofS "u") isPyIntInst d k hk
    obtain ⟨e2, m2⟩ := aliasStep_preserves (ofS "beat") (ofS "b") isPyIntInst _ k m1
    obtain ⟨e3, m3⟩ := aliasStep_preserves (ofS "stepIndex") (ofS "s") isPyIntInst _ k m2
    obtain ⟨e4, m4⟩ := aliasStep_preserves (ofS "chakraDay") (ofS "c") isPyStrInst _ k m3
    obtain ⟨e5, m5⟩ := aliasStep_preserves (ofS "stepIndex") (ofS "step_index") isPyIntInst _ k m4
    obtain ⟨e6, m6⟩ := aliasStep_preserves (ofS "chakraDay") (ofS "chakra_day") isPyStrInst _ k m5
    obtain ⟨e7, m7⟩ := aliasStep_preserves (ofS "kaiSignature") (ofS "kai_signature") isPyStrInst _ k m6
    obtain ⟨e8, m8⟩ := aliasStep_preserves (ofS "originUrl") (ofS "origin_url") isPyStrInst _ k m7
    obtain ⟨e9, m9⟩ := aliasStep_preserves (ofS "parentUrl") (ofS "parent_url") isPyStrInst _ k m8
    obtain ⟨e10, m10⟩ := aliasStep_preserves (ofS "stepIndex") (ofS "step") isPyIntInst _ k m9
    rw [e10, e9, e8, e7, e6, e5, e4, e3, e2, e1]
  · simp +decide only [normalize_aliases, dget_aliasStep_ne, dget_aliasStep_canon,
      dmem_aliasStep_ne, dmem_aliasStep_canon]
  · simp +decide only [normalize_aliases, dget_aliasStep_ne, dget_aliasStep_canon,
      dmem_aliasStep_ne, dmem_aliasStep_canon]
  · simp +decide only [normalize_aliases, dget_aliasStep_ne, dget_aliasStep_canon,
      dmem_aliasStep_ne, dmem_aliasStep_canon]
    by_cases hm : dmem d (ofS "stepIndex") <;>
      by_cases hs : isPyIntInst (dget d (ofS "s")) = true <;>
        by_cases hsi : isPyIntInst (dget d (ofS "step_index")) = true <;>
          by_cases hst : isPyIntInst (dget d (ofS "step")) = true <;>
            simp [hm, hs, hsi, hst]
  · simp +decide only [normalize_aliases, dget_aliasStep_ne, dget_aliasStep_canon,
      dmem_aliasStep_ne, dmem_aliasStep_canon]
    by_cases hm : dmem d (ofS "chakraDay") <;>
      by_cases hc : isPyStrInst (dget d (ofS "c")) = true <;>
        by_cases hcd : isPyStrInst (dget d (ofS "chakra_day")) = true <;>
          simp [hm, hc, hcd]
  · simp +decide only [normalize_aliases, dget_aliasStep_ne, dget_aliasStep_canon,
      dmem_aliasStep_ne, dmem_aliasStep_canon]
  · simp +decide only [normalize_aliases, dget_aliasStep_ne, dget_aliasStep_canon,
      dmem_aliasStep_ne, dmem_aliasStep_canon]
  · simp +decide only [normalize_aliases, dget_aliasStep_ne, dget_aliasStep_canon,
      dmem_aliasStep_ne, dmem_aliasStep_canon]


/-- Witness for the C9 amended theorem at a concrete dict. -/
theorem normalize_aliases_characterization_witness :
    dmem c9wd (ofS "beat") = true ∧
      dget (normalize_aliases c9wd) (ofS "beat") = dget c9wd (ofS "beat") :=
  ⟨by decide, (normalize_aliases_characterization c9wd).1 (ofS "beat") (by decide)⟩

/-! ## C3: order dependence of batch ingestion, and what does hold -/

/-- The registry component of `process_hit` does not depend on the incoming
report. -/
theorem process_hit_fst (base : Str) (reg : Registry) (r1 r2 : InhaleReport)
    (hit : UrlPayloadHit) :
    (process_hit base reg r1 hit).map Prod.fst =
      (process_hit base reg r2 hit).map Prod.fst := by
  unfold process_hit
  cases process_hit_core base reg hit with
  | error e => rfl
  | ok rc => rfl

/-- The registry component of the per-file hit fold does not depend on the
incoming report. -/
theorem hits_foldlM_fst (base : Str) (hits : List UrlPayloadHit) :
    ∀ (reg : Registry) (r1 r2 : InhaleReport),
    (hits.foldlM (fun (acc : Registry × InhaleReport) h => process_hit base acc.1 acc.2 h)
        (reg, r1)).map Prod.fst =
    (hits.foldlM (fun (acc : Registry × InhaleReport) h => process_hit base acc.1 acc.2 h)
        (reg, r2)).map Prod.fst := by
  induction hits with
  | nil => intro reg r1 r2; rfl
  | cons h t ih =>
      intro reg r1 r2
      simp only [List.foldlM_cons]
      unfold process_hit
      cases hc : process_hit_core base reg h with
      | error e => rfl
      | ok rc =>
          obtain ⟨reg', ch⟩ := rc
          simp only [Except.map, Bind.bind, Except.bind]
          exact ih reg' _ _

/-- The registry component of `process_file` does not depend on the incoming
report. -/
theorem process_file_fst (base : Str) (reg : Registry) (r1 r2 : InhaleReport)
    (file : Str × List ℕ) :
    (process_file base reg r1 file).map Prod.fst =
      (process_file base reg r2 file).map Prod.fst := by
  unfold process_file
  cases hl : loads_json_bytes file.2 with
  | error e => rfl
  | ok obj =>
      cases hx : extract_many_payloads_from_any obj base (2 * file.2.length + 4) with
      | error e => simp only [hx, Bind.bind, Except.bind]
      | ok hits =>
          simp only [hx, Bind.bind, Except.bind]
          exact hits_foldlM_fst base hits reg _ _

/-- The registry component of the file fold does not depend on the incoming
report. -/
theorem files_foldlM_fst (base : Str) (fs : List (Str × List ℕ)) :
    ∀ (reg : Registry) (r1 r2 : InhaleReport),
    (fs.foldlM (fun (acc : Registry × InhaleReport) f => process_file base acc.1 acc.2 f)
        (reg, r1)).map Prod.fst =
    (fs.foldlM (fun (acc : Registry × InhaleReport) f => process_file base acc.1 acc.2 f)
        (reg, r2)).map Prod.fst := by
  induction fs with
  | nil => intro reg r1 r2; rfl
  | cons f t ih =>
      intro reg r1 r2
      simp only [List.foldlM_cons]
      have hpf := process_file_fst base reg r1 r2 f
      cases hA : process_file base reg r1 f with
      | error e =>
          rw [hA] at hpf
          cases hB : process_file base reg r2 f with
          | error e2 =>
              rw [hB] at hpf
              simp only [Except.map, Except.error.injEq] at hpf
              subst hpf
              simp only [hA, hB, Bind.bind, Except.bind]
          | ok q =>
              rw [hB] at hpf
              simp [Except.map] at hpf
      | ok p =>
          rw [hA] at hpf
          cases hB : process_file base reg r2 f with
          | error e2 =>
              rw [hB] at hpf
              simp [Except.map] at hpf
          | ok q =>
              rw [hB] at hpf
              simp only [Except.map, Except.ok.injEq] at hpf
              obtain ⟨rp, repp⟩ := p
              obtain ⟨rq, repq⟩ := q
              simp only at hpf
              subst hpf
              simp only [hA, hB, Bind.bind, Except.bind]
              exact ih rp repp repq

/-- The registry component of `inhale_files_into_registry` is the registry
component of the file fold. -/
theorem inhale_fst (reg : Registry) (fs : List (Str × List ℕ)) (base : Str) :
    (inhale_files_into_registry reg fs base).map Prod.fst =
      (fs.foldlM (fun (acc : Registry × InhaleReport) f => process_file base acc.1 acc.2 f)
        (reg, ({} : InhaleReport))).map Prod.fst := by
  unfold inhale_files_into_registry
  cases hf : fs.foldlM
      (fun (acc : Registry × InhaleReport) f => process_file base acc.1 acc.2 f)
      (reg, ({} : InhaleReport)) with
  | error e => simp only [hf, Bind.bind, Except.bind]
  | ok p =>
      obtain ⟨r, rep⟩ := p
      simp only [hf, Bind.bind, Except.bind]
      rfl

/-- C3 amended: batch ingestion is sequentially compositional: inhaling
`fs1 ++ fs2` leaves the same registry as inhaling `fs1` and then inhaling
`fs2` starting from the resulting registry (the reports differ; the claimed
order-INdependence inside a batch is refuted separately). -/
theorem inhale_append_compositional (reg : Registry) (fs1 fs2 : List (Str × List ℕ))
    (base : Str) :
    (inhale_files_into_registry reg (fs1 ++ fs2) base).map Prod.fst =
      ((inhale_files_into_registry reg fs1 base).bind
        (fun p => inhale_files_into_registry p.1 fs2 base)).map Prod.fst := by
  rw [inhale_fst]
  rw [List.foldlM_append]
  have h2 := inhale_fst reg fs1 base
  cases h1 : fs1.foldlM
      (fun (acc : Registry × InhaleReport) f => process_file base acc.1 acc.2 f)
      (reg, ({} : InhaleReport)) with
  | error e =>
      rw [h1] at h2
      cases hI : inhale_files_into_registry reg fs1 base with
      | error e2 =>
          rw [hI] at h2
          simp only [Except.map, Except.error.injEq] at h2
          simp only [hI, Bind.bind, Except.bind, Except.map]
          rw [h2]
      | ok p =>
          rw [hI] at h2
          simp [Except.map] at h2
  | ok acc =>
      obtain ⟨r1, rep1⟩ := acc
      rw [h1] at h2
      cases hI : inhale_files_into_registry reg fs1 base with
      | error e2 =>
          rw [hI] at h2
          simp [Except.map] at h2
      | ok p =>
          rw [hI] at h2
          simp only [Except.map, Except.ok.injEq] at h2
          simp only [hI, Bind.bind, Except.bind]
          rw [inhale_fst p.1 fs2 base, ← h2]
          exact files_foldlM_fst base fs2 p.1 rep1 {}

/-- C7 counterexample: canonicalisation is not idempotent.  Three failure
modes: a non-absolute base origin (`"abc"`) where dot-segment resolution
produces a bare token; a base origin with a trailing space, which the
second pass strips; and a well-formed base (`"https://h"`) with an input
carrying a foreign scheme and empty netloc, where `urlunsplit`'s `///`
insertion creates a `/p~` path that only the second pass rewrites. -/
theorem canonicalize_not_idempotent :
    canonicalize_url c7u1 c7base1 = .ok (ofS "zzzzzzzzzzzzzzzzz") ∧
    canonicalize_url (ofS "zzzzzzzzzzzzzzzzz") c7base1 =
      .ok (ofS "/stream/p/zzzzzzzzzzzzzzzzz") ∧
    ofS "zzzzzzzzzzzzzzzzz" ≠ ofS "/stream/p/zzzzzzzzzzzzzzzzz" ∧
    canonicalize_url c7u2 c7base2 = .ok (ofS "https://h/x ") ∧
    canonicalize_url (ofS "https://h/x ") c7base2 = .ok (ofS "https://h/x") ∧
    ofS "https://h/x " ≠ ofS "https://h/x" ∧
    canonicalize_url c7u3 c7base3 = .ok (ofS "ftp:///p~TOK") ∧
    canonicalize_url (ofS "ftp:///p~TOK") c7base3 = .ok (ofS "ftp:///stream/p/TOK") ∧
    ofS "ftp:///p~TOK" ≠ ofS "ftp:///stream/p/TOK" :=
  ⟨rfl, rfl, by decide, rfl, rfl, by decide, rfl, rfl, by decide⟩

/-! ## C7 groundwork: character and string lemmas -/

theorem toNat_ofNatAux (n : ℕ) (h : n.isValidChar) : (Char.ofNat n).toNat = n := by
  simp only [Char.ofNat, h, dite_true]
  simp [Char.ofNatAux, Char.toNat, UInt32.toNat]

theorem char_eq_iff_toNat (c d : Char) : c = d ↔ c.toNat = d.toNat := by
  constructor
  · intro h; rw [h]
  · intro h
    cases c with
    | mk cv hc =>
      cases d with
      | mk dv hd =>
        simp only [Char.toNat] at h
        congr 1
        exact UInt32.toNat.inj h

theorem asciiLower_of_not (c : Char) (h : ¬ ('A' ≤ c ∧ c ≤ 'Z')) : asciiLower c = c := by
  unfold asciiLower
  rw [if_neg h]

theorem asciiLower_toNat_of_upper (c : Char) (h : 'A' ≤ c ∧ c ≤ 'Z') :
    (asciiLower c).toNat = c.toNat + 32 := by
  unfold asciiLower
  rw [if_pos h]
  exact toNat_ofNatAux _ (by left; have h2 : c.toNat ≤ 90 := h.2; omega)

theorem asciiLower_idem (c : Char) : asciiLower (asciiLower c) = asciiLower c := by
  by_cases h : 'A' ≤ c ∧ c ≤ 'Z'
  · have ht := asciiLower_toNat_of_upper c h
    have h1 : 65 ≤ c.toNat := h.1
    refine asciiLower_of_not _ (fun hc => ?_)
    have : (asciiLower c).toNat ≤ 90 := hc.2
    omega
  · rw [asciiLower_of_not c h, asciiLower_of_not c h]

theorem asciiLower_toNat_cases (c : Char) :
    (asciiLower c).toNat = c.toNat ∨
      (65 ≤ c.toNat ∧ c.toNat ≤ 90 ∧ (asciiLower c).toNat = c.toNat + 32) := by
  by_cases h : 'A' ≤ c ∧ c ≤ 'Z'
  · right
    exact ⟨h.1, h.2, asciiLower_toNat_of_upper c h⟩
  · left
    rw [asciiLower_of_not c h]

theorem map_lower_idem (s : Str) :
    (s.map asciiLower).map asciiLower = s.map asciiLower := by
  induction s with
  | nil => rfl
  | cons c cs ih => simp [asciiLower_idem, ih]

theorem charLits :
    (' ' : Char).toNat = 32 ∧ ('\t' : Char).toNat = 9 ∧ ('\n' : Char).toNat = 10 ∧
    ('\r' : Char).toNat = 13 ∧ (Char.ofNat 0x0b).toNat = 11 ∧
    (Char.ofNat 0x0c).toNat = 12 ∧ (Char.ofNat 0x1c).toNat = 28 ∧
    (Char.ofNat 0x1d).toNat = 29 ∧ (Char.ofNat 0x1e).toNat = 30 ∧
    (Char.ofNat 0x1f).toNat = 31 ∧ (Char.ofNat 0x85).toNat = 133 ∧
    (Char.ofNat 0xa0).toNat = 160 := by
  refine ⟨rfl, rfl, rfl, rfl, rfl, rfl, rfl, rfl, rfl, rfl, rfl, rfl⟩

theorem pyIsSpace_iff_toNat (c : Char) :
    pyIsSpace c = true ↔
      (c.toNat = 32 ∨ c.toNat = 9 ∨ c.toNat = 10 ∨ c.toNat = 13 ∨ c.toNat = 11 ∨
       c.toNat = 12 ∨ c.toNat = 28 ∨ c.toNat = 29 ∨ c.toNat = 30 ∨ c.toNat = 31 ∨
       c.toNat = 133 ∨ c.toNat = 160) := by
  obtain ⟨e1, e2, e3, e4, e5, e6, e7, e8, e9, e10, e11, e12⟩ := charLits
  simp only [pyIsSpace, Bool.or_eq_true, decide_eq_true_eq, char_eq_iff_toNat,
    e1, e2, e3, e4, e5, e6, e7, e8, e9, e10, e11, e12]
  tauto

theorem goodCh_toNat (c : Char) (h : goodCh c = true) : 0x20 < c.toNat := by
  simp only [goodCh, Bool.and_eq_true, decide_eq_true_eq] at h
  have h1 := h.1
  simp only [c0OrSpace, decide_eq_true_eq] at h1
  omega

theorem goodCh_not_space (c : Char) (h : goodCh c = true) : pyIsSpace c = false := by
  simp only [goodCh, Bool.and_eq_true, decide_eq_true_eq] at h
  have h2 := h.2
  simp only [Bool.not_eq_true] at h2
  exact h2

theorem goodCh_of_toNat (c : Char) (h1 : 0x20 < c.toNat)
    (h2 : c.toNat ≠ 133) (h3 : c.toNat ≠ 160) : goodCh c = true := by
  simp only [goodCh, Bool.and_eq_true, decide_eq_true_eq]
  constructor
  · simp only [c0OrSpace, decide_eq_true_eq]
    omega
  · simp only [Bool.not_eq_true]
    rw [Bool.eq_false_iff, Ne, pyIsSpace_iff_toNat]
    omega

theorem goodCh_lower (c : Char) (h : goodCh c = true) : goodCh (asciiLower c) = true := by
  have ht := goodCh_toNat c h
  rcases asciiLower_toNat_cases c with hc | ⟨h1, h2, hc⟩
  · have : asciiLower c = c := (char_eq_iff_toNat _ _).mpr hc
    rw [this]; exact h
  · exact goodCh_of_toNat _ (by omega) (by omega) (by omega)

theorem goodStr_mem {s : Str} (h : goodStr s = true) {c : Char} (hc : c ∈ s) :
    goodCh c = true := by
  simp only [goodStr, List.all_eq_true] at h
  exact h c hc

theorem goodStr_of_subset {s t : Str} (h : goodStr s = true)
    (hsub : ∀ c ∈ t, c ∈ s) : goodStr t = true := by
  simp only [goodStr, List.all_eq_true]
  exact fun c hc => goodStr_mem h (hsub c hc)

theorem goodStr_append {a b : Str} :
    goodStr (a ++ b) = (goodStr a && goodStr b) := by
  simp [goodStr, List.all_append]

theorem goodStr_cons {c : Char} {s : Str} :
    goodStr (c :: s) = (goodCh c && goodStr s) := by
  simp [goodStr]

theorem goodStr_map_lower {s : Str} (h : goodStr s = true) :
    goodStr (s.map asciiLower) = true := by
  simp only [goodStr, List.all_eq_true, List.mem_map] at h ⊢
  rintro c ⟨d, hd, rfl⟩
  exact goodCh_lower d (h d hd)

theorem dropWhile_c0_of_good {s : Str} (h : goodStr s = true) :
    s.dropWhile c0OrSpace = s := by
  cases s with
  | nil => rfl
  | cons c cs =>
      have hc : goodCh c = true := goodStr_mem h (List.mem_cons_self c cs)
      have := goodCh_toNat c hc
      have hc0 : c0OrSpace c = false := by
        simp only [c0OrSpace, decide_eq_false_iff_not, not_le]
        exact this
      simp [List.dropWhile_cons, hc0]

theorem removeUnsafe_of_good {s : Str} (h : goodStr s = true) :
    removeUnsafe s = s := by
  unfold removeUnsafe
  apply List.filter_eq_self.mpr
  intro c hc
  have ht := goodCh_toNat c (goodStr_mem h hc)
  obtain ⟨e1, e2, e3, e4, _⟩ := charLits
  simp only [decide_eq_true_eq, char_eq_iff_toNat, e2, e3, e4]
  omega

theorem dropWhile_space_of_good {s : Str} (h : goodStr s = true) :
    s.dropWhile pyIsSpace = s := by
  cases s with
  | nil => rfl
  | cons c cs =>
      have hc : pyIsSpace c = false :=
        goodCh_not_space c (goodStr_mem h (List.mem_cons_self c cs))
      simp [List.dropWhile_cons, hc]

theorem goodStr_reverse {s : Str} (h : goodStr s = true) :
    goodStr s.reverse = true := by
  refine goodStr_of_subset h (fun c hc => ?_)
  exact (List.mem_reverse).mp hc

theorem pyStrip_of_good {s : Str} (h : goodStr s = true) : pyStrip s = s := by
  unfold pyStrip
  rw [dropWhile_space_of_good h, dropWhile_space_of_good (goodStr_reverse h),
    List.reverse_reverse]

/-! ## C7 groundwork: splitting lemmas -/

theorem splitOnceCh_of_not_mem {c : Char} {s : Str} (h : c ∉ s) :
    splitOnceCh c s = Option.none := by
  induction s with
  | nil => rfl
  | cons x xs ih =>
      simp only [List.mem_cons, not_or] at h
      have hx : ¬ (x = c) := fun he => h.1 he.symm
      simp only [splitOnceCh, if_neg hx, ih h.2, Option.map_none']

theorem splitOnceCh_boundary {c : Char} {a b : Str} (h : c ∉ a) :
    splitOnceCh c (a ++ c :: b) = Option.some (a, b) := by
  induction a with
  | nil => simp [splitOnceCh]
  | cons x xs ih =>
      simp only [List.mem_cons, not_or] at h
      have hx : ¬ (x = c) := fun he => h.1 he.symm
      simp only [List.cons_append, splitOnceCh, if_neg hx, List.append_eq, ih h.2, Option.map]

theorem splitOnceCh_some {c : Char} : ∀ {s a b : Str},
    splitOnceCh c s = Option.some (a, b) → s = a ++ c :: b ∧ c ∉ a := by
  intro s
  induction s with
  | nil => intro a b h; simp [splitOnceCh] at h
  | cons x xs ih =>
      intro a b h
      simp only [splitOnceCh] at h
      by_cases hx : x = c
      · rw [if_pos hx] at h
        subst hx
        cases h
        exact ⟨rfl, by simp⟩
      · rw [if_neg hx] at h
        cases hsp : splitOnceCh c xs with
        | none => rw [hsp] at h; simp [Option.map] at h
        | some p =>
            obtain ⟨a1, b1⟩ := p
            rw [hsp] at h
            simp only [Option.map, Option.some.injEq, Prod.mk.injEq] at h
            obtain ⟨rfl, rfl⟩ := h
            obtain ⟨he, hm⟩ := ih hsp
            subst he
            refine ⟨rfl, ?_⟩
            simp only [List.mem_cons, not_or]
            exact ⟨fun hc => hx hc.symm, hm⟩

theorem takeWhile_append_stop {p : Char → Bool} {n r : Str}
    (hn : ∀ c ∈ n, p c = true)
    (hr : r = [] ∨ ∃ c t, r = c :: t ∧ p c = false) :
    (n ++ r).takeWhile p = n ∧ (n ++ r).drop n.length = r := by
  induction n with
  | nil =>
      rcases hr with rfl | ⟨c, t, rfl, hc⟩
      · simp
      · simp [List.takeWhile_cons, hc]
  | cons x xs ih =>
      have hx : p x = true := hn x (List.mem_cons_self x xs)
      obtain ⟨ih1, ih2⟩ := ih (fun c hc => hn c (List.mem_cons_of_mem x hc))
      simp only [List.cons_append, List.takeWhile_cons, hx, if_true, List.length_cons,
        List.drop_succ_cons]
      exact ⟨by rw [ih1], ih2⟩

theorem splitChar_ne_nil (c : Char) (s : Str) : splitChar c s ≠ [] := by
  cases s with
  | nil => simp [splitChar]
  | cons x xs =>
      simp only [splitChar]
      by_cases hx : x = c <;> simp [hx]

theorem splitChar_not_mem (c : Char) (s : Str) :
    ∀ e ∈ splitChar c s, c ∉ e := by
  induction s with
  | nil =>
      intro e he
      simp only [splitChar, List.mem_singleton] at he
      simp [he]
  | cons x xs ih =>
      intro e he
      simp only [splitChar] at he
      by_cases hx : x = c
      · rw [if_pos hx] at he
        rcases List.mem_cons.mp he with rfl | he2
        · simp
        · exact ih e he2
      · rw [if_neg hx] at he
        rcases List.mem_cons.mp he with rfl | he2
        · simp only [List.mem_cons, not_or]
          refine ⟨fun hc => hx hc.symm, ?_⟩
          have hne := splitChar_ne_nil c xs
          cases hsc : splitChar c xs with
          | nil => exact absurd hsc hne
          | cons h0 t0 =>
              simp only [hsc, List.headD_cons]
              exact ih h0 (hsc ▸ List.mem_cons_self h0 t0)
        · have hne := splitChar_ne_nil c xs
          cases hsc : splitChar c xs with
          | nil => exact absurd hsc hne
          | cons h0 t0 =>
              rw [hsc] at he2
              simp only [List.tail_cons] at he2
              exact ih e (hsc ▸ List.mem_cons_of_mem h0 he2)

theorem splitChar_of_not_mem {c : Char} {s : Str} (h : c ∉ s) :
    splitChar c s = [s] := by
  induction s with
  | nil => rfl
  | cons x xs ih =>
      simp only [List.mem_cons, not_or] at h
      have hx : ¬ (x = c) := fun he => h.1 he.symm
      simp only [splitChar, if_neg hx, ih h.2]
      rfl

theorem splitChar_len2_of_mem {c : Char} : ∀ {s : Str}, c ∈ s →
    2 ≤ (splitChar c s).length := by
  intro s
  induction s with
  | nil => intro h; simp at h
  | cons x xs ih =>
      intro h
      simp only [splitChar]
      by_cases hx : x = c
      · rw [if_pos hx]
        have := splitChar_ne_nil c xs
        cases hsc : splitChar c xs with
        | nil => exact absurd hsc this
        | cons h0 t0 => simp
      · rw [if_neg hx]
        have hm : c ∈ xs := by
          rcases List.mem_cons.mp h with rfl | h2
          · exact absurd rfl hx
          · exact h2
        have h2 := ih hm
        cases hsc : splitChar c xs with
        | nil => exact absurd hsc (splitChar_ne_nil c xs)
        | cons h0 t0 =>
            rw [hsc] at h2
            simp only [List.length_cons] at h2 ⊢
            simp only [List.tail_cons]
            omega

theorem splitChar_last_decomp {c : Char} : ∀ {A L : Str}, c ∉ L →
    ∃ front, splitChar c (A ++ c :: L) = front ++ [L] ∧ front ≠ [] := by
  intro A
  induction A with
  | nil =>
      intro L hL
      refine ⟨[[]], ?_, by simp⟩
      simp [splitChar, splitChar_of_not_mem hL]
  | cons x xs ih =>
      intro L hL
      obtain ⟨front, hf, hfne⟩ := ih hL
      simp only [List.cons_append, splitChar, List.append_eq]
      by_cases hx : x = c
      · rw [if_pos hx, hf]
        exact ⟨[] :: front, by simp, by simp⟩
      · rw [if_neg hx, hf]
        cases front with
        | nil => exact absurd rfl hfne
        | cons f0 fs =>
            refine ⟨(x :: f0) :: fs, ?_, by simp⟩
            simp

theorem intercalate_singleton (c : Char) (L : Str) :
    List.intercalate [c] [L] = L := by
  simp [List.intercalate]

theorem intercalate_cons_cons (c : Char) (x y : Str) (rest : List Str) :
    List.intercalate [c] (x :: y :: rest) = x ++ c :: List.intercalate [c] (y :: rest) := by
  simp [List.intercalate, List.intersperse]

theorem intercalate_last_decomp (c : Char) : ∀ (front : List Str) (L : Str),
    front ≠ [] →
    ∃ A, List.intercalate [c] (front ++ [L]) = A ++ c :: L := by
  intro front
  induction front with
  | nil => intro L h; exact absurd rfl h
  | cons f fs ih =>
      intro L _
      cases fs with
      | nil =>
          refine ⟨f, ?_⟩
          rw [List.cons_append, List.nil_append, intercalate_cons_cons,
            intercalate_singleton]
      | cons f2 fs2 =>
          obtain ⟨A, hA⟩ := ih L (by simp)
          rw [List.cons_append] at hA
          refine ⟨f ++ c :: A, ?_⟩
          rw [List.cons_append, List.cons_append, intercalate_cons_cons, hA]
          simp

/-! ## C7 groundwork: scheme detection and the split/unsplit round trip -/

theorem schemeChar_no_colon {s : Str} (h : s.all schemeChar = true) : ':' ∉ s := by
  intro hc
  have hs := (List.all_eq_true.mp h) ':' hc
  exact absurd hs (by decide)

theorem trySplitScheme_of_no_colon {s : Str} (h : ':' ∉ s) :
    trySplitScheme s = ([], s) := by
  unfold trySplitScheme
  rw [splitOnceCh_of_not_mem h]

theorem trySplitScheme_detect {c : Char} {cs rest : Str}
    (halpha : isAsciiAlpha c = true) (hall : (c :: cs).all schemeChar = true) :
    trySplitScheme ((c :: cs) ++ ':' :: rest) = ((c :: cs).map asciiLower, rest) := by
  unfold trySplitScheme
  rw [splitOnceCh_boundary (schemeChar_no_colon hall)]
  simp only [if_pos (⟨halpha, hall⟩ : isAsciiAlpha c = true ∧ (c :: cs).all schemeChar = true)]

theorem splitNetloc_boundary {n r : Str} (hn : n.all notNetlocDelim = true)
    (hr : r = [] ∨ ∃ c t, r = c :: t ∧ notNetlocDelim c = false)
    (hbr : ¬ (('[' ∈ n ∧ ']' ∉ n) ∨ (']' ∈ n ∧ '[' ∉ n))) :
    splitNetloc ('/' :: '/' :: (n ++ r)) = .ok (n, r) := by
  obtain ⟨htw, hdr⟩ := takeWhile_append_stop (List.all_eq_true.mp hn) hr
  unfold splitNetloc
  rw [if_pos (show List.take 2 ('/' :: '/' :: (n ++ r)) = ['/', '/'] from rfl)]
  simp only [List.drop_succ_cons, List.drop_zero, htw, hdr]
  rw [if_neg hbr]

theorem goodStr_colon_cons {rest : Str} (h : goodStr rest = true) :
    goodStr (':' :: rest) = true := by
  rw [goodStr_cons, h]
  decide

theorem goodCh_slash : goodCh '/' = true := by decide
theorem goodCh_qmark : goodCh '?' = true := by decide
theorem goodCh_hash : goodCh '#' = true := by decide

theorem normPath_goodStr {p : Str} (hgp : goodStr p = true) :
    goodStr (normPath p) = true := by
  unfold normPath
  by_cases hp0 : p = []
  · simp [hp0, goodStr]
  · by_cases hps : p.take 1 = ['/']
    · simp [hp0, hps, hgp]
    · simp only [hp0, hps, if_neg, ite_false]
      rw [goodStr_cons, goodCh_slash, hgp]
      rfl

theorem normPath_no_hash {p : Str} (hp : '#' ∉ p) : '#' ∉ normPath p := by
  unfold normPath
  by_cases hp0 : p = []
  · simp [hp0]
  · by_cases hps : p.take 1 = ['/']
    · simp [hp0, hps, hp]
    · simp only [hp0, hps, if_neg, ite_false, List.mem_cons, not_or]
      exact ⟨by decide, hp⟩

theorem normPath_no_qmark {p : Str} (hp : '?' ∉ p) : '?' ∉ normPath p := by
  unfold normPath
  by_cases hp0 : p = []
  · simp [hp0]
  · by_cases hps : p.take 1 = ['/']
    · simp [hp0, hps, hp]
    · simp only [hp0, hps, if_neg, ite_false, List.mem_cons, not_or]
      exact ⟨by decide, hp⟩

/-- `urlsplit` on a string of the shape `scheme://netloc` ++ tail, with the
fragment/query splits of the tail supplied as equations. -/
theorem urlsplit_shape (c0 : Char) (cs0 n tail u4 frag path query : Str)
    (halpha : isAsciiAlpha c0 = true) (hs_all : (c0 :: cs0).all schemeChar = true)
    (hs_low : (c0 :: cs0).map asciiLower = c0 :: cs0)
    (hn_delim : n.all notNetlocDelim = true)
    (hn_br : ¬ (('[' ∈ n ∧ ']' ∉ n) ∨ (']' ∈ n ∧ '[' ∉ n)))
    (hgall : goodStr ((c0 :: cs0) ++ ':' :: ('/' :: '/' :: (n ++ tail))) = true)
    (htail : tail = [] ∨ ∃ c t, tail = c :: t ∧ notNetlocDelim c = false)
    (hfr : (match splitOnceCh '#' tail with
            | Option.some (a, b) => (a, b)
            | Option.none => (tail, ([] : Str))) = (u4, frag))
    (hpq : (match splitOnceCh '?' u4 with
            | Option.some (a, b) => (a, b)
            | Option.none => (u4, ([] : Str))) = (path, query)) :
    urlsplit ((c0 :: cs0) ++ ':' :: ('/' :: '/' :: (n ++ tail))) =
      .ok ⟨c0 :: cs0, n, path, query, frag⟩ := by
  unfold urlsplit
  rw [dropWhile_c0_of_good hgall, removeUnsafe_of_good hgall]
  simp only [trySplitScheme_detect halpha hs_all, hs_low,
    splitNetloc_boundary hn_delim htail hn_br, hfr, hpq]

/-- Round trip: splitting a recomposed netloc URL recovers the components
(the path gains a leading `/` when it lacked one). -/
theorem urlsplit_unsplit (s n p q f : Str)
    (hs_alpha : ∃ c cs, s = c :: cs ∧ isAsciiAlpha c = true)
    (hs_all : s.all schemeChar = true) (hs_low : s.map asciiLower = s)
    (hn_ne : n ≠ []) (hn_delim : n.all notNetlocDelim = true)
    (hn_br : ¬ (('[' ∈ n ∧ ']' ∉ n) ∨ (']' ∈ n ∧ '[' ∉ n)))
    (hp_q : '?' ∉ p) (hp_h : '#' ∉ p) (hq_h : '#' ∉ q)
    (hgs : goodStr s = true) (hgn : goodStr n = true) (hgp : goodStr p = true)
    (hgq : goodStr q = true) (hgf : goodStr f = true) :
    urlsplit (urlunsplit ⟨s, n, p, q, f⟩) = .ok ⟨s, n, normPath p, q, f⟩ := by
  obtain ⟨c0, cs0, hs0, halpha⟩ := hs_alpha
  subst hs0
  have hsne : (c0 :: cs0 : Str) ≠ [] := List.cons_ne_nil c0 cs0
  have hnorm : (if p ≠ [] ∧ p.take 1 ≠ ['/'] then '/' :: p else p) = normPath p := by
    unfold normPath
    by_cases hp0 : p = []
    · subst hp0; simp
    · by_cases hps : p.take 1 = ['/']
      · simp [hp0, hps]
      · simp [hp0, hps]
  have hhash_np : '#' ∉ normPath p := normPath_no_hash hp_h
  have hq_np : '?' ∉ normPath p := normPath_no_qmark hp_q
  have hgnp : goodStr (normPath p) = true := normPath_goodStr hgp
  have hnpshape : normPath p = [] ∨ ∃ t, normPath p = '/' :: t := by
    by_cases hp0 : p = []
    · left; simp [normPath, hp0]
    · right
      unfold normPath
      by_cases hps : p.take 1 = ['/']
      · cases p with
        | nil => exact absurd rfl hp0
        | cons pc pt =>
            simp only [List.take_succ_cons, List.take_zero, List.cons.injEq] at hps
            refine ⟨pt, ?_⟩
            simp [hp0, hps.1]
      · refine ⟨p, ?_⟩
        simp [hp0, hps]
  by_cases hq0 : q = [] <;> by_cases hf0 : f = []
  -- case q = [], f = []
  · subst hq0; subst hf0
    have hw : urlunsplit ⟨c0 :: cs0, n, p, [], []⟩ =
        (c0 :: cs0) ++ ':' :: ('/' :: '/' :: (n ++ normPath p)) := by
      unfold urlunsplit
      simp only [hnorm]
      simp [hn_ne, hsne, List.append_assoc]
    rw [hw]
    refine urlsplit_shape c0 cs0 n (normPath p) (normPath p) [] (normPath p) []
      halpha hs_all hs_low hn_delim hn_br ?_ ?_ ?_ ?_
    · rw [goodStr_append, hgs, goodStr_colon_cons]
      · rfl
      · rw [goodStr_cons, goodCh_slash, goodStr_cons, goodCh_slash]
        simp only [Bool.true_and]
        rw [goodStr_append, hgn, hgnp]
        rfl
    · rcases hnpshape with h | ⟨t, ht⟩
      · left; exact h
      · right; exact ⟨'/', t, ht, by decide⟩
    · rw [splitOnceCh_of_not_mem hhash_np]
    · rw [splitOnceCh_of_not_mem hq_np]
  -- case q = [], f ≠ []
  · subst hq0
    have hw : urlunsplit ⟨c0 :: cs0, n, p, [], f⟩ =
        (c0 :: cs0) ++ ':' :: ('/' :: '/' :: (n ++ (normPath p ++ '#' :: f))) := by
      unfold urlunsplit
      simp only [hnorm]
      simp [hn_ne, hsne, hf0, List.append_assoc]
    rw [hw]
    refine urlsplit_shape c0 cs0 n (normPath p ++ '#' :: f) (normPath p) f (normPath p) []
      halpha hs_all hs_low hn_delim hn_br ?_ ?_ ?_ ?_
    · rw [goodStr_append, hgs, goodStr_colon_cons]
      · rfl
      · rw [goodStr_cons, goodCh_slash, goodStr_cons, goodCh_slash]
        simp only [Bool.true_and]
        rw [goodStr_append, hgn, goodStr_append, hgnp, goodStr_cons, goodCh_hash, hgf]
        rfl
    · rcases hnpshape with h | ⟨t, ht⟩
      · right
        refine ⟨'#', f, ?_, by decide⟩
        rw [h]; rfl
      · right
        refine ⟨'/', t ++ '#' :: f, ?_, by decide⟩
        rw [ht]; rfl
    · rw [splitOnceCh_boundary hhash_np]
    · rw [splitOnceCh_of_not_mem hq_np]
  -- case q ≠ [], f = []
  · subst hf0
    have hw : urlunsplit ⟨c0 :: cs0, n, p, q, []⟩ =
        (c0 :: cs0) ++ ':' :: ('/' :: '/' :: (n ++ (normPath p ++ '?' :: q))) := by
      unfold urlunsplit
      simp only [hnorm]
      simp [hn_ne, hsne, hq0, List.append_assoc]
    rw [hw]
    refine urlsplit_shape c0 cs0 n (normPath p ++ '?' :: q) (normPath p ++ '?' :: q) []
      (normPath p) q halpha hs_all hs_low hn_delim hn_br ?_ ?_ ?_ ?_
    · rw [goodStr_append, hgs, goodStr_colon_cons]
      · rfl
      · rw [goodStr_cons, goodCh_slash, goodStr_cons, goodCh_slash]
        simp only [Bool.true_and]
        rw [goodStr_append, hgn, goodStr_append, hgnp, goodStr_cons, goodCh_qmark, hgq]
        rfl
    · rcases hnpshape with h | ⟨t, ht⟩
      · right
        refine ⟨'?', q, ?_, by decide⟩
        rw [h]; rfl
      · right
        refine ⟨'/', t ++ '?' :: q, ?_, by decide⟩
        rw [ht]; rfl
    · rw [splitOnceCh_of_not_mem ?_]
      intro hc
      rcases List.mem_append.mp hc with hc | hc
      · exact hhash_np hc
      · rcases List.mem_cons.mp hc with hc | hc
        · exact absurd hc (by decide)
        · exact hq_h hc
    · rw [splitOnceCh_boundary hq_np]
  -- case q ≠ [], f ≠ []
  · have hw : urlunsplit ⟨c0 :: cs0, n, p, q, f⟩ =
        (c0 :: cs0) ++ ':' :: ('/' :: '/' :: (n ++ ((normPath p ++ '?' :: q) ++ '#' :: f))) := by
      unfold urlunsplit
      simp only [hnorm]
      simp [hn_ne, hsne, hq0, hf0, List.append_assoc]
    rw [hw]
    refine urlsplit_shape c0 cs0 n ((normPath p ++ '?' :: q) ++ '#' :: f)
      (normPath p ++ '?' :: q) f (normPath p) q
      halpha hs_all hs_low hn_delim hn_br ?_ ?_ ?_ ?_
    · rw [goodStr_append, hgs, goodStr_colon_cons]
      · rfl
      · rw [goodStr_cons, goodCh_slash, goodStr_cons, goodCh_slash]
        simp only [Bool.true_and]
        rw [goodStr_append, hgn, goodStr_append, goodStr_append, hgnp,
          goodStr_cons, goodCh_qmark, hgq, goodStr_cons, goodCh_hash, hgf]
        rfl
    · rcases hnpshape with h | ⟨t, ht⟩
      · right
        refine ⟨'?', q ++ '#' :: f, ?_, by decide⟩
        rw [h]; rfl
      · right
        refine ⟨'/', (t ++ '?' :: q) ++ '#' :: f, ?_, by decide⟩
        rw [ht]; rfl
    · rw [splitOnceCh_boundary ?_]
      intro hc
      rcases List.mem_append.mp hc with hc | hc
      · exact hhash_np hc
      · rcases List.mem_cons.mp hc with hc | hc
        · exact absurd hc (by decide)
        · exact hq_h hc
    · rw [splitOnceCh_boundary hq_np]

/-! ## C7 groundwork: `rfind`/params lemmas -/

theorem findIdx_eq_none_iff {α : Type} {p : α → Bool} :
    ∀ {l : List α} {i : ℕ}, List.findIdx? p l i = Option.none ↔ ∀ a ∈ l, p a = false := by
  intro l
  induction l with
  | nil => intro i; simp
  | cons x xs ih =>
      intro i
      rw [List.findIdx?_cons]
      by_cases hx : p x = true
      · simp [hx]
      · rw [if_neg hx, ih]
        constructor
        · intro h a ha
          rcases List.mem_cons.mp ha with rfl | ha
          · exact Bool.eq_false_iff.mpr hx
          · exact h a ha
        · intro h a ha
          exact h a (List.mem_cons_of_mem x ha)

theorem findIdx_boundary {α : Type} {p : α → Bool} {A : List α} {x : α} {B : List α}
    (hA : ∀ a ∈ A, p a = false) (hx : p x = true) :
    ∀ i, List.findIdx? p (A ++ x :: B) i = Option.some (i + A.length) := by
  induction A with
  | nil =>
      intro i
      simp [List.findIdx?_cons, hx]
  | cons a as ih =>
      intro i
      have ha : p a = false := hA a (List.mem_cons_self a as)
      rw [List.cons_append, List.findIdx?_cons]
      simp only [ha, Bool.false_eq_true, if_false]
      rw [ih (fun y hy => hA y (List.mem_cons_of_mem a hy)) (i + 1)]
      congr 1
      simp only [List.length_cons]
      omega

theorem findIdx_some_decomp {α : Type} {p : α → Bool} :
    ∀ {l : List α} {i j : ℕ}, List.findIdx? p l i = Option.some j →
      ∃ A x B, l = A ++ x :: B ∧ j = i + A.length ∧ p x = true ∧ ∀ y ∈ A, p y = false := by
  intro l
  induction l with
  | nil => intro i j h; simp at h
  | cons a as ih =>
      intro i j h
      rw [List.findIdx?_cons] at h
      by_cases ha : p a = true
      · rw [if_pos ha] at h
        cases h
        exact ⟨[], a, as, rfl, by simp, ha, by simp⟩
      · rw [if_neg ha] at h
        obtain ⟨A, x, B, hl, hj, hx, hA⟩ := ih h
        refine ⟨a :: A, x, B, by rw [hl]; rfl, ?_, hx, ?_⟩
        · simp only [List.length_cons]
          omega
        · intro y hy
          rcases List.mem_cons.mp hy with rfl | hy
          · simpa using ha
          · exact hA y hy

theorem rIdxOf_last_decomp {c : Char} {A L : Str} (hL : c ∉ L) :
    rIdxOf c (A ++ c :: L) = Option.some A.length := by
  unfold rIdxOf
  have hrev : (A ++ c :: L).reverse = L.reverse ++ c :: A.reverse := by
    simp
  rw [hrev]
  rw [findIdx_boundary (fun y hy => ?_) (by simp) 0]
  · simp only [Option.map_some', List.length_reverse, List.length_append,
      List.length_cons, Option.some.injEq]
    omega
  · have : y ∈ L := List.mem_reverse.mp hy
    simp only [decide_eq_false_iff_not]
    intro he
    exact hL (he ▸ this)

theorem rIdxOf_none {c : Char} {s : Str} (h : c ∉ s) : rIdxOf c s = Option.none := by
  unfold rIdxOf
  rw [(findIdx_eq_none_iff (p := fun x => x = c)).mpr]
  · rfl
  · intro a ha
    simp only [decide_eq_false_iff_not]
    intro he
    exact h (he ▸ List.mem_reverse.mp ha)

theorem last_slash_decomp {c : Char} {s : Str} (h : c ∈ s) :
    ∃ A L, s = A ++ c :: L ∧ c ∉ L := by
  induction s with
  | nil => simp at h
  | cons x xs ih =>
      by_cases hm : c ∈ xs
      · obtain ⟨A, L, hd, hL⟩ := ih hm
        exact ⟨x :: A, L, by rw [hd]; rfl, hL⟩
      · rcases List.mem_cons.mp h with rfl | h2
        · exact ⟨[], xs, rfl, hm⟩
        · exact absurd h2 hm

theorem drop_length_add_one {α : Type} (a : List α) (x : α) (b : List α) :
    (a ++ x :: b).drop (a.length + 1) = b := by
  rw [show a ++ x :: b = (a ++ [x]) ++ b from by simp]
  rw [show a.length + 1 = (a ++ [x]).length from by simp]
  exact List.drop_left _ _

theorem take_length_of_append {α : Type} (a b : List α) :
    (a ++ b).take a.length = a := List.take_left a b

theorem splitparams_slash_none {A L : Str} (hL : '/' ∉ L) (hs : ';' ∉ L) :
    splitparams (A ++ '/' :: L) = (A ++ '/' :: L, []) := by
  unfold splitparams
  rw [if_pos (show '/' ∈ A ++ '/' :: L from List.mem_append.mpr
    (Or.inr (List.mem_cons_self '/' L)))]
  rw [rIdxOf_last_decomp hL]
  unfold idxOfFrom
  rw [show (A ++ '/' :: L).drop ((Option.some A.length).getD 0) = '/' :: L from by
    simp only [Option.getD_some]
    exact List.drop_left A ('/' :: L)]
  rw [(findIdx_eq_none_iff).mpr]
  · rfl
  · intro a ha
    simp only [decide_eq_false_iff_not]
    rcases List.mem_cons.mp ha with rfl | ha
    · decide
    · intro he
      exact hs (he ▸ ha)

theorem splitparams_slash_split {A L1 L2 : Str} (hL : '/' ∉ L1 ++ ';' :: L2)
    (hL1 : ';' ∉ L1) :
    splitparams (A ++ '/' :: (L1 ++ ';' :: L2)) = (A ++ '/' :: L1, L2) := by
  unfold splitparams
  rw [if_pos (show '/' ∈ A ++ '/' :: (L1 ++ ';' :: L2) from List.mem_append.mpr
    (Or.inr (List.mem_cons_self _ _)))]
  rw [rIdxOf_last_decomp hL]
  unfold idxOfFrom
  rw [show (A ++ '/' :: (L1 ++ ';' :: L2)).drop ((Option.some A.length).getD 0) =
      ('/' :: L1) ++ ';' :: L2 from by
    simp only [Option.getD_some]
    rw [List.drop_left A]
    rfl]
  rw [findIdx_boundary (p := fun x => decide (x = ';')) ?hpre (by simp) 0]
  · simp only [Option.map_some']
    have hx : A ++ '/' :: (L1 ++ ';' :: L2) = (A ++ '/' :: L1) ++ ';' :: L2 := by
      simp
    rw [hx]
    simp only [Option.getD_some]
    have hlen : A.length + (0 + ('/' :: L1).length) = (A ++ '/' :: L1).length := by
      simp only [List.length_append, List.length_cons]
      omega
    rw [hlen, take_length_of_append, drop_length_add_one]
  case hpre =>
    intro a ha
    simp only [decide_eq_false_iff_not]
    rcases List.mem_cons.mp ha with rfl | ha
    · decide
    · intro he
      exact hL1 (he ▸ ha)

theorem splitparams_noslash_none {x : Str} (hsl : '/' ∉ x) (hs : ';' ∉ x) :
    splitparams x = (x, []) := by
  unfold splitparams
  rw [if_neg hsl, splitOnceCh_of_not_mem hs]

theorem splitparams_noslash_split {a b : Str} (hsl : '/' ∉ a ++ ';' :: b)
    (ha : ';' ∉ a) :
    splitparams (a ++ ';' :: b) = (a, b) := by
  unfold splitparams
  rw [if_neg hsl, splitOnceCh_boundary ha]

/-- On a `SegSafe` path the `urlparse` params split followed by the
`urlunparse` reattachment is the identity. -/
theorem reassemble_paramsSplit {sch x : Str}
    (hsafe : usesParams.contains sch = true → ';' ∈ x → SegSafe x) :
    reassembleParams (paramsSplit sch x) = x := by
  unfold paramsSplit
  by_cases hc : usesParams.contains sch = true ∧ ';' ∈ x
  · rw [if_pos hc]
    rcases hsafe hc.1 hc.2 with h0 | ⟨A, L, hx, hLs, hsafe2⟩
    · subst h0
      simp at hc
    · subst hx
      rcases hsafe2 with hnos | ⟨L1, L2, hL, hL1, hL2⟩
      · rw [splitparams_slash_none hLs hnos]
        unfold reassembleParams
        simp
      · subst hL
        rw [splitparams_slash_split hLs hL1]
        unfold reassembleParams
        simp only [if_pos hL2]   -- placeholder; fixed below if needed
        simp [hL2]
  · rw [if_neg hc]
    unfold reassembleParams
    simp

/-! ## C7 groundwork: facts about every successful `urlsplit` -/

theorem splitOnceCh_none_not_mem {c : Char} :
    ∀ {s : Str}, splitOnceCh c s = Option.none → c ∉ s := by
  intro s
  induction s with
  | nil => intro _ h; simp at h
  | cons x xs ih =>
      intro h hm
      simp only [splitOnceCh] at h
      by_cases hx : x = c
      · rw [if_pos hx] at h
        cases h
      · rw [if_neg hx] at h
        cases hsp : splitOnceCh c xs with
        | none =>
            rcases List.mem_cons.mp hm with rfl | hm2
            · exact hx rfl
            · exact ih hsp hm2
        | some p =>
            rw [hsp] at h
            simp [Option.map] at h

theorem char_le_iff_toNat (a b : Char) : a ≤ b ↔ a.toNat ≤ b.toNat := Iff.rfl

theorem isAsciiAlpha_lower {c : Char} (h : isAsciiAlpha c = true) :
    isAsciiAlpha (asciiLower c) = true := by
  have ea : ('a' : Char).toNat = 97 := rfl
  have ez : ('z' : Char).toNat = 122 := rfl
  have eA : ('A' : Char).toNat = 65 := rfl
  have eZ : ('Z' : Char).toNat = 90 := rfl
  simp only [isAsciiAlpha, Bool.or_eq_true, Bool.and_eq_true, decide_eq_true_eq,
    char_le_iff_toNat, ea, ez, eA, eZ] at h ⊢
  rcases asciiLower_toNat_cases c with hc | ⟨h1, h2, hc⟩ <;> omega

theorem schemeChar_lower {c : Char} (h : schemeChar c = true) :
    schemeChar (asciiLower c) = true := by
  by_cases hu : 'A' ≤ c ∧ c ≤ 'Z'
  · have halpha : isAsciiAlpha c = true := by
      simp only [isAsciiAlpha, Bool.or_eq_true, Bool.and_eq_true, decide_eq_true_eq]
      exact Or.inr hu
    have := isAsciiAlpha_lower halpha
    simp only [schemeChar, Bool.or_eq_true]
    tauto
  · rw [asciiLower_of_not c hu]
    exact h

/-- Facts about `trySplitScheme`'s result on any input. -/
theorem trySplitScheme_facts (url : Str) :
    ((trySplitScheme url).1 = [] ∧ (trySplitScheme url).2 = url) ∨
    (∃ c cs rest, url = (c :: cs) ++ ':' :: rest ∧
      (trySplitScheme url).1 = (c :: cs).map asciiLower ∧
      (trySplitScheme url).2 = rest ∧
      isAsciiAlpha c = true ∧ (c :: cs).all schemeChar = true) := by
  unfold trySplitScheme
  cases hsp : splitOnceCh ':' url with
  | none => exact Or.inl ⟨rfl, rfl⟩
  | some p =>
      obtain ⟨pre, post⟩ := p
      obtain ⟨hurl, hnc⟩ := splitOnceCh_some hsp
      cases pre with
      | nil => exact Or.inl ⟨rfl, rfl⟩
      | cons c cs =>
          by_cases hcond : isAsciiAlpha c = true ∧ (c :: cs).all schemeChar = true
          · right
            refine ⟨c, cs, post, hurl, ?_, ?_, hcond.1, hcond.2⟩
            · simp only [if_pos hcond]
            · simp only [if_pos hcond]
          · left
            constructor
            · simp only [if_neg hcond]
            · simp only [if_neg hcond]

/-- The scheme produced by `trySplitScheme` is lowercase, scheme-charactered
and alpha-headed whenever non-empty. -/
theorem trySplitScheme_scheme_facts (url : Str)
    (h : (trySplitScheme url).1 ≠ []) :
    (∃ c cs, (trySplitScheme url).1 = c :: cs ∧ isAsciiAlpha c = true) ∧
    (trySplitScheme url).1.all schemeChar = true ∧
    (trySplitScheme url).1.map asciiLower = (trySplitScheme url).1 ∧
    (goodStr url = true → goodStr (trySplitScheme url).1 = true) := by
  rcases trySplitScheme_facts url with ⟨h1, _⟩ | ⟨c, cs, rest, hurl, h1, h2, halpha, hall⟩
  · exact absurd h1 h
  · refine ⟨⟨asciiLower c, cs.map asciiLower, by rw [h1]; rfl, isAsciiAlpha_lower halpha⟩,
      ?_, ?_, ?_⟩
    · rw [h1]
      simp only [List.all_eq_true, List.mem_map]
      rintro y ⟨d, hd, rfl⟩
      exact schemeChar_lower ((List.all_eq_true.mp hall) d hd)
    · rw [h1, map_lower_idem]
    · intro hg
      rw [h1]
      apply goodStr_map_lower
      refine goodStr_of_subset hg (fun d hd => ?_)
      rw [hurl]
      exact List.mem_append.mpr (Or.inl hd)

theorem drop_takeWhile_eq_dropWhile {p : Char → Bool} :
    ∀ (l : Str), l.drop (l.takeWhile p).length = l.dropWhile p := by
  intro l
  induction l with
  | nil => rfl
  | cons x xs ih =>
      by_cases hx : p x = true
      · simp [List.takeWhile_cons, List.dropWhile_cons, hx, ih]
      · simp only [Bool.not_eq_true] at hx
        simp [List.takeWhile_cons, List.dropWhile_cons, hx]

theorem trySplitScheme_snd_good {url : Str} (hg : goodStr url = true) :
    goodStr (trySplitScheme url).2 = true := by
  rcases trySplitScheme_facts url with ⟨_, h2⟩ | ⟨c, cs, rest, hurl, _, h2, _, _⟩
  · rw [h2]; exact hg
  · rw [h2]
    refine goodStr_of_subset hg (fun d hd => ?_)
    rw [hurl]
    exact List.mem_append.mpr (Or.inr (List.mem_cons_of_mem ':' hd))

theorem dropWhile_head_false {p : Char → Bool} :
    ∀ (l : Str), l.dropWhile p = [] ∨
      ∃ c t, l.dropWhile p = c :: t ∧ p c = false := by
  intro l
  induction l with
  | nil => left; rfl
  | cons x xs ih =>
      by_cases hx : p x = true
      · simpa [List.dropWhile_cons, hx] using ih
      · simp only [Bool.not_eq_true] at hx
        right
        exact ⟨x, xs, by simp [List.dropWhile_cons, hx], hx⟩

theorem notNetlocDelim_false_iff (c : Char) :
    notNetlocDelim c = false ↔ (c = '/' ∨ c = '?' ∨ c = '#') := by
  simp only [notNetlocDelim, decide_eq_false_iff_not, not_not]

theorem splitPipe_facts (c : Char) (u a b : Str)
    (h : (match splitOnceCh c u with
          | Option.some (x, y) => (x, y)
          | Option.none => (u, ([] : Str))) = (a, b)) :
    (∃ r, u = a ++ r) ∧ c ∉ a ∧ (∀ y2 ∈ b, y2 ∈ u) := by
  cases hsp : splitOnceCh c u with
  | none =>
      rw [hsp] at h
      injection h with e1 e2
      subst e1
      subst e2
      refine ⟨⟨[], by simp⟩, splitOnceCh_none_not_mem hsp, ?_⟩
      intro y2 hy
      simp at hy
  | some p =>
      obtain ⟨xx, yy⟩ := p
      rw [hsp] at h
      injection h with e1 e2
      obtain ⟨hu, hnc⟩ := splitOnceCh_some hsp
      subst e1
      subst e2
      refine ⟨⟨c :: yy, hu⟩, hnc, ?_⟩
      intro y2 hy
      rw [hu]
      exact List.mem_append.mpr (Or.inr (List.mem_cons_of_mem c hy))

/-- Facts about every successful `urlsplit`. -/
theorem urlsplit_facts {x : Str} {t : SplitRes} (h : urlsplit x = .ok t) :
    (t.scheme ≠ [] →
      (∃ c cs, t.scheme = c :: cs ∧ isAsciiAlpha c = true) ∧
      t.scheme.all schemeChar = true ∧ t.scheme.map asciiLower = t.scheme) ∧
    t.netloc.all notNetlocDelim = true ∧
    ¬ (('[' ∈ t.netloc ∧ ']' ∉ t.netloc) ∨ (']' ∈ t.netloc ∧ '[' ∉ t.netloc)) ∧
    '#' ∉ t.path ∧ '?' ∉ t.path ∧ '#' ∉ t.query ∧
    (t.netloc ≠ [] → t.path = [] ∨ t.path.take 1 = ['/']) ∧
    (goodStr x = true → goodStr t.scheme = true ∧ goodStr t.netloc = true ∧
      goodStr t.path = true ∧ goodStr t.query = true ∧ goodStr t.fragment = true) := by
  unfold urlsplit at h
  dsimp only at h
  obtain ⟨sch, u2, hts⟩ :
      ∃ a b, trySplitScheme (removeUnsafe (x.dropWhile c0OrSpace)) = (a, b) := ⟨_, _, rfl⟩
  rw [hts] at h
  dsimp only at h
  cases hsn : splitNetloc u2 with
  | error e => rw [hsn] at h; cases h
  | ok nl3 =>
      obtain ⟨nl, u3⟩ := nl3
      rw [hsn] at h
      dsimp only at h
      obtain ⟨u4, frag, hfr⟩ :
          ∃ a b, (match splitOnceCh '#' u3 with
                  | Option.some (a, b) => (a, b)
                  | Option.none => (u3, ([] : Str))) = (a, b) := ⟨_, _, rfl⟩
      rw [hfr] at h
      dsimp only at h
      obtain ⟨pth, qry, hpq⟩ :
          ∃ a b, (match splitOnceCh '?' u4 with
                  | Option.some (a, b) => (a, b)
                  | Option.none => (u4, ([] : Str))) = (a, b) := ⟨_, _, rfl⟩
      rw [hpq] at h
      dsimp only at h
      obtain rfl : t = ⟨sch, nl, pth, qry, frag⟩ := by
        injection h with h2
        exact h2.symm
      obtain ⟨⟨r4, hu3⟩, hnh4, hfragmem⟩ := splitPipe_facts '#' u3 u4 frag hfr
      obtain ⟨⟨r5, hu4⟩, hnq5, hqrymem⟩ := splitPipe_facts '?' u4 pth qry hpq
      have hnh_pth : '#' ∉ pth := by
        intro hc
        exact hnh4 (hu4 ▸ List.mem_append.mpr (Or.inl hc))
      have hnh_qry : '#' ∉ qry := fun hc => hnh4 (hqrymem '#' hc)
      -- netloc analysis
      have hnl_facts : nl.all notNetlocDelim = true ∧
          ¬ (('[' ∈ nl ∧ ']' ∉ nl) ∨ (']' ∈ nl ∧ '[' ∉ nl)) ∧
          (nl ≠ [] → u3 = [] ∨ ∃ c t2, u3 = c :: t2 ∧ notNetlocDelim c = false) ∧
          (∀ y ∈ nl, y ∈ u2) ∧ (∀ y ∈ u3, y ∈ u2) := by
        unfold splitNetloc at hsn
        by_cases h2 : u2.take 2 = ['/', '/']
        · rw [if_pos h2] at hsn
          by_cases hbr : ('[' ∈ (u2.drop 2).takeWhile notNetlocDelim ∧
              ']' ∉ (u2.drop 2).takeWhile notNetlocDelim) ∨
              (']' ∈ (u2.drop 2).takeWhile notNetlocDelim ∧
              '[' ∉ (u2.drop 2).takeWhile notNetlocDelim)
          · rw [if_pos hbr] at hsn
            cases hsn
          · rw [if_neg hbr] at hsn
            injection hsn with e
            injection e with e1 e2
            subst e1
            refine ⟨?_, hbr, ?_, ?_, ?_⟩
            · exact List.all_eq_true.mpr (fun y hy => List.mem_takeWhile_imp hy)
            · intro _
              rw [← e2, drop_takeWhile_eq_dropWhile]
              exact dropWhile_head_false _
            · intro y hy
              exact List.drop_subset 2 u2 ((List.takeWhile_sublist _).subset hy)
            · intro y hy
              rw [← e2, drop_takeWhile_eq_dropWhile] at hy
              exact List.drop_subset 2 u2 ((List.dropWhile_sublist _).subset hy)
        · rw [if_neg h2] at hsn
          injection hsn with e
          injection e with e1 e2
          subst e1
          refine ⟨by simp, by simp, fun hne => absurd rfl hne, by simp, ?_⟩
          intro y hy
          rw [← e2] at hy
          exact hy
      refine ⟨?_, hnl_facts.1, hnl_facts.2.1, hnh_pth, hnq5, hnh_qry, ?_, ?_⟩
      · intro hne
        have hfacts := trySplitScheme_scheme_facts
          (removeUnsafe (x.dropWhile c0OrSpace)) (by rw [hts]; exact hne)
        rw [hts] at hfacts
        exact ⟨hfacts.1, hfacts.2.1, hfacts.2.2.1⟩
      · -- path shape under a nonempty netloc
        intro hnl_ne
        rcases hnl_facts.2.2.1 hnl_ne with h30 | ⟨c0, t0, hu3c, hc0⟩
        · left
          rw [h30] at hu3
          have hu40 : u4 = [] := (List.append_eq_nil.mp hu3.symm).1
          rw [hu40] at hu4
          exact (List.append_eq_nil.mp hu4.symm).1
        · cases pth with
          | nil => exact Or.inl rfl
          | cons p0 pt =>
              have : u3 = p0 :: (pt ++ r5 ++ r4) := by
                rw [hu3, hu4]
                simp
              rw [hu3c] at this
              injection this with e1 _
              rcases (notNetlocDelim_false_iff c0).mp hc0 with rfl | rfl | rfl
              · right
                rw [← e1]
                rfl
              · exact absurd (e1 ▸ List.mem_cons_self p0 pt) hnq5
              · exact absurd (hu4 ▸ List.mem_append.mpr
                  (Or.inl (e1 ▸ List.mem_cons_self p0 pt))) hnh4
      · -- goodness of the components
        intro hg
        rw [dropWhile_c0_of_good hg, removeUnsafe_of_good hg] at hts
        have hu2g : goodStr u2 = true := by
          have := trySplitScheme_snd_good hg
          rw [hts] at this
          exact this
        have hu3g : goodStr u3 = true :=
          goodStr_of_subset hu2g hnl_facts.2.2.2.2
        have hschg : goodStr sch = true := by
          by_cases hne : sch = []
          · rw [hne]; rfl
          · have hfacts := trySplitScheme_scheme_facts x (by rw [hts]; exact hne)
            have := hfacts.2.2.2 hg
            rw [hts] at this
            exact this
        refine ⟨hschg, goodStr_of_subset hu2g hnl_facts.2.2.2.1, ?_, ?_, ?_⟩
        · refine goodStr_of_subset hu3g (fun y hy => ?_)
          rw [hu3, hu4]
          exact List.mem_append.mpr (Or.inl (List.mem_append.mpr (Or.inl hy)))
        · refine goodStr_of_subset hu3g (fun y hy => ?_)
          rw [hu3]
          exact List.mem_append.mpr (Or.inl (hqrymem y hy))
        · exact goodStr_of_subset hu3g hfragmem

/-! ## C7 groundwork: `urlparse`, `urljoin` branches, `joinPath` structure -/

theorem urlparse_eq {url defScheme : Str} {ts : SplitRes} {P R : Str}
    (h : urlsplit url = .ok ts)
    (hps : paramsSplit (if ts.scheme = [] then defScheme else ts.scheme) ts.path = (P, R)) :
    urlparse url defScheme = .ok ⟨(if ts.scheme = [] then defScheme else ts.scheme),
      ts.netloc, P, R, ts.query, ts.fragment⟩ := by
  unfold urlparse
  rw [h]
  dsimp only
  rw [hps]

theorem urljoin_branch2 {base url : Str} {b u : ParseRes}
    (hB : ¬ base = []) (hU : ¬ url = [])
    (hb : urlparse base [] = .ok b) (hu : urlparse url b.scheme = .ok u)
    (hsch : u.scheme = b.scheme) (hrel : usesRelative.contains u.scheme = true)
    (hnet : usesNetloc.contains u.scheme = true) (hnl : u.netloc ≠ []) :
    urljoin base url = .ok (urlunparse u) := by
  unfold urljoin
  rw [if_neg hB, if_neg hU, hb]
  try dsimp only
  rw [hu]
  try dsimp only
  rw [if_neg (show ¬ (u.scheme ≠ b.scheme ∨ ¬ usesRelative.contains u.scheme = true) from by
    push_neg
    exact ⟨hsch, hrel⟩)]
  rw [if_pos ⟨hnet, hnl⟩]

theorem urljoin_branch3 {base url : Str} {b u : ParseRes}
    (hB : ¬ base = []) (hU : ¬ url = [])
    (hb : urlparse base [] = .ok b) (hu : urlparse url b.scheme = .ok u)
    (hsch : u.scheme = b.scheme) (hrel : usesRelative.contains u.scheme = true)
    (hnl2 : ¬ (usesNetloc.contains u.scheme = true ∧ u.netloc ≠ []))
    (hpe : u.path = [] ∧ u.params = []) :
    urljoin base url = .ok (urlunparse ⟨u.scheme,
      (if usesNetloc.contains u.scheme = true then b.netloc else u.netloc),
      b.path, b.params,
      (if u.query = [] then b.query else u.query), u.fragment⟩) := by
  unfold urljoin
  rw [if_neg hB, if_neg hU, hb]
  try dsimp only
  rw [hu]
  try dsimp only
  rw [if_neg (show ¬ (u.scheme ≠ b.scheme ∨ ¬ usesRelative.contains u.scheme = true) from by
    push_neg
    exact ⟨hsch, hrel⟩)]
  rw [if_neg hnl2]
  try dsimp only
  rw [if_pos hpe]

theorem urljoin_branch4 {base url : Str} {b u : ParseRes}
    (hB : ¬ base = []) (hU : ¬ url = [])
    (hb : urlparse base [] = .ok b) (hu : urlparse url b.scheme = .ok u)
    (hsch : u.scheme = b.scheme) (hrel : usesRelative.contains u.scheme = true)
    (hnl2 : ¬ (usesNetloc.contains u.scheme = true ∧ u.netloc ≠ []))
    (hpe : ¬ (u.path = [] ∧ u.params = [])) :
    urljoin base url = .ok (urlunparse ⟨u.scheme,
      (if usesNetloc.contains u.scheme = true then b.netloc else u.netloc),
      joinPath b.path u.path, u.params, u.query, u.fragment⟩) := by
  unfold urljoin
  rw [if_neg hB, if_neg hU, hb]
  try dsimp only
  rw [hu]
  try dsimp only
  rw [if_neg (show ¬ (u.scheme ≠ b.scheme ∨ ¬ usesRelative.contains u.scheme = true) from by
    push_neg
    exact ⟨hsch, hrel⟩)]
  rw [if_neg hnl2]
  try dsimp only
  rw [if_neg hpe]

theorem getLastD_mem {α : Type} : ∀ (l : List α) (d : α), l ≠ [] → l.getLastD d ∈ l := by
  intro l
  induction l with
  | nil => intro d h; exact absurd rfl h
  | cons x xs ih =>
      intro d _
      cases hxs : xs with
      | nil => simp [List.getLastD]
      | cons y ys =>
          rw [List.getLastD_cons]
          rw [hxs] at ih
          exact List.mem_cons_of_mem x (hxs ▸ ih x (by simp))

theorem getLastD_indep {α : Type} : ∀ (l : List α) (d d' : α), l ≠ [] →
    l.getLastD d = l.getLastD d' := by
  intro l
  cases l with
  | nil => intro d d' h; exact absurd rfl h
  | cons x xs =>
      intro d d' _
      rw [List.getLastD_cons, List.getLastD_cons]

theorem getLastD_append_right {α : Type} (a : List α) :
    ∀ (b : List α) (d : α), b ≠ [] → (a ++ b).getLastD d = b.getLastD d := by
  induction a with
  | nil => intro b d _; rfl
  | cons x xs ih =>
      intro b d hb
      rw [List.cons_append, List.getLastD_cons, ih b x hb, getLastD_indep b x d hb]

theorem filterInterior_ne_nil {l : List Str} (h : l ≠ []) : filterInterior l ≠ [] := by
  cases l with
  | nil => exact absurd rfl h
  | cons a rest =>
      cases rest with
      | nil => simp [filterInterior]
      | cons b bs => simp [filterInterior]

theorem filterInterior_subset {l : List Str} : ∀ e ∈ filterInterior l, e ∈ l := by
  intro e he
  cases l with
  | nil => simpa [filterInterior] using he
  | cons a rest =>
      cases rest with
      | nil => simpa [filterInterior] using he
      | cons b bs =>
          simp only [filterInterior] at he
          rcases List.mem_cons.mp he with rfl | he2
          · exact List.mem_cons_self _ _
          · rcases List.mem_append.mp he2 with he3 | he3
            · have := List.mem_of_mem_filter he3
              exact List.mem_cons_of_mem a (List.dropLast_subset _ this)
            · have : e = (b :: bs).getLastD [] := by simpa using he3
              rw [this]
              exact List.mem_cons_of_mem a (getLastD_mem _ [] (by simp))

theorem filterInterior_getLast {l : List Str} (h : l ≠ []) :
    (filterInterior l).getLastD [] = l.getLastD [] := by
  cases l with
  | nil => exact absurd rfl h
  | cons a rest =>
      cases rest with
      | nil => rfl
      | cons b bs =>
          simp only [filterInterior]
          rw [List.getLastD_cons, getLastD_append_right _ [(b :: bs).getLastD []] a (by simp)]
          rw [List.getLastD_cons]
          simp only [List.getLastD]
          exact (getLastD_indep (b :: bs) a [] (by simp)).symm

theorem resolve_fold_subset (segs : List Str) :
    ∀ (acc : List Str) (e : Str), e ∈ segs.foldl
      (fun acc seg =>
        if seg = ofS ".." then acc.dropLast
        else if seg = ofS "." then acc
        else acc ++ [seg]) acc → e ∈ acc ∨ e ∈ segs := by
  induction segs with
  | nil => intro acc e he; exact Or.inl he
  | cons s0 ss ih =>
      intro acc e he
      rw [List.foldl_cons] at he
      rcases ih _ e he with h1 | h1
      · by_cases h2 : s0 = ofS ".."
        · rw [if_pos h2] at h1
          exact Or.inl (List.dropLast_subset _ h1)
        · rw [if_neg h2] at h1
          by_cases h3 : s0 = ofS "."
          · rw [if_pos h3] at h1
            exact Or.inl h1
          · rw [if_neg h3] at h1
            rcases List.mem_append.mp h1 with h4 | h4
            · exact Or.inl h4
            · right
              have : e = s0 := by simpa using h4
              rw [this]
              exact List.mem_cons_self _ _
      · exact Or.inr (List.mem_cons_of_mem s0 h1)

theorem getLastD_eq_getLast {α : Type} : ∀ (l : List α) (d : α) (h : l ≠ []),
    l.getLastD d = l.getLast h := by
  intro l
  induction l with
  | nil => intro d h; exact absurd rfl h
  | cons x xs ih =>
      intro d h
      cases xs with
      | nil => rfl
      | cons y ys =>
          rw [List.getLastD_cons, ih x (by simp)]
          exact (List.getLast_cons (by simp)).symm

theorem resolve_fold_last (S : List Str) (lastv : Str)
    (hl1 : lastv ≠ ofS "..") (hl2 : lastv ≠ ofS ".") (acc : List Str) :
    ∃ front, (S ++ [lastv]).foldl
      (fun acc seg =>
        if seg = ofS ".." then acc.dropLast
        else if seg = ofS "." then acc
        else acc ++ [seg]) acc = front ++ [lastv] := by
  rw [List.foldl_append, List.foldl_cons, List.foldl_nil]
  rw [if_neg hl1, if_neg hl2]
  exact ⟨_, rfl⟩

/-- The structure of the merged path: it ends in `/`, or in the last
segment of the relative path, or is that segment alone with no slash. -/
theorem joinPath_structure (bp up' : Str) :
    (∃ A, joinPath bp up' = A ++ '/' :: ([] : Str)) ∨
    (∃ A, joinPath bp up' = A ++ '/' :: lastSeg up' ∧ '/' ∉ lastSeg up') ∨
    (joinPath bp up' = lastSeg up' ∧ '/' ∉ lastSeg up' ∧ '/' ∉ joinPath bp up') := by
  unfold joinPath
  dsimp only
  set segments :=
    (if up'.take 1 = ['/'] then splitChar '/' up'
     else filterInterior
       ((if (splitChar '/' bp).getLastD [] ≠ [] then (splitChar '/' bp).dropLast
         else splitChar '/' bp) ++ splitChar '/' up')) with hsegs
  have hsegs_ne : segments ≠ [] := by
    rw [hsegs]
    by_cases hs1 : up'.take 1 = ['/']
    · rw [if_pos hs1]
      exact splitChar_ne_nil '/' up'
    · rw [if_neg hs1]
      apply filterInterior_ne_nil
      intro hc
      have := splitChar_ne_nil '/' up'
      cases hx : (if (splitChar '/' bp).getLastD [] ≠ [] then (splitChar '/' bp).dropLast
          else splitChar '/' bp) with
      | nil => rw [hx] at hc; simp only [List.nil_append] at hc; exact this hc
      | cons z zs => rw [hx] at hc; simp at hc
  have hsegs_last : segments.getLastD [] = lastSeg up' := by
    rw [hsegs]
    by_cases hs1 : up'.take 1 = ['/']
    · rw [if_pos hs1]
      rfl
    · rw [if_neg hs1]
      rw [filterInterior_getLast]
      · rw [getLastD_append_right _ _ _ (splitChar_ne_nil '/' up')]
        rfl
      · intro hc
        have := splitChar_ne_nil '/' up'
        cases hx : (if (splitChar '/' bp).getLastD [] ≠ [] then (splitChar '/' bp).dropLast
            else splitChar '/' bp) with
        | nil => rw [hx] at hc; simp only [List.nil_append] at hc; exact this hc
        | cons z zs => rw [hx] at hc; simp at hc
  have hls_noslash : '/' ∉ lastSeg up' := by
    unfold lastSeg
    exact splitChar_not_mem '/' up' _ (getLastD_mem _ [] (splitChar_ne_nil '/' up'))
  by_cases htr : segments.getLastD [] = ofS ".." ∨ segments.getLastD [] = ofS "."
  · -- trailing `..`/`.`: a `""` element is appended, the path ends in `/`
    rw [if_pos htr]
    set res := segments.foldl
      (fun acc seg =>
        if seg = ofS ".." then acc.dropLast
        else if seg = ofS "." then acc
        else acc ++ [seg]) ([] : List Str) with hres
    left
    cases hr : res with
    | nil =>
        rw [show List.intercalate ['/'] (([] : List Str) ++ [([] : Str)]) = [] from by
          simp [intercalate_singleton]]
        exact ⟨[], by simp⟩
    | cons r0 rs =>
        obtain ⟨A, hA⟩ := intercalate_last_decomp '/' (r0 :: rs) [] (by simp)
        rw [hA]
        have hne2 : A ++ '/' :: ([] : Str) ≠ [] := by simp
        rw [if_neg hne2]
        exact ⟨A, rfl⟩
  · rw [if_neg htr]
    push_neg at htr
    have hdec : segments.dropLast ++ [segments.getLast hsegs_ne] = segments :=
      List.dropLast_append_getLast hsegs_ne
    have hgl : segments.getLast hsegs_ne = lastSeg up' := by
      rw [← getLastD_eq_getLast segments [] hsegs_ne, hsegs_last]
    obtain ⟨front, hfr⟩ := resolve_fold_last segments.dropLast (segments.getLast hsegs_ne)
      (by rw [← getLastD_eq_getLast segments [] hsegs_ne]; exact htr.1)
      (by rw [← getLastD_eq_getLast segments [] hsegs_ne]; exact htr.2) []
    rw [hdec] at hfr
    rw [hfr, hgl]
    cases hf : front with
    | nil =>
        rw [List.nil_append, intercalate_singleton]
        by_cases hL : lastSeg up' = []
        · rw [if_pos hL]
          exact Or.inl ⟨[], by simp⟩
        · rw [if_neg hL]
          exact Or.inr (Or.inr ⟨rfl, hls_noslash, hls_noslash⟩)
    | cons f0 fs =>
        obtain ⟨A, hA⟩ := intercalate_last_decomp '/' (f0 :: fs) (lastSeg up') (by simp)
        rw [hA]
        have hne2 : A ++ '/' :: lastSeg up' ≠ [] := by simp
        rw [if_neg hne2]
        exact Or.inr (Or.inl ⟨A, rfl, hls_noslash⟩)

/-! ## C7 groundwork: character membership in split/join results -/

theorem headD_mem {α : Type} {l : List α} (h : l ≠ []) (d : α) : l.headD d ∈ l := by
  cases l with
  | nil => exact absurd rfl h
  | cons x xs => exact List.mem_cons_self x xs

theorem tail_subset_self {α : Type} (l : List α) : ∀ y ∈ l.tail, y ∈ l := by
  cases l with
  | nil => intro y hy; simp at hy
  | cons x xs => intro y hy; exact List.mem_cons_of_mem x hy

theorem splitChar_mem_subset (c : Char) :
    ∀ (x : Str), ∀ p ∈ splitChar c x, ∀ y ∈ p, y ∈ x := by
  intro x
  induction x with
  | nil =>
      intro p hp y hy
      simp only [splitChar, List.mem_singleton] at hp
      subst hp
      simp at hy
  | cons a as ih =>
      intro p hp y hy
      simp only [splitChar] at hp
      by_cases ha : a = c
      · rw [if_pos ha] at hp
        rcases List.mem_cons.mp hp with rfl | hp2
        · simp at hy
        · exact List.mem_cons_of_mem a (ih p hp2 y hy)
      · rw [if_neg ha] at hp
        rcases List.mem_cons.mp hp with rfl | hp2
        · rcases List.mem_cons.mp hy with rfl | hy2
          · exact List.mem_cons_self y as
          · exact List.mem_cons_of_mem a
              (ih _ (headD_mem (splitChar_ne_nil c as) []) y hy2)
        · exact List.mem_cons_of_mem a (ih p (tail_subset_self _ p hp2) y hy)

theorem lastSeg_mem {x : Str} : ∀ y ∈ lastSeg x, y ∈ x := by
  intro y hy
  unfold lastSeg at hy
  exact splitChar_mem_subset '/' x _ (getLastD_mem _ [] (splitChar_ne_nil '/' x)) y hy

theorem lastSeg_no_slash (x : Str) : '/' ∉ lastSeg x := by
  unfold lastSeg
  exact splitChar_not_mem '/' x _ (getLastD_mem _ [] (splitChar_ne_nil '/' x))

theorem lastSeg_decomp {A L : Str} (hL : '/' ∉ L) : lastSeg (A ++ '/' :: L) = L := by
  unfold lastSeg
  obtain ⟨front, hf, hfne⟩ := splitChar_last_decomp hL
  rw [hf, getLastD_append_right front [L] [] (by simp)]
  rfl

theorem lastSeg_noslash_self {x : Str} (h : '/' ∉ x) : lastSeg x = x := by
  unfold lastSeg
  rw [splitChar_of_not_mem h]
  rfl

theorem mem_intercalate_ch (c : Char) :
    ∀ (L : List Str) (y : Char), y ∈ List.intercalate [c] L → y = c ∨ ∃ p ∈ L, y ∈ p := by
  intro L
  induction L with
  | nil => intro y hy; simp [List.intercalate] at hy
  | cons x rest ih =>
      intro y hy
      cases rest with
      | nil =>
          rw [intercalate_singleton] at hy
          exact Or.inr ⟨x, List.mem_cons_self x [], hy⟩
      | cons x2 rest2 =>
          rw [intercalate_cons_cons] at hy
          rcases List.mem_append.mp hy with h1 | h1
          · exact Or.inr ⟨x, List.mem_cons_self _ _, h1⟩
          · rcases List.mem_cons.mp h1 with rfl | h2
            · exact Or.inl rfl
            · rcases ih y h2 with h3 | ⟨p, hp, hyp⟩
              · exact Or.inl h3
              · exact Or.inr ⟨p, List.mem_cons_of_mem x hp, hyp⟩

theorem first_mem_decomp {c : Char} {s : Str} (h : c ∈ s) :
    ∃ a b, s = a ++ c :: b ∧ c ∉ a := by
  cases hsp : splitOnceCh c s with
  | none => exact absurd h (splitOnceCh_none_not_mem hsp)
  | some p =>
      obtain ⟨a, b⟩ := p
      obtain ⟨he, hna⟩ := splitOnceCh_some hsp
      exact ⟨a, b, he, hna⟩

theorem mem_normPath {p : Str} : ∀ y ∈ normPath p, y = '/' ∨ y ∈ p := by
  intro y hy
  unfold normPath at hy
  by_cases h0 : p = []
  · rw [if_pos h0] at hy; simp at hy
  · rw [if_neg h0] at hy
    by_cases h1 : p.take 1 = ['/']
    · rw [if_pos h1] at hy; exact Or.inr hy
    · rw [if_neg h1] at hy
      rcases List.mem_cons.mp hy with rfl | hy2
      · exact Or.inl rfl
      · exact Or.inr hy2

theorem normPath_of_take {x : Str} (h0 : x ≠ []) (h1 : x.take 1 ≠ ['/']) :
    normPath x = '/' :: x := by
  unfold normPath
  rw [if_neg h0, if_neg h1]

theorem take1_ne_slash_of_not_mem {x : Str} (h : '/' ∉ x) : x.take 1 ≠ ['/'] := by
  intro hc
  exact h (List.take_subset 1 x (by rw [hc]; exact List.mem_singleton.mpr rfl))

theorem normPath_idem (p : Str) : normPath (normPath p) = normPath p := by
  by_cases h0 : p = []
  · subst h0; rfl
  · by_cases h1 : p.take 1 = ['/']
    · have he : normPath p = p := by
        unfold normPath; rw [if_neg h0, if_pos h1]
      rw [he]
      exact he
    · have he : normPath p = '/' :: p := normPath_of_take h0 h1
      rw [he]
      unfold normPath
      rw [if_neg (show ¬ ('/' :: p : Str) = [] by simp),
        if_pos (show ('/' :: p : Str).take 1 = ['/'] by simp)]

theorem SegSafe_normPath {x : Str} (h : SegSafe x) : SegSafe (normPath x) := by
  rcases h with rfl | ⟨A, L, rfl, hL, hs⟩
  · exact Or.inl rfl
  · by_cases h1 : (A ++ '/' :: L).take 1 = ['/']
    · rw [show normPath (A ++ '/' :: L) = A ++ '/' :: L from by
        unfold normPath; rw [if_neg (by simp), if_pos h1]]
      exact Or.inr ⟨A, L, rfl, hL, hs⟩
    · rw [normPath_of_take (by simp) h1]
      exact Or.inr ⟨'/' :: A, L, rfl, hL, hs⟩

/-! ## C7 groundwork: `SegSafe` paths out of the params split and the merge -/

theorem paramsSplit_facts2 (sch x : Str) (husep : usesParams.contains sch = true) :
    '/' ∉ (paramsSplit sch x).2 ∧ ';' ∉ lastSeg (paramsSplit sch x).1 := by
  by_cases hsx : ';' ∈ x
  · have hps : paramsSplit sch x = splitparams x := by
      unfold paramsSplit; rw [if_pos ⟨husep, hsx⟩]
    rw [hps]
    by_cases hslash : '/' ∈ x
    · obtain ⟨A, L, rfl, hLns⟩ := last_slash_decomp hslash
      by_cases hsL : ';' ∈ L
      · obtain ⟨L1, L2, hLdec, hL1⟩ := first_mem_decomp hsL
        subst hLdec
        rw [splitparams_slash_split hLns hL1]
        refine ⟨fun hc => hLns (List.mem_append.mpr (Or.inr (List.mem_cons_of_mem ';' hc))), ?_⟩
        rw [lastSeg_decomp (fun hc => hLns (List.mem_append.mpr (Or.inl hc)))]
        exact hL1
      · rw [splitparams_slash_none hLns hsL]
        exact ⟨by simp, by rw [lastSeg_decomp hLns]; exact hsL⟩
    · obtain ⟨a, bb, rfl, ha⟩ := first_mem_decomp hsx
      rw [splitparams_noslash_split hslash ha]
      have hsla : '/' ∉ a := fun hc => hslash (List.mem_append.mpr (Or.inl hc))
      refine ⟨fun hc => hslash (List.mem_append.mpr (Or.inr (List.mem_cons_of_mem ';' hc))), ?_⟩
      rw [lastSeg_noslash_self hsla]
      exact ha
  · have hps : paramsSplit sch x = (x, []) := by
      unfold paramsSplit
      rw [if_neg (fun hc => hsx hc.2)]
    rw [hps]
    exact ⟨by simp, fun hc => hsx (lastSeg_mem ';' hc)⟩

theorem SegSafe_split (sch x : Str) (husep : usesParams.contains sch = true) :
    ';' ∈ normPath (reassembleParams (paramsSplit sch x)) →
    SegSafe (normPath (reassembleParams (paramsSplit sch x))) := by
  by_cases hsx : ';' ∈ x
  · have hps : paramsSplit sch x = splitparams x := by
      unfold paramsSplit; rw [if_pos ⟨husep, hsx⟩]
    rw [hps]
    by_cases hslash : '/' ∈ x
    · obtain ⟨A, L, rfl, hLns⟩ := last_slash_decomp hslash
      by_cases hsL : ';' ∈ L
      · obtain ⟨L1, L2, hLdec, hL1⟩ := first_mem_decomp hsL
        subst hLdec
        rw [splitparams_slash_split hLns hL1]
        intro _
        by_cases hL2 : L2 = []
        · subst hL2
          rw [show reassembleParams (A ++ '/' :: L1, ([] : Str)) = A ++ '/' :: L1 from by
            simp [reassembleParams]]
          exact SegSafe_normPath (Or.inr ⟨A, L1, rfl,
            fun hc => hLns (List.mem_append.mpr (Or.inl hc)), Or.inl hL1⟩)
        · rw [show reassembleParams (A ++ '/' :: L1, L2) = A ++ '/' :: (L1 ++ ';' :: L2) from by
            simp [reassembleParams, hL2]]
          exact SegSafe_normPath (Or.inr ⟨A, L1 ++ ';' :: L2, rfl, hLns,
            Or.inr ⟨L1, L2, rfl, hL1, hL2⟩⟩)
      · rw [splitparams_slash_none hLns hsL]
        intro _
        rw [show reassembleParams (A ++ '/' :: L, ([] : Str)) = A ++ '/' :: L from by
          simp [reassembleParams]]
        exact SegSafe_normPath (Or.inr ⟨A, L, rfl, hLns, Or.inl hsL⟩)
    · obtain ⟨a, bb, rfl, ha⟩ := first_mem_decomp hsx
      rw [splitparams_noslash_split hslash ha]
      intro hmem
      by_cases hbb : bb = []
      · subst hbb
        rw [show reassembleParams (a, ([] : Str)) = a from by simp [reassembleParams]] at hmem
        rcases mem_normPath ';' hmem with h1 | h1
        · exact absurd h1 (by decide)
        · exact absurd h1 ha
      · rw [show reassembleParams (a, bb) = a ++ ';' :: bb from by
          simp [reassembleParams, hbb]]
        have hnox : '/' ∉ a ++ ';' :: bb := hslash
        rw [normPath_of_take (by simp) (take1_ne_slash_of_not_mem hnox)]
        exact Or.inr ⟨[], a ++ ';' :: bb, rfl, hnox, Or.inr ⟨a, bb, rfl, ha, hbb⟩⟩
  · have hps : paramsSplit sch x = (x, []) := by
      unfold paramsSplit
      rw [if_neg (fun hc => hsx hc.2)]
    rw [hps, show reassembleParams (x, ([] : Str)) = x from by simp [reassembleParams]]
    intro hmem
    rcases mem_normPath ';' hmem with h1 | h1
    · exact absurd h1 (by decide)
    · exact absurd h1 hsx

theorem SegSafe_join_core (bp P1 R1 : Str) (hR : '/' ∉ R1) (hP : ';' ∉ lastSeg P1) :
    ';' ∈ normPath (reassembleParams (joinPath bp P1, R1)) →
    SegSafe (normPath (reassembleParams (joinPath bp P1, R1))) := by
  rcases joinPath_structure bp P1 with ⟨A, hjp⟩ | ⟨A, hjp, hns⟩ | ⟨hjp, hns, _⟩
  · rw [hjp]
    intro _
    by_cases hR1 : R1 = []
    · subst hR1
      rw [show reassembleParams (A ++ '/' :: ([] : Str), ([] : Str)) = A ++ '/' :: ([] : Str)
        from by simp [reassembleParams]]
      exact SegSafe_normPath (Or.inr ⟨A, [], rfl, by simp, Or.inl (by simp)⟩)
    · rw [show reassembleParams (A ++ '/' :: ([] : Str), R1) = A ++ '/' :: (';' :: R1) from by
        simp [reassembleParams, hR1]]
      refine SegSafe_normPath (Or.inr ⟨A, ';' :: R1, rfl, ?_, Or.inr ⟨[], R1, rfl, by simp, hR1⟩⟩)
      intro hc
      rcases List.mem_cons.mp hc with h | h
      · exact absurd h (by decide)
      · exact hR h
  · rw [hjp]
    intro _
    by_cases hR1 : R1 = []
    · subst hR1
      rw [show reassembleParams (A ++ '/' :: lastSeg P1, ([] : Str)) = A ++ '/' :: lastSeg P1
        from by simp [reassembleParams]]
      exact SegSafe_normPath (Or.inr ⟨A, lastSeg P1, rfl, hns, Or.inl hP⟩)
    · rw [show reassembleParams (A ++ '/' :: lastSeg P1, R1) =
          A ++ '/' :: (lastSeg P1 ++ ';' :: R1) from by
        simp [reassembleParams, hR1]]
      refine SegSafe_normPath (Or.inr ⟨A, lastSeg P1 ++ ';' :: R1, rfl, ?_,
        Or.inr ⟨lastSeg P1, R1, rfl, hP, hR1⟩⟩)
      intro hc
      rcases List.mem_append.mp hc with h | h
      · exact hns h
      · rcases List.mem_cons.mp h with h2 | h2
        · exact absurd h2 (by decide)
        · exact hR h2
  · rw [hjp]
    by_cases hR1 : R1 = []
    · subst hR1
      rw [show reassembleParams (lastSeg P1, ([] : Str)) = lastSeg P1 from by
        simp [reassembleParams]]
      intro hmem
      rcases mem_normPath ';' hmem with h1 | h1
      · exact absurd h1 (by decide)
      · exact absurd h1 hP
    · rw [show reassembleParams (lastSeg P1, R1) = lastSeg P1 ++ ';' :: R1 from by
        simp [reassembleParams, hR1]]
      intro _
      have hnox : '/' ∉ lastSeg P1 ++ ';' :: R1 := by
        intro hc
        rcases List.mem_append.mp hc with h | h
        · exact hns h
        · rcases List.mem_cons.mp h with h2 | h2
          · exact absurd h2 (by decide)
          · exact hR h2
      rw [normPath_of_take (by simp) (take1_ne_slash_of_not_mem hnox)]
      exact Or.inr ⟨[], lastSeg P1 ++ ';' :: R1, rfl, hnox, Or.inr ⟨lastSeg P1, R1, rfl, hP, hR1⟩⟩

theorem SegSafe_join (sch x bp : Str) (husep : usesParams.contains sch = true) :
    ';' ∈ normPath (reassembleParams (joinPath bp (paramsSplit sch x).1, (paramsSplit sch x).2)) →
    SegSafe (normPath (reassembleParams (joinPath bp (paramsSplit sch x).1,
      (paramsSplit sch x).2))) := by
  obtain ⟨hR, hP⟩ := paramsSplit_facts2 sch x husep
  exact SegSafe_join_core bp _ _ hR hP

/-! ## C7 groundwork: characters of the merged path and of quoted tokens -/

theorem joinPath_mem (bp up : Str) :
    ∀ y ∈ joinPath bp up, y = '/' ∨ y ∈ bp ∨ y ∈ up := by
  intro y hy
  unfold joinPath at hy
  dsimp only at hy
  set segments :=
    (if up.take 1 = ['/'] then splitChar '/' up
     else filterInterior
       ((if (splitChar '/' bp).getLastD [] ≠ [] then (splitChar '/' bp).dropLast
         else splitChar '/' bp) ++ splitChar '/' up)) with hsegs
  set res := segments.foldl
    (fun acc seg =>
      if seg = ofS ".." then acc.dropLast
      else if seg = ofS "." then acc
      else acc ++ [seg]) ([] : List Str) with hres
  set res2 := if segments.getLastD [] = ofS ".." ∨ segments.getLastD [] = ofS "." then
    res ++ [[]] else res with hres2
  have hmem : ∀ p ∈ segments, ∀ z ∈ p, z ∈ bp ∨ z ∈ up := by
    rw [hsegs]
    intro p hp z hzp
    by_cases ht : up.take 1 = ['/']
    · rw [if_pos ht] at hp
      exact Or.inr (splitChar_mem_subset '/' up p hp z hzp)
    · rw [if_neg ht] at hp
      have h2 := filterInterior_subset p hp
      rcases List.mem_append.mp h2 with h3 | h3
      · have h4 : p ∈ splitChar '/' bp := by
          by_cases hb : (splitChar '/' bp).getLastD [] ≠ []
          · rw [if_pos hb] at h3
            exact List.dropLast_subset _ h3
          · rw [if_neg hb] at h3
            exact h3
        exact Or.inl (splitChar_mem_subset '/' bp p h4 z hzp)
      · exact Or.inr (splitChar_mem_subset '/' up p h3 z hzp)
  by_cases hj : List.intercalate ['/'] res2 = []
  · rw [if_pos hj] at hy
    left
    simpa using hy
  · rw [if_neg hj] at hy
    rcases mem_intercalate_ch '/' res2 y hy with rfl | ⟨p, hp, hyp⟩
    · exact Or.inl rfl
    · have hp2 : p ∈ res := by
        rw [hres2] at hp
        by_cases htr : segments.getLastD [] = ofS ".." ∨ segments.getLastD [] = ofS "."
        · rw [if_pos htr] at hp
          rcases List.mem_append.mp hp with h | h
          · exact h
          · have hpe : p = ([] : Str) := by simpa using h
            subst hpe
            simp at hyp
        · rw [if_neg htr] at hp
          exact hp
      rw [hres] at hp2
      rcases resolve_fold_subset segments [] p hp2 with h | h
      · simp at h
      · rcases hmem p h y hyp with h2 | h2
        · exact Or.inr (Or.inl h2)
        · exact Or.inr (Or.inr h2)

theorem char_toNat_lt (c : Char) : c.toNat < 0x110000 := by
  rcases c.valid with h | ⟨_, h2⟩
  · exact Nat.lt_trans h (by decide)
  · exact h2

theorem utf8Char_lt (c : Char) : ∀ b ∈ utf8Char c, b < 256 := by
  intro b hb
  have hv := char_toNat_lt c
  unfold utf8Char at hb
  dsimp only at hb
  by_cases h1 : c.toNat < 0x80
  · rw [if_pos h1] at hb
    simp only [List.mem_singleton] at hb
    omega
  · rw [if_neg h1] at hb
    by_cases h2 : c.toNat < 0x800
    · rw [if_pos h2] at hb
      simp only [List.mem_cons, List.mem_singleton, List.not_mem_nil, or_false] at hb
      rcases hb with rfl | rfl
      all_goals omega
    · rw [if_neg h2] at hb
      by_cases h3 : c.toNat < 0x10000
      · rw [if_pos h3] at hb
        simp only [List.mem_cons, List.mem_singleton, List.not_mem_nil, or_false] at hb
        rcases hb with rfl | rfl | rfl
        all_goals omega
      · rw [if_neg h3] at hb
        simp only [List.mem_cons, List.mem_singleton, List.not_mem_nil, or_false] at hb
        rcases hb with rfl | rfl | rfl | rfl
        all_goals omega

theorem utf8Encode_lt (s : Str) : ∀ b ∈ utf8Encode s, b < 256 := by
  intro b hb
  unfold utf8Encode at hb
  rcases List.mem_join.mp hb with ⟨bl, hbl, hbm⟩
  rcases List.mem_map.mp hbl with ⟨c, _, rfl⟩
  exact utf8Char_lt c b hbm

theorem safeLits :
    ('_' : Char).toNat = 95 ∧ ('.' : Char).toNat = 46 ∧ ('-' : Char).toNat = 45 ∧
    ('~' : Char).toNat = 126 ∧ ('%' : Char).toNat = 37 ∧ ('0' : Char).toNat = 48 ∧
    ('A' : Char).toNat = 65 :=
  ⟨rfl, rfl, rfl, rfl, rfl, rfl, rfl⟩

theorem alwaysSafeByte_bounds {b : ℕ} (h : alwaysSafeByte b = true) :
    0x2d ≤ b ∧ b ≤ 0x7e := by
  obtain ⟨e1, e2, e3, e4, _, _, _⟩ := safeLits
  simp only [alwaysSafeByte, Bool.or_eq_true, Bool.and_eq_true, decide_eq_true_eq,
    e1, e2, e3, e4] at h
  omega

theorem hexDigitUpper_safe {n : ℕ} (h : n < 16) :
    alwaysSafeByte (hexDigitUpper n).toNat = true := by
  obtain ⟨_, _, _, _, _, e0, eA⟩ := safeLits
  unfold hexDigitUpper
  by_cases h10 : n < 10
  · rw [if_pos h10, e0, toNat_ofNatAux _ (Or.inl (by omega))]
    obtain ⟨f1, f2, f3, f4, _, _, _⟩ := safeLits
    simp only [alwaysSafeByte, Bool.or_eq_true, Bool.and_eq_true, decide_eq_true_eq,
      f1, f2, f3, f4]
    omega
  · rw [if_neg h10, eA, toNat_ofNatAux _ (Or.inl (by omega))]
    obtain ⟨f1, f2, f3, f4, _, _, _⟩ := safeLits
    simp only [alwaysSafeByte, Bool.or_eq_true, Bool.and_eq_true, decide_eq_true_eq,
      f1, f2, f3, f4]
    omega

theorem quoteAll_mem {t : Str} : ∀ y ∈ quoteAll t,
    (alwaysSafeByte y.toNat || y = '%') = true := by
  intro y hy
  unfold quoteAll at hy
  rcases List.mem_join.mp hy with ⟨bl, hbl, hbm⟩
  rcases List.mem_map.mp hbl with ⟨b, hb, rfl⟩
  have hblt : b < 256 := utf8Encode_lt t b hb
  by_cases hs : alwaysSafeByte b = true
  · rw [if_pos hs] at hbm
    simp only [List.mem_singleton] at hbm
    subst hbm
    have hb2 := alwaysSafeByte_bounds hs
    rw [toNat_ofNatAux b (Or.inl (by omega)), hs]
    rfl
  · rw [if_neg hs] at hbm
    simp only [List.mem_cons, List.mem_singleton, List.not_mem_nil, or_false] at hbm
    rcases hbm with rfl | rfl | rfl
    · decide
    · rw [hexDigitUpper_safe (n := b / 16) (by omega)]
      rfl
    · rw [hexDigitUpper_safe (n := b % 16) (by omega)]
      rfl

theorem quoteAll_not_mem {t : Str} {c : Char}
    (hc : (alwaysSafeByte c.toNat || c = '%') = false) : c ∉ quoteAll t := by
  intro hm
  have h2 := quoteAll_mem c hm
  rw [hc] at h2
  cases h2

theorem quoteAll_good {t : Str} : goodStr (quoteAll t) = true := by
  simp only [goodStr, List.all_eq_true]
  intro y hy
  have h := quoteAll_mem y hy
  rcases (by simpa using h : alwaysSafeByte y.toNat = true ∨ y = '%') with h1 | rfl
  · have hb := alwaysSafeByte_bounds h1
    exact goodCh_of_toNat y (by omega) (by omega) (by omega)
  · decide

/-! ## C7 groundwork: recomposed URLs and lowercase stability -/

theorem urlunsplit_mem (t : SplitRes) :
    ∀ y ∈ urlunsplit t, y ∈ t.scheme ∨ y ∈ t.netloc ∨ y ∈ t.path ∨ y ∈ t.query ∨
      y ∈ t.fragment ∨ y = '/' ∨ y = ':' ∨ y = '?' ∨ y = '#' := by
  intro y hy
  unfold urlunsplit at hy
  dsimp only at hy
  set u1 := (if t.path ≠ [] ∧ t.path.take 1 ≠ ['/'] then '/' :: t.path else t.path) with hu1
  set u2 := (if t.netloc ≠ [] ∨ (t.scheme ≠ [] ∧ usesNetloc.contains t.scheme = true ∧
      t.path.take 2 ≠ ['/', '/']) then ['/', '/'] ++ t.netloc ++ u1 else t.path) with hu2
  set u3 := (if t.scheme ≠ [] then t.scheme ++ ':' :: u2 else u2) with hu3
  set u4 := (if t.query ≠ [] then u3 ++ '?' :: t.query else u3) with hu4
  have g1 : ∀ z ∈ u1, z ∈ t.path ∨ z = '/' := by
    intro z hz
    rw [hu1] at hz
    by_cases hc : t.path ≠ [] ∧ t.path.take 1 ≠ ['/']
    · rw [if_pos hc] at hz
      rcases List.mem_cons.mp hz with rfl | hz2
      · exact Or.inr rfl
      · exact Or.inl hz2
    · rw [if_neg hc] at hz
      exact Or.inl hz
  have g2 : ∀ z ∈ u2, z ∈ t.netloc ∨ z ∈ t.path ∨ z = '/' := by
    intro z hz
    rw [hu2] at hz
    by_cases hc : t.netloc ≠ [] ∨ (t.scheme ≠ [] ∧ usesNetloc.contains t.scheme = true ∧
        t.path.take 2 ≠ ['/', '/'])
    · rw [if_pos hc] at hz
      rcases List.mem_append.mp hz with h | h
      · rcases List.mem_append.mp h with h2 | h2
        · right; right
          simpa using h2
        · exact Or.inl h2
      · rcases g1 z h with h3 | h3
        · exact Or.inr (Or.inl h3)
        · exact Or.inr (Or.inr h3)
    · rw [if_neg hc] at hz
      exact Or.inr (Or.inl hz)
  have g3 : ∀ z ∈ u3, z ∈ t.scheme ∨ z = ':' ∨ z ∈ t.netloc ∨ z ∈ t.path ∨ z = '/' := by
    intro z hz
    rw [hu3] at hz
    by_cases hc : t.scheme ≠ []
    · rw [if_pos hc] at hz
      rcases List.mem_append.mp hz with h | h
      · exact Or.inl h
      · rcases List.mem_cons.mp h with rfl | h2
        · exact Or.inr (Or.inl rfl)
        · exact Or.inr (Or.inr (g2 z h2))
    · rw [if_neg hc] at hz
      exact Or.inr (Or.inr (g2 z hz))
  have g4 : ∀ z ∈ u4, z ∈ t.scheme ∨ z = ':' ∨ z ∈ t.netloc ∨ z ∈ t.path ∨ z = '/' ∨
      z ∈ t.query ∨ z = '?' := by
    intro z hz
    rw [hu4] at hz
    by_cases hc : t.query ≠ []
    · rw [if_pos hc] at hz
      rcases List.mem_append.mp hz with h | h
      · rcases g3 z h with h2 | h2 | h2 | h2 | h2
        · exact Or.inl h2
        · exact Or.inr (Or.inl h2)
        · exact Or.inr (Or.inr (Or.inl h2))
        · exact Or.inr (Or.inr (Or.inr (Or.inl h2)))
        · exact Or.inr (Or.inr (Or.inr (Or.inr (Or.inl h2))))
      · rcases List.mem_cons.mp h with rfl | h2
        · exact Or.inr (Or.inr (Or.inr (Or.inr (Or.inr (Or.inr rfl)))))
        · exact Or.inr (Or.inr (Or.inr (Or.inr (Or.inr (Or.inl h2)))))
    · rw [if_neg hc] at hz
      rcases g3 z hz with h2 | h2 | h2 | h2 | h2
      · exact Or.inl h2
      · exact Or.inr (Or.inl h2)
      · exact Or.inr (Or.inr (Or.inl h2))
      · exact Or.inr (Or.inr (Or.inr (Or.inl h2)))
      · exact Or.inr (Or.inr (Or.inr (Or.inr (Or.inl h2))))
  have g5 : y ∈ t.scheme ∨ y = ':' ∨ y ∈ t.netloc ∨ y ∈ t.path ∨ y = '/' ∨
      y ∈ t.query ∨ y = '?' ∨ y ∈ t.fragment ∨ y = '#' := by
    by_cases hc : t.fragment ≠ []
    · rw [if_pos hc] at hy
      rcases List.mem_append.mp hy with h | h
      · rcases g4 y h with h2 | h2 | h2 | h2 | h2 | h2 | h2
        · exact Or.inl h2
        · exact Or.inr (Or.inl h2)
        · exact Or.inr (Or.inr (Or.inl h2))
        · exact Or.inr (Or.inr (Or.inr (Or.inl h2)))
        · exact Or.inr (Or.inr (Or.inr (Or.inr (Or.inl h2))))
        · exact Or.inr (Or.inr (Or.inr (Or.inr (Or.inr (Or.inl h2)))))
        · exact Or.inr (Or.inr (Or.inr (Or.inr (Or.inr (Or.inr (Or.inl h2))))))
      · rcases List.mem_cons.mp h with rfl | h2
        · exact Or.inr (Or.inr (Or.inr (Or.inr (Or.inr (Or.inr (Or.inr (Or.inr rfl)))))))
        · exact Or.inr (Or.inr (Or.inr (Or.inr (Or.inr (Or.inr (Or.inr (Or.inl h2)))))))
    · rw [if_neg hc] at hy
      rcases g4 y hy with h2 | h2 | h2 | h2 | h2 | h2 | h2
      · exact Or.inl h2
      · exact Or.inr (Or.inl h2)
      · exact Or.inr (Or.inr (Or.inl h2))
      · exact Or.inr (Or.inr (Or.inr (Or.inl h2)))
      · exact Or.inr (Or.inr (Or.inr (Or.inr (Or.inl h2))))
      · exact Or.inr (Or.inr (Or.inr (Or.inr (Or.inr (Or.inl h2)))))
      · exact Or.inr (Or.inr (Or.inr (Or.inr (Or.inr (Or.inr (Or.inl h2))))))
  tauto

theorem urlunsplit_goodStr {t : SplitRes} (h1 : goodStr t.scheme = true)
    (h2 : goodStr t.netloc = true) (h3 : goodStr t.path = true)
    (h4 : goodStr t.query = true) (h5 : goodStr t.fragment = true) :
    goodStr (urlunsplit t) = true := by
  simp only [goodStr, List.all_eq_true]
  intro y hy
  rcases urlunsplit_mem t y hy with h | h | h | h | h | rfl | rfl | rfl | rfl
  · exact goodStr_mem h1 h
  · exact goodStr_mem h2 h
  · exact goodStr_mem h3 h
  · exact goodStr_mem h4 h
  · exact goodStr_mem h5 h
  · decide
  · decide
  · decide
  · decide

theorem urlunsplit_colon_mem {t : SplitRes} (h : t.scheme ≠ []) :
    ':' ∈ urlunsplit t ∧ urlunsplit t ≠ [] := by
  unfold urlunsplit
  dsimp only
  rw [if_pos h]
  by_cases hf : t.fragment ≠ []
  · rw [if_pos hf]
    by_cases hq : t.query ≠ []
    · rw [if_pos hq]
      exact ⟨by simp, by simp⟩
    · rw [if_neg hq]
      exact ⟨by simp, by simp⟩
  · rw [if_neg hf]
    by_cases hq : t.query ≠ []
    · rw [if_pos hq]
      exact ⟨by simp, by simp⟩
    · rw [if_neg hq]
      exact ⟨by simp, by simp⟩

theorem asciiLower_eq_lit {c d : Char}
    (hd : d.toNat < 65 ∨ (90 < d.toNat ∧ d.toNat < 97) ∨ 122 < d.toNat)
    (h : asciiLower c = d) : c = d := by
  have hdt : (asciiLower c).toNat = d.toNat := by rw [h]
  rcases asciiLower_toNat_cases c with h1 | ⟨h2, h3, h4⟩
  · rw [char_eq_iff_toNat]
    omega
  · exfalso
    omega

theorem mem_map_lower_lit {d : Char}
    (hd : d.toNat < 65 ∨ (90 < d.toNat ∧ d.toNat < 97) ∨ 122 < d.toNat) (l : Str) :
    d ∈ l.map asciiLower ↔ d ∈ l := by
  constructor
  · intro h
    rcases List.mem_map.mp h with ⟨c, hc, he⟩
    rwa [asciiLower_eq_lit hd he] at hc
  · intro h
    refine List.mem_map.mpr ⟨d, h, asciiLower_of_not d (fun hc => ?_)⟩
    have e1 : ('A' : Char).toNat = 65 := rfl
    have e2 : ('Z' : Char).toNat = 90 := rfl
    have l1 : ('A' : Char).toNat ≤ d.toNat := (char_le_iff_toNat _ _).mp hc.1
    have l2 : d.toNat ≤ ('Z' : Char).toNat := (char_le_iff_toNat _ _).mp hc.2
    omega

theorem notNetlocDelim_lower {c : Char} (h : notNetlocDelim c = true) :
    notNetlocDelim (asciiLower c) = true := by
  simp only [notNetlocDelim, decide_eq_true_eq] at h ⊢
  intro hor
  apply h
  rcases hor with he | he | he
  · exact Or.inl (asciiLower_eq_lit (Or.inl (by decide)) he)
  · exact Or.inr (Or.inl (asciiLower_eq_lit (Or.inl (by decide)) he))
  · exact Or.inr (Or.inr (asciiLower_eq_lit (Or.inl (by decide)) he))

theorem netloc_lower_delim {n : Str} (h : n.all notNetlocDelim = true) :
    (n.map asciiLower).all notNetlocDelim = true := by
  simp only [List.all_eq_true, List.mem_map] at h ⊢
  rintro y ⟨c, hc, rfl⟩
  exact notNetlocDelim_lower (h c hc)

theorem bracket_lower {n : Str}
    (h : ¬ (('[' ∈ n ∧ ']' ∉ n) ∨ (']' ∈ n ∧ '[' ∉ n))) :
    ¬ (('[' ∈ n.map asciiLower ∧ ']' ∉ n.map asciiLower) ∨
       (']' ∈ n.map asciiLower ∧ '[' ∉ n.map asciiLower)) := by
  rw [mem_map_lower_lit (d := '[') (Or.inr (Or.inl (by decide))),
    mem_map_lower_lit (d := ']') (Or.inr (Or.inl (by decide)))]
  exact h

theorem urlsplit_scheme_eq {x : Str} {t : SplitRes} (hg : goodStr x = true)
    (h : urlsplit x = .ok t) : t.scheme = (trySplitScheme x).1 := by
  unfold urlsplit at h
  dsimp only at h
  rw [dropWhile_c0_of_good hg, removeUnsafe_of_good hg] at h
  obtain ⟨sch, u2, hts⟩ : ∃ a b, trySplitScheme x = (a, b) := ⟨_, _, rfl⟩
  rw [hts] at h
  dsimp only at h
  cases hsn : splitNetloc u2 with
  | error e => rw [hsn] at h; cases h
  | ok nl3 =>
      obtain ⟨nl, u3⟩ := nl3
      rw [hsn] at h
      dsimp only at h
      obtain ⟨u4, frag, hfr⟩ : ∃ a b, (match splitOnceCh '#' u3 with
          | Option.some (a, b) => (a, b)
          | Option.none => (u3, ([] : Str))) = (a, b) := ⟨_, _, rfl⟩
      rw [hfr] at h
      dsimp only at h
      obtain ⟨pth, qry, hpq⟩ : ∃ a b, (match splitOnceCh '?' u4 with
          | Option.some (a, b) => (a, b)
          | Option.none => (u4, ([] : Str))) = (a, b) := ⟨_, _, rfl⟩
      rw [hpq] at h
      dsimp only at h
      obtain rfl : t = ⟨sch, nl, pth, qry, frag⟩ := by
        injection h with h2
        exact h2.symm
      rw [hts]

theorem trySplitScheme_head_not_alpha {c : Char} {cs : Str}
    (h : isAsciiAlpha c = false) : trySplitScheme (c :: cs) = ([], c :: cs) := by
  unfold trySplitScheme
  cases hsp : splitOnceCh ':' (c :: cs) with
  | none => rfl
  | some p =>
      obtain ⟨pre, post⟩ := p
      obtain ⟨he, hnc⟩ := splitOnceCh_some hsp
      cases pre with
      | nil => rfl
      | cons c1 cs1 =>
          have hc1 : c1 = c := by
            have h2 : c :: cs = c1 :: (cs1 ++ ':' :: post) := he
            injection h2 with h3 _
            exact h3.symm
          subst hc1
          dsimp only
          rw [if_neg (fun hcond => absurd hcond.1 (by simp [h]))]

theorem urlparse_err {url d : Str} {e : PyErr} (h : urlsplit url = .error e) :
    urlparse url d = .error e := by
  unfold urlparse
  rw [h]

theorem urljoin_err {base url : Str} {b : ParseRes} {e : PyErr}
    (hB : ¬ base = []) (hU : ¬ url = [])
    (hb : urlparse base [] = .ok b) (hu : urlparse url b.scheme = .error e) :
    urljoin base url = .error e := by
  unfold urljoin
  rw [if_neg hB, if_neg hU, hb]
  try dsimp only
  rw [hu]

theorem base_ne_nil {B : Str} {b : SplitRes} (hB : urlsplit B = .ok b)
    (hbn : b.netloc ≠ []) : B ≠ [] := by
  intro h
  subst h
  have h2 : urlsplit ([] : Str) = .ok ⟨[], [], [], [], []⟩ := rfl
  rw [h2] at hB
  have h3 : b = ⟨[], [], [], [], []⟩ := by
    injection hB with h4
    exact h4.symm
  rw [h3] at hbn
  exact hbn rfl

/-! ## C7 groundwork: remaining helpers for the two canonicalisation passes -/

theorem splitparams_mem (x : Str) :
    (∀ y ∈ (splitparams x).1, y ∈ x) ∧ (∀ y ∈ (splitparams x).2, y ∈ x) := by
  unfold splitparams
  by_cases hs : '/' ∈ x
  · rw [if_pos hs]
    cases hidx : idxOfFrom ';' x ((rIdxOf '/' x).getD 0) with
    | none => exact ⟨fun y hy => hy, fun y hy => by simp at hy⟩
    | some i =>
        dsimp only
        exact ⟨fun y hy => List.take_subset i x hy, fun y hy => List.drop_subset (i + 1) x hy⟩
  · rw [if_neg hs]
    cases hsp : splitOnceCh ';' x with
    | none => exact ⟨fun y hy => hy, fun y hy => by simp at hy⟩
    | some p =>
        obtain ⟨a, bb⟩ := p
        obtain ⟨he, _⟩ := splitOnceCh_some hsp
        dsimp only
        subst he
        exact ⟨fun y hy => List.mem_append.mpr (Or.inl hy),
          fun y hy => List.mem_append.mpr (Or.inr (List.mem_cons_of_mem ';' hy))⟩

theorem paramsSplit_mem (sch x : Str) :
    (∀ y ∈ (paramsSplit sch x).1, y ∈ x) ∧ (∀ y ∈ (paramsSplit sch x).2, y ∈ x) := by
  unfold paramsSplit
  split
  · exact splitparams_mem x
  · exact ⟨fun y hy => hy, fun y hy => by simp at hy⟩

theorem reassembleParams_mem (P1 R1 : Str) :
    ∀ y ∈ reassembleParams (P1, R1), y ∈ P1 ∨ y = ';' ∨ y ∈ R1 := by
  intro y hy
  unfold reassembleParams at hy
  dsimp only at hy
  split at hy
  · rcases List.mem_append.mp hy with h | h
    · exact Or.inl h
    · rcases List.mem_cons.mp h with rfl | h2
      · exact Or.inr (Or.inl rfl)
      · exact Or.inr (Or.inr h2)
  · exact Or.inl hy

theorem bare_token_false_of_colon {v : Str} (hg : goodStr v = true) (hc : ':' ∈ v) :
    looks_like_bare_token v = false := by
  unfold looks_like_bare_token
  dsimp only
  rw [pyStrip_of_good hg]
  have hall : v.all b64urlChar = false := by
    rw [Bool.eq_false_iff]
    intro hA
    have h2 := List.all_eq_true.mp hA ':' hc
    rw [show b64urlChar ':' = false from by decide] at h2
    exact Bool.false_ne_true h2
  rw [hall, Bool.and_false]

theorem normPath_slash (t : Str) : normPath ('/' :: t) = '/' :: t := by
  unfold normPath
  rw [if_neg (by simp), if_pos (show ('/' :: t : Str).take 1 = ['/'] from rfl)]

theorem pTilde_stream_none {t : Str} :
    pTildeToken (ofS "/stream/p/" ++ t) = Option.none := by
  unfold pTildeToken
  rw [List.take_append_of_le_length (by decide), if_neg (by decide)]

theorem streamPTilde_stream_none {t : Str} :
    streamPTildeToken (ofS "/stream/p/" ++ t) = Option.none := by
  unfold streamPTildeToken
  rw [List.take_append_of_le_length (by decide), if_neg (by decide)]

theorem canonicalize_token_form {b : SplitRes} {NT QT FT tok : Str}
    (hblow : b.scheme.map asciiLower = b.scheme)
    (hNne : NT ≠ []) (hNall : NT.all notNetlocDelim = true)
    (hNbr : ¬ (('[' ∈ NT ∧ ']' ∉ NT) ∨ (']' ∈ NT ∧ '[' ∉ NT)))
    (hNg : goodStr NT = true)
    (hQg : goodStr QT = true) (hQh : '#' ∉ QT) (hFg : goodStr FT = true) :
    CanonForm b.scheme
      (canonicalize_parsed ⟨b.scheme, NT, ofS "/stream/p/" ++ quoteAll tok, QT, FT⟩) := by
  have he : canonicalize_parsed ⟨b.scheme, NT, ofS "/stream/p/" ++ quoteAll tok, QT, FT⟩ =
      urlunsplit ⟨b.scheme, NT.map asciiLower, ofS "/stream/p/" ++ quoteAll tok, QT, FT⟩ := by
    unfold canonicalize_parsed
    dsimp only
    rw [hblow]
  rw [he]
  refine ⟨NT.map asciiLower, ofS "/stream/p/" ++ quoteAll tok, QT, FT, rfl,
    fun hc => hNne (List.map_eq_nil.mp hc), netloc_lower_delim hNall, bracket_lower hNbr,
    goodStr_map_lower hNg, map_lower_idem NT, ?_, ?_, ?_, ?_,
    pTilde_stream_none, streamPTilde_stream_none, ?_, hQg, hQh, hFg⟩
  · rw [goodStr_append, quoteAll_good, show goodStr (ofS "/stream/p/") = true from by decide]
    rfl
  · intro hc
    rcases List.mem_append.mp hc with h | h
    · exact absurd h (by decide)
    · exact quoteAll_not_mem (by decide) h
  · intro hc
    rcases List.mem_append.mp hc with h | h
    · exact absurd h (by decide)
    · exact quoteAll_not_mem (by decide) h
  · have hsh : ofS "/stream/p/" ++ quoteAll tok = '/' :: (ofS "stream/p/" ++ quoteAll tok) := rfl
    rw [hsh, normPath_slash]
  · intro _ hmem
    exfalso
    rcases List.mem_append.mp hmem with h | h
    · exact absurd h (by decide)
    · exact quoteAll_not_mem (by decide) h

theorem canonicalize_plain_form {b : SplitRes} {NT PATH QT FT : Str}
    (hblow : b.scheme.map asciiLower = b.scheme)
    (hNne : NT ≠ []) (hNall : NT.all notNetlocDelim = true)
    (hNbr : ¬ (('[' ∈ NT ∧ ']' ∉ NT) ∨ (']' ∈ NT ∧ '[' ∉ NT)))
    (hNg : goodStr NT = true)
    (hPg : goodStr PATH = true) (hPq : '?' ∉ PATH) (hPh : '#' ∉ PATH)
    (hSeg : usesParams.contains b.scheme = true → ';' ∈ normPath PATH →
      SegSafe (normPath PATH))
    (hpt : pTildeToken (normPath PATH) = Option.none)
    (hspt : streamPTildeToken (normPath PATH) = Option.none)
    (hQg : goodStr QT = true) (hQh : '#' ∉ QT) (hFg : goodStr FT = true) :
    CanonForm b.scheme (canonicalize_parsed ⟨b.scheme, NT, normPath PATH, QT, FT⟩) := by
  have he : canonicalize_parsed ⟨b.scheme, NT, normPath PATH, QT, FT⟩ =
      urlunsplit ⟨b.scheme, NT.map asciiLower, normPath PATH, QT, FT⟩ := by
    unfold canonicalize_parsed
    dsimp only
    rw [hblow]
  rw [he]
  exact ⟨NT.map asciiLower, normPath PATH, QT, FT, rfl,
    fun hc => hNne (List.map_eq_nil.mp hc), netloc_lower_delim hNall, bracket_lower hNbr,
    goodStr_map_lower hNg, map_lower_idem NT,
    normPath_goodStr hPg, normPath_no_qmark hPq, normPath_no_hash hPh, normPath_idem PATH,
    hpt, hspt, hSeg, hQg, hQh, hFg⟩

/-- Pass 1: a successful canonicalisation against a whitespace-free absolute
base (relative-capable scheme, non-empty netloc), on a whitespace-free input
whose detected scheme is absent or equals the base scheme, yields `""` or a
`CanonForm` URL. -/
theorem canonicalize_decomp {B u v : Str} {b : SplitRes}
    (hB : urlsplit B = .ok b) (hbs : b.scheme ≠ [])
    (hrel : usesRelative.contains b.scheme = true)
    (hnet : usesNetloc.contains b.scheme = true)
    (hbn : b.netloc ≠ [])
    (hgB : goodStr B = true) (hgu : goodStr u = true)
    (hsch : (trySplitScheme u).1 = [] ∨ (trySplitScheme u).1 = b.scheme)
    (hv : canonicalize_url u B = .ok v) :
    v = [] ∨ CanonForm b.scheme v := by
  have hB0 : B ≠ [] := base_ne_nil hB hbn
  obtain ⟨P, R, hPR⟩ : ∃ a c, paramsSplit b.scheme b.path = (a, c) := ⟨_, _, rfl⟩
  have hbP : urlparse B [] = .ok ⟨b.scheme, b.netloc, P, R, b.query, b.fragment⟩ := by
    have hps : paramsSplit (if b.scheme = [] then [] else b.scheme) b.path = (P, R) := by
      rw [if_neg hbs]
      exact hPR
    have h2 := urlparse_eq hB hps
    rwa [if_neg hbs] at h2
  obtain ⟨hbsf, hbnall, hbbr, hbph, hbpq, hbqh, _, hbgood⟩ := urlsplit_facts hB
  obtain ⟨hbg1, hbg2, hbg3, hbg4, hbg5⟩ := hbgood hgB
  obtain ⟨hbalpha, hball, hblow⟩ := hbsf hbs
  unfold canonicalize_url at hv
  dsimp only at hv
  rw [pyStrip_of_good hgu] at hv
  by_cases hu0 : u = []
  · rw [if_pos hu0] at hv
    left
    injection hv with h2
    exact h2.symm
  · rw [if_neg hu0] at hv
    set RAW := (if looks_like_bare_token u = true then ofS "/stream/p/" ++ u else u) with hRAW
    have hgRAW : goodStr RAW = true := by
      rw [hRAW]
      split
      · rw [goodStr_append, hgu, show goodStr (ofS "/stream/p/") = true from by decide]
        rfl
      · exact hgu
    have hRAW0 : RAW ≠ [] := by
      rw [hRAW]
      split
      · simp [ofS]
      · exact hu0
    have hRAWsch : (trySplitScheme RAW).1 = [] ∨ (trySplitScheme RAW).1 = b.scheme := by
      rw [hRAW]
      split
      · left
        rw [show ofS "/stream/p/" ++ u = '/' :: (ofS "stream/p/" ++ u) from rfl]
        rw [trySplitScheme_head_not_alpha (by decide)]
      · exact hsch
    cases hsRAW : urlsplit RAW with
    | error e =>
        rw [urljoin_err hB0 hRAW0 hbP (urlparse_err hsRAW)] at hv
        dsimp only at hv
        cases hv
    | ok tu =>
        have htschemeRAW : tu.scheme = (trySplitScheme RAW).1 :=
          urlsplit_scheme_eq hgRAW hsRAW
        obtain ⟨P2', R2', hPR2⟩ : ∃ a c, paramsSplit b.scheme tu.path = (a, c) := ⟨_, _, rfl⟩
        have hsch' : (if tu.scheme = [] then b.scheme else tu.scheme) = b.scheme := by
          rcases hRAWsch with h1 | h1
          · rw [htschemeRAW, h1, if_pos rfl]
          · rw [htschemeRAW, h1, if_neg hbs]
        have huP : urlparse RAW b.scheme =
            .ok ⟨b.scheme, tu.netloc, P2', R2', tu.query, tu.fragment⟩ := by
          have hps : paramsSplit (if tu.scheme = [] then b.scheme else tu.scheme) tu.path =
              (P2', R2') := by
            rw [hsch']
            exact hPR2
          have h2 := urlparse_eq hsRAW hps
          rwa [hsch'] at h2
        obtain ⟨htuf, htunall, htubr, htuph, htupq, htuqh, _, htugood⟩ := urlsplit_facts hsRAW
        obtain ⟨htg1, htg2, htg3, htg4, htg5⟩ := htugood hgRAW
        by_cases hn2 : tu.netloc ≠ []
        · -- urljoin branch 2: the input parse has its own netloc
          have hjoin := urljoin_branch2 hB0 hRAW0 hbP huP rfl hrel hnet hn2
          rw [hjoin] at hv
          dsimp only at hv
          rw [show urlunparse ⟨b.scheme, tu.netloc, P2', R2', tu.query, tu.fragment⟩ =
              urlunsplit ⟨b.scheme, tu.netloc, reassembleParams (P2', R2'), tu.query,
                tu.fragment⟩ from rfl] at hv
          have hPmem : ∀ y ∈ reassembleParams (P2', R2'), y ∈ tu.path ∨ y = ';' := by
            intro y hy
            rcases reassembleParams_mem P2' R2' y hy with h | h | h
            · exact Or.inl ((paramsSplit_mem b.scheme tu.path).1 y
                (show y ∈ (paramsSplit b.scheme tu.path).1 from by rw [hPR2]; exact h))
            · exact Or.inr h
            · exact Or.inl ((paramsSplit_mem b.scheme tu.path).2 y
                (show y ∈ (paramsSplit b.scheme tu.path).2 from by rw [hPR2]; exact h))
          have hPq2 : '?' ∉ reassembleParams (P2', R2') := by
            intro hc
            rcases hPmem '?' hc with h | h
            · exact htupq h
            · exact absurd h (by decide)
          have hPh2 : '#' ∉ reassembleParams (P2', R2') := by
            intro hc
            rcases hPmem '#' hc with h | h
            · exact htuph h
            · exact absurd h (by decide)
          have hPg2 : goodStr (reassembleParams (P2', R2')) = true := by
            simp only [goodStr, List.all_eq_true]
            intro y hy
            rcases hPmem y hy with h | rfl
            · exact goodStr_mem htg3 h
            · decide
          have hSeg2 : usesParams.contains b.scheme = true →
              ';' ∈ normPath (reassembleParams (P2', R2')) →
              SegSafe (normPath (reassembleParams (P2', R2'))) := by
            intro husep
            rw [show (P2', R2') = paramsSplit b.scheme tu.path from hPR2.symm]
            exact SegSafe_split b.scheme tu.path husep
          rw [urlsplit_unsplit b.scheme tu.netloc (reassembleParams (P2', R2')) tu.query
            tu.fragment hbalpha hball hblow hn2 htunall htubr hPq2 hPh2 htuqh
            hbg1 htg2 hPg2 htg4 htg5] at hv
          dsimp only at hv
          cases hpt : pTildeToken (normPath (reassembleParams (P2', R2'))) with
          | some tok =>
              rw [hpt] at hv
              dsimp only at hv
              injection hv with h2
              subst h2
              right
              exact canonicalize_token_form hblow hn2 htunall htubr htg2 htg4 htuqh htg5
          | none =>
              rw [hpt] at hv
              dsimp only at hv
              cases hspt : streamPTildeToken (normPath (reassembleParams (P2', R2'))) with
              | some tok =>
                  rw [hspt] at hv
                  dsimp only at hv
                  injection hv with h2
                  subst h2
                  right
                  exact canonicalize_token_form hblow hn2 htunall htubr htg2 htg4 htuqh htg5
              | none =>
                  rw [hspt] at hv
                  dsimp only at hv
                  injection hv with h2
                  subst h2
                  right
                  exact canonicalize_plain_form hblow hn2 htunall htubr htg2 hPg2 hPq2 hPh2
                    hSeg2 hpt hspt htg4 htuqh htg5
        · -- urljoin branches 3/4: the base netloc is kept
          have hnl2 : ¬ ((usesNetloc.contains
              (⟨b.scheme, tu.netloc, P2', R2', tu.query, tu.fragment⟩ : ParseRes).scheme) = true ∧
              (⟨b.scheme, tu.netloc, P2', R2', tu.query, tu.fragment⟩ : ParseRes).netloc ≠ []) :=
            fun hc => hn2 hc.2
          by_cases hpe : P2' = [] ∧ R2' = []
          · -- branch 3: empty relative path, keep the base path
            have hjoin := urljoin_branch3 hB0 hRAW0 hbP huP rfl hrel hnl2 hpe
            rw [hjoin] at hv
            dsimp only at hv
            rw [if_pos hnet] at hv
            rw [show urlunparse ⟨b.scheme, b.netloc, P, R,
                (if tu.query = [] then b.query else tu.query), tu.fragment⟩ =
                urlunsplit ⟨b.scheme, b.netloc, reassembleParams (P, R),
                  (if tu.query = [] then b.query else tu.query), tu.fragment⟩ from rfl] at hv
            have hQg3 : goodStr (if tu.query = [] then b.query else tu.query) = true := by
              split
              · exact hbg4
              · exact htg4
            have hQh3 : '#' ∉ (if tu.query = [] then b.query else tu.query) := by
              split
              · exact hbqh
              · exact htuqh
            have hPmem : ∀ y ∈ reassembleParams (P, R), y ∈ b.path ∨ y = ';' := by
              intro y hy
              rcases reassembleParams_mem P R y hy with h | h | h
              · exact Or.inl ((paramsSplit_mem b.scheme b.path).1 y
                  (show y ∈ (paramsSplit b.scheme b.path).1 from by rw [hPR]; exact h))
              · exact Or.inr h
              · exact Or.inl ((paramsSplit_mem b.scheme b.path).2 y
                  (show y ∈ (paramsSplit b.scheme b.path).2 from by rw [hPR]; exact h))
            have hPq2 : '?' ∉ reassembleParams (P, R) := by
              intro hc
              rcases hPmem '?' hc with h | h
              · exact hbpq h
              · exact absurd h (by decide)
            have hPh2 : '#' ∉ reassembleParams (P, R) := by
              intro hc
              rcases hPmem '#' hc with h | h
              · exact hbph h
              · exact absurd h (by decide)
            have hPg2 : goodStr (reassembleParams (P, R)) = true := by
              simp only [goodStr, List.all_eq_true]
              intro y hy
              rcases hPmem y hy with h | rfl
              · exact goodStr_mem hbg3 h
              · decide
            have hSeg2 : usesParams.contains b.scheme = true →
                ';' ∈ normPath (reassembleParams (P, R)) →
                SegSafe (normPath (reassembleParams (P, R))) := by
              intro husep
              rw [show (P, R) = paramsSplit b.scheme b.path from hPR.symm]
              exact SegSafe_split b.scheme b.path husep
            rw [urlsplit_unsplit b.scheme b.netloc (reassembleParams (P, R))
              (if tu.query = [] then b.query else tu.query) tu.fragment
              hbalpha hball hblow hbn hbnall hbbr hPq2 hPh2 hQh3
              hbg1 hbg2 hPg2 hQg3 htg5] at hv
            dsimp only at hv
            cases hpt : pTildeToken (normPath (reassembleParams (P, R))) with
            | some tok =>
                rw [hpt] at hv
                dsimp only at hv
                injection hv with h2
                subst h2
                right
                exact canonicalize_token_form hblow hbn hbnall hbbr hbg2 hQg3 hQh3 htg5
            | none =>
                rw [hpt] at hv
                dsimp only at hv
                cases hspt : streamPTildeToken (normPath (reassembleParams (P, R))) with
                | some tok =>
                    rw [hspt] at hv
                    dsimp only at hv
                    injection hv with h2
                    subst h2
                    right
                    exact canonicalize_token_form hblow hbn hbnall hbbr hbg2 hQg3 hQh3 htg5
                | none =>
                    rw [hspt] at hv
                    dsimp only at hv
                    injection hv with h2
                    subst h2
                    right
                    exact canonicalize_plain_form hblow hbn hbnall hbbr hbg2 hPg2 hPq2 hPh2
                      hSeg2 hpt hspt hQg3 hQh3 htg5
          · -- branch 4: merge the base path with the relative path
            have hjoin := urljoin_branch4 hB0 hRAW0 hbP huP rfl hrel hnl2 hpe
            rw [hjoin] at hv
            dsimp only at hv
            rw [if_pos hnet] at hv
            rw [show urlunparse ⟨b.scheme, b.netloc, joinPath P P2', R2', tu.query,
                tu.fragment⟩ =
                urlunsplit ⟨b.scheme, b.netloc, reassembleParams (joinPath P P2', R2'),
                  tu.query, tu.fragment⟩ from rfl] at hv
            have hPmem : ∀ y ∈ reassembleParams (joinPath P P2', R2'),
                y ∈ b.path ∨ y ∈ tu.path ∨ y = '/' ∨ y = ';' := by
              intro y hy
              rcases reassembleParams_mem (joinPath P P2') R2' y hy with h | h | h
              · rcases joinPath_mem P P2' y h with h2 | h2 | h2
                · exact Or.inr (Or.inr (Or.inl h2))
                · exact Or.inl ((paramsSplit_mem b.scheme b.path).1 y
                    (show y ∈ (paramsSplit b.scheme b.path).1 from by rw [hPR]; exact h2))
                · exact Or.inr (Or.inl ((paramsSplit_mem b.scheme tu.path).1 y
                    (show y ∈ (paramsSplit b.scheme tu.path).1 from by rw [hPR2]; exact h2)))
              · exact Or.inr (Or.inr (Or.inr h))
              · exact Or.inr (Or.inl ((paramsSplit_mem b.scheme tu.path).2 y
                  (show y ∈ (paramsSplit b.scheme tu.path).2 from by rw [hPR2]; exact h)))
            have hPq2 : '?' ∉ reassembleParams (joinPath P P2', R2') := by
              intro hc
              rcases hPmem '?' hc with h | h | h | h
              · exact hbpq h
              · exact htupq h
              · exact absurd h (by decide)
              · exact absurd h (by decide)
            have hPh2 : '#' ∉ reassembleParams (joinPath P P2', R2') := by
              intro hc
              rcases hPmem '#' hc with h | h | h | h
              · exact hbph h
              · exact htuph h
              · exact absurd h (by decide)
              · exact absurd h (by decide)
            have hPg2 : goodStr (reassembleParams (joinPath P P2', R2')) = true := by
              simp only [goodStr, List.all_eq_true]
              intro y hy
              rcases hPmem y hy with h | h | rfl | rfl
              · exact goodStr_mem hbg3 h
              · exact goodStr_mem htg3 h
              · decide
              · decide
            have hSeg2 : usesParams.contains b.scheme = true →
                ';' ∈ normPath (reassembleParams (joinPath P P2', R2')) →
                SegSafe (normPath (reassembleParams (joinPath P P2', R2'))) := by
              intro husep
              have h2 := SegSafe_join b.scheme tu.path P husep
              rw [hPR2] at h2
              exact h2
            rw [urlsplit_unsplit b.scheme b.netloc (reassembleParams (joinPath P P2', R2'))
              tu.query tu.fragment hbalpha hball hblow hbn hbnall hbbr hPq2 hPh2 htuqh
              hbg1 hbg2 hPg2 htg4 htg5] at hv
            dsimp only at hv
            cases hpt : pTildeToken (normPath (reassembleParams (joinPath P P2', R2'))) with
            | some tok =>
                rw [hpt] at hv
                dsimp only at hv
                injection hv with h2
                subst h2
                right
                exact canonicalize_token_form hblow hbn hbnall hbbr hbg2 htg4 htuqh htg5
            | none =>
                rw [hpt] at hv
                dsimp only at hv
                cases hspt : streamPTildeToken
                    (normPath (reassembleParams (joinPath P P2', R2'))) with
                | some tok =>
                    rw [hspt] at hv
                    dsimp only at hv
                    injection hv with h2
                    subst h2
                    right
                    exact canonicalize_token_form hblow hbn hbnall hbbr hbg2 htg4 htuqh htg5
                | none =>
                    rw [hspt] at hv
                    dsimp only at hv
                    injection hv with h2
                    subst h2
                    right
                    exact canonicalize_plain_form hblow hbn hbnall hbbr hbg2 hPg2 hPq2 hPh2
                      hSeg2 hpt hspt htg4 htuqh htg5

/-- Pass 2: canonicalising a `CanonForm` URL against the same good base is
the identity. -/
theorem canonicalize_pass2 {B : Str} {b : SplitRes} {v : Str}
    (hB : urlsplit B = .ok b) (hbs : b.scheme ≠ [])
    (hrel : usesRelative.contains b.scheme = true)
    (hnet : usesNetloc.contains b.scheme = true)
    (hbn : b.netloc ≠ [])
    (hgB : goodStr B = true)
    (hcf : CanonForm b.scheme v) :
    canonicalize_url v B = .ok v := by
  obtain ⟨N, P2, Q, F, rfl, hNne, hNall, hNbr, hNg, hNlow, hPg, hPq, hPh, hPnp, hpt, hspt,
    hSeg, hQg, hQh, hFg⟩ := hcf
  have hB0 : B ≠ [] := base_ne_nil hB hbn
  obtain ⟨P, R, hPR⟩ : ∃ a c, paramsSplit b.scheme b.path = (a, c) := ⟨_, _, rfl⟩
  have hbP : urlparse B [] = .ok ⟨b.scheme, b.netloc, P, R, b.query, b.fragment⟩ := by
    have hps : paramsSplit (if b.scheme = [] then [] else b.scheme) b.path = (P, R) := by
      rw [if_neg hbs]
      exact hPR
    have h2 := urlparse_eq hB hps
    rwa [if_neg hbs] at h2
  obtain ⟨hbsf, hbnall, hbbr, hbph, hbpq, hbqh, _, hbgood⟩ := urlsplit_facts hB
  obtain ⟨hbg1, hbg2, hbg3, hbg4, hbg5⟩ := hbgood hgB
  obtain ⟨hbalpha, hball, hblow⟩ := hbsf hbs
  have hgv : goodStr (urlunsplit ⟨b.scheme, N, P2, Q, F⟩) = true :=
    urlunsplit_goodStr hbg1 hNg hPg hQg hFg
  obtain ⟨hcolon, hvne⟩ := urlunsplit_colon_mem (t := ⟨b.scheme, N, P2, Q, F⟩) hbs
  have hsv : urlsplit (urlunsplit ⟨b.scheme, N, P2, Q, F⟩) = .ok ⟨b.scheme, N, P2, Q, F⟩ := by
    have h2 := urlsplit_unsplit b.scheme N P2 Q F hbalpha hball hblow hNne hNall hNbr
      hPq hPh hQh hbg1 hNg hPg hQg hFg
    rwa [hPnp] at h2
  obtain ⟨PP, RR, hPPRR⟩ : ∃ a c, paramsSplit b.scheme P2 = (a, c) := ⟨_, _, rfl⟩
  have hvP : urlparse (urlunsplit ⟨b.scheme, N, P2, Q, F⟩) b.scheme =
      .ok ⟨b.scheme, N, PP, RR, Q, F⟩ := by
    have hps : paramsSplit (if b.scheme = [] then b.scheme else b.scheme) P2 = (PP, RR) := by
      rw [if_neg hbs]
      exact hPPRR
    have h2 := urlparse_eq hsv hps
    rwa [if_neg hbs] at h2
  unfold canonicalize_url
  dsimp only
  rw [pyStrip_of_good hgv, if_neg hvne, bare_token_false_of_colon hgv hcolon,
    if_neg Bool.false_ne_true]
  have hjoin := urljoin_branch2 hB0 hvne hbP hvP rfl hrel hnet hNne
  rw [hjoin]
  dsimp only
  rw [show urlunparse ⟨b.scheme, N, PP, RR, Q, F⟩ =
      urlunsplit ⟨b.scheme, N, reassembleParams (PP, RR), Q, F⟩ from rfl]
  have hre : reassembleParams (PP, RR) = P2 := by
    rw [show (PP, RR) = paramsSplit b.scheme P2 from hPPRR.symm]
    exact reassemble_paramsSplit hSeg
  rw [hre, hsv]
  dsimp only
  rw [hpt]
  dsimp only
  rw [hspt]
  dsimp only
  have hcp : canonicalize_parsed ⟨b.scheme, N, P2, Q, F⟩ =
      urlunsplit ⟨b.scheme, N, P2, Q, F⟩ := by
    unfold canonicalize_parsed
    dsimp only
    rw [hblow, hNlow]
  rw [hcp]

/-- C7 (amended): `canonicalize_url` is idempotent for well-formed bases and
inputs: for every base origin that urlsplits to a whitespace-free absolute
URL (non-empty scheme in `uses_relative` and `uses_netloc`, non-empty
netloc) and every whitespace- and control-free input whose detected scheme
is either absent or equal to the base scheme, a successful canonicalisation
is a fixed point: `canonicalize_url (canonicalize_url u B) B =
canonicalize_url u B`.  (Without these provisos idempotence fails, as the
counterexample shows.) -/
theorem canonicalize_idempotent_good_base (B u v : Str) (b : SplitRes)
    (hB : urlsplit B = .ok b) (hbs : b.scheme ≠ [])
    (hrel : usesRelative.contains b.scheme = true)
    (hnet : usesNetloc.contains b.scheme = true)
    (hbn : b.netloc ≠ [])
    (hgB : goodStr B = true) (hgu : goodStr u = true)
    (hsch : (trySplitScheme u).1 = [] ∨ (trySplitScheme u).1 = b.scheme)
    (hv : canonicalize_url u B = .ok v) :
    canonicalize_url v B = .ok v := by
  rcases canonicalize_decomp hB hbs hrel hnet hbn hgB hgu hsch hv with rfl | hcf
  · rfl
  · exact canonicalize_pass2 hB hbs hrel hnet hbn hgB hcf

/-- C7 witness: the amended idempotence theorem applied at the concrete base
`https://h` and input `/x`, whose first pass yields `https://h/x`. -/
theorem canonicalize_idempotent_good_base_witness :
    canonicalize_url (ofS "https://h/x") (ofS "https://h") = .ok (ofS "https://h/x") :=
  canonicalize_idempotent_good_base (ofS "https://h") (ofS "/x") (ofS "https://h/x")
    ⟨ofS "https", ofS "h", [], [], []⟩ rfl (by decide) (by decide) (by decide)
    (by decide) (by decide) (by decide) (Or.inl rfl) rfl

/-! ## C8: key provenance of the ingestion pipeline -/

theorem dkeys_dset_mem {α : Type} : ∀ (d : List (Str × α)) (k : Str) (v : α),
    ∀ k' ∈ dkeys (dset d k v), k' ∈ dkeys d ∨ k' = k := by
  intro d
  induction d with
  | nil =>
      intro k v k' hk
      simp only [dset, dkeys, List.map_cons, List.map_nil] at hk
      exact Or.inr (List.mem_singleton.mp hk)
  | cons kv rest ih =>
      obtain ⟨a, b⟩ := kv
      intro k v k' hk
      simp only [dset] at hk
      by_cases ha : a = k
      · rw [if_pos ha] at hk
        simp only [dkeys, List.map_cons] at hk ⊢
        rcases List.mem_cons.mp hk with rfl | hk2
        · exact Or.inl (List.mem_cons_self _ _)
        · exact Or.inl (List.mem_cons_of_mem _ hk2)
      · rw [if_neg ha] at hk
        simp only [dkeys, List.map_cons] at hk ⊢
        rcases List.mem_cons.mp hk with rfl | hk2
        · exact Or.inl (List.mem_cons_self _ _)
        · rcases ih k v k' hk2 with h2 | h2
          · exact Or.inl (List.mem_cons_of_mem _ h2)
          · exact Or.inr h2

theorem dget_key_mem {α : Type} : ∀ {d : List (Str × α)} {k : Str} {v : α},
    dget d k = Option.some v → k ∈ dkeys d := by
  intro d
  induction d with
  | nil => intro k v h; simp [dget] at h
  | cons kv rest ih =>
      obtain ⟨a, b⟩ := kv
      intro k v h
      simp only [dget] at h
      by_cases ha : a = k
      · subst ha
        exact List.mem_cons_self _ _
      · rw [if_neg ha] at h
        exact List.mem_cons_of_mem _ (ih h)

theorem foldlM_except_inv {σ β : Type} {f : σ → β → Except PyErr σ} {P : σ → σ → Prop}
    (hrefl : ∀ s, P s s)
    (htrans : ∀ a b c, P a b → P b c → P a c)
    (hstep : ∀ s x s', f s x = .ok s' → P s s') :
    ∀ (l : List β) (s s' : σ), l.foldlM f s = .ok s' → P s s' := by
  intro l
  induction l with
  | nil =>
      intro s s' h
      simp only [List.foldlM_nil, pure, Except.pure] at h
      injection h with h2
      subst h2
      exact hrefl _
  | cons x xs ih =>
      intro s s' h
      simp only [List.foldlM_cons, Bind.bind, Except.bind] at h
      cases hf : f s x with
      | error e => rw [hf] at h; cases h
      | ok s1 =>
          rw [hf] at h
          exact htrans _ _ _ (hstep s x s1 hf) (ih s1 s' h)

theorem extract_hit_key {url base : Str} {hit : UrlPayloadHit}
    (h : extract_payload_from_url url base = .ok (Option.some hit)) :
    canonicalize_url url base = .ok hit.url_key ∧ hit.url_key ≠ [] := by
  unfold extract_payload_from_url at h
  cases hc : canonicalize_url url base with
  | error e =>
      rw [hc] at h
      simp only [Bind.bind, Except.bind] at h
      cases h
  | ok key =>
      rw [hc] at h
      simp only [Bind.bind, Except.bind] at h
      by_cases hk : key = []
      · rw [if_pos hk] at h
        injection h with h2
        exact Option.noConfusion h2
      · rw [if_neg hk] at h
        rw [show (pure PUnit.unit : Except PyErr PUnit) = Except.ok PUnit.unit from rfl] at h
        dsimp only at h
        cases hu : urlsplit key with
        | error e =>
            rw [hu] at h
            dsimp only at h
            cases h
        | ok u =>
            rw [hu] at h
            dsimp only at h
            by_cases hcand : extract_candidate_tokens_from_url u = []
            · rw [if_pos hcand] at h
              injection h with h2
              exact Option.noConfusion h2
            · rw [if_neg hcand] at h
              cases ht : tryTokens (extract_candidate_tokens_from_url u) with
              | some p =>
                  rw [ht] at h
                  injection h with h2
                  injection h2 with h3
                  subst h3
                  exact ⟨rfl, hk⟩
              | none =>
                  rw [ht] at h
                  injection h with h2
                  exact Option.noConfusion h2

theorem ensure_url_keys {reg : Registry} {url base : Str} {reg' : Registry} {ins : Bool}
    (h : ensure_url_in_registry reg url base = .ok (reg', ins)) :
    ∀ k ∈ dkeys reg', k ∈ dkeys reg ∨ KeyCanon base k := by
  unfold ensure_url_in_registry at h
  cases he : extract_payload_from_url url base with
  | error e =>
      rw [he] at h
      simp only [Bind.bind, Except.bind] at h
      cases h
  | ok hitO =>
      rw [he] at h
      simp only [Bind.bind, Except.bind] at h
      cases hitO with
      | none =>
          injection h with h2
          injection h2 with h3 h4
          subst h3
          exact fun k hk => Or.inl hk
      | some hi =>
          dsimp only at h
          by_cases hm : dmem reg hi.url_key = true
          · rw [if_pos hm] at h
            injection h with h2
            injection h2 with h3 h4
            subst h3
            exact fun k hk => Or.inl hk
          · rw [if_neg hm] at h
            injection h with h2
            injection h2 with h3 h4
            subst h3
            intro k hk
            rcases dkeys_dset_mem reg hi.url_key hi.payload k hk with h5 | rfl
            · exact Or.inl h5
            · exact Or.inr ⟨url, (extract_hit_key he).1⟩

theorem upsert_keys {reg : Registry} {k0 : Str} {p : Payload} {reg' : Registry} {ch : Bool}
    (h : upsert_payload reg k0 p = .ok (reg', ch)) :
    ∀ k ∈ dkeys reg', k ∈ dkeys reg ∨ k = k0 := by
  unfold upsert_payload at h
  cases hg : dget reg k0 with
  | none =>
      rw [hg] at h
      injection h with h2
      injection h2 with h3 h4
      subst h3
      exact fun k hk => dkeys_dset_mem reg k0 p k hk
  | some prev =>
      rw [hg] at h
      simp only [Bind.bind, Except.bind] at h
      cases hm : merge_payload prev p with
      | error e => rw [hm] at h; cases h
      | ok merged =>
          rw [hm] at h
          dsimp only at h
          by_cases heq : pyEq (.dict (model_dump prev)) (.dict (model_dump merged)) = true
          · rw [if_pos heq] at h
            injection h with h2
            injection h2 with h3 h4
            subst h3
            exact fun k hk => Or.inl hk
          · rw [if_neg heq] at h
            injection h with h2
            injection h2 with h3 h4
            subst h3
            exact fun k hk => dkeys_dset_mem reg k0 merged k hk

theorem synth_step_keys {base leaf : Str} {root : Option Str}
    {s : Registry × ℕ × Option Str} {x : Str} {s' : Registry × ℕ × Option Str}
    (hs : synth_step base leaf root s x = .ok s') :
    ∀ k ∈ dkeys s'.1, k ∈ dkeys s.1 ∨ KeyCanon base k := by
  unfold synth_step at hs
  cases hens : ensure_url_in_registry s.1 x base with
  | error e =>
      rw [hens] at hs
      cases hs
  | ok ri =>
      rw [hens] at hs
      obtain ⟨reg1, ins⟩ := ri
      dsimp only at hs
      cases hg : dget reg1 x with
      | none =>
          rw [hg] at hs
          dsimp only at hs
          injection hs with h2
          subst h2
          intro k2 hk2
          exact ensure_url_keys hens k2 hk2
      | some p =>
          rw [hg] at hs
          dsimp only at hs
          split at hs
          · injection hs with h2
            subst h2
            intro k2 hk2
            exact ensure_url_keys hens k2 hk2
          · injection hs with h2
            subst h2
            intro k2 hk2
            rcases dkeys_dset_mem reg1 x _ k2 hk2 with h3 | rfl
            · exact ensure_url_keys hens k2 h3
            · exact ensure_url_keys hens k2 (dget_key_mem hg)

theorem synth_keys {chain : List Str} {leaf : Str} {reg : Registry} {base : Str}
    {out : Registry × ℕ}
    (h : synthesize_edges_from_witness_chain chain leaf reg base = .ok out) :
    ∀ k ∈ dkeys out.1, k ∈ dkeys reg ∨ KeyCanon base k := by
  unfold synthesize_edges_from_witness_chain at h
  split at h
  · cases h
  · rename_i r1 r2 r3 heq
    injection h with h2
    subst h2
    intro k hk
    exact foldlM_except_inv (P := fun (s s' : Registry × ℕ × Option Str) =>
        ∀ k2 ∈ dkeys s'.1, k2 ∈ dkeys s.1 ∨ KeyCanon base k2)
      (fun s k2 hk2 => Or.inl hk2)
      (fun a b c hab hbc k2 hk2 => by
        rcases hbc k2 hk2 with h3 | h3
        · exact hab k2 h3
        · exact Or.inr h3)
      (fun s x s' hs => synth_step_keys hs)
      (chain ++ [leaf]) (reg, 0, Option.none) (r1, r2, r3) heq k hk

theorem stitch_origin_keys {base : Str} {reg : Registry} {p : Payload}
    {reg' : Registry} {c : ℕ}
    (h : stitch_origin_step base reg p = .ok (reg', c)) :
    ∀ k ∈ dkeys reg', k ∈ dkeys reg ∨ KeyCanon base k := by
  unfold stitch_origin_step at h
  cases hpo : p.originUrl with
  | none =>
      rw [hpo] at h
      injection h with h2
      injection h2 with h3 h4
      subst h3
      exact fun k hk => Or.inl hk
  | some o0 =>
      rw [hpo] at h
      dsimp only at h
      by_cases hst : pyStrip o0 ≠ []
      · rw [if_pos hst] at h
        cases hc : canonicalize_url o0 base with
        | error e => rw [hc] at h; cases h
        | ok o =>
            rw [hc] at h
            dsimp only at h
            by_cases ho : o ≠ []
            · rw [if_pos ho] at h
              cases hens : ensure_url_in_registry reg o base with
              | error e => rw [hens] at h; cases h
              | ok ri =>
                  obtain ⟨rg, ins⟩ := ri
                  rw [hens] at h
                  dsimp only at h
                  injection h with h2
                  injection h2 with h3 h4
                  subst h3
                  exact ensure_url_keys hens
            · rw [if_neg ho] at h
              injection h with h2
              injection h2 with h3 h4
              subst h3
              exact fun k hk => Or.inl hk
      · rw [if_neg hst] at h
        injection h with h2
        injection h2 with h3 h4
        subst h3
        exact fun k hk => Or.inl hk

theorem stitch_loop_keys (base : Str) :
    ∀ fuel reg cur r, stitch_loop base fuel reg cur = .ok r →
      ∀ k ∈ dkeys r.1, k ∈ dkeys reg ∨ KeyCanon base k := by
  intro fuel
  induction fuel with
  | zero =>
      intro reg cur r h
      simp only [stitch_loop] at h
      cases h
      exact fun k hk => Or.inl hk
  | succ fuel ih =>
      intro reg cur r h
      simp only [stitch_loop] at h
      cases hdg : dget reg cur with
      | none =>
          rw [hdg] at h
          dsimp only at h
          cases h
          exact fun k hk => Or.inl hk
      | some p =>
          rw [hdg] at h
          dsimp only at h
          cases hos : stitch_origin_step base reg p with
          | error e => rw [hos] at h; cases h
          | ok rc =>
              obtain ⟨reg1, c1⟩ := rc
              rw [hos] at h
              dsimp only at h
              cases hpr : p.parentUrl with
              | none =>
                  rw [hpr] at h
                  dsimp only at h
                  cases h
                  exact stitch_origin_keys hos
              | some pr0 =>
                  rw [hpr] at h
                  dsimp only at h
                  by_cases hst : pyStrip pr0 ≠ []
                  · rw [if_pos hst] at h
                    cases hc : canonicalize_url pr0 base with
                    | error e => rw [hc] at h; cases h
                    | ok parent =>
                        rw [hc] at h
                        dsimp only at h
                        by_cases hp0 : parent = []
                        · rw [if_pos hp0] at h
                          cases h
                          exact stitch_origin_keys hos
                        · rw [if_neg hp0] at h
                          cases hens : ensure_url_in_registry reg1 parent base with
                          | error e => rw [hens] at h; cases h
                          | ok ri =>
                              obtain ⟨reg2, ins⟩ := ri
                              rw [hens] at h
                              dsimp only at h
                              cases hrec : stitch_loop base fuel reg2 parent with
                              | error e => rw [hrec] at h; cases h
                              | ok r3 =>
                                  obtain ⟨reg3, c3, tr3⟩ := r3
                                  rw [hrec] at h
                                  dsimp only at h
                                  cases h
                                  intro k hk
                                  rcases ih reg2 parent (reg3, c3, tr3) hrec k hk with h4 | h4
                                  · rcases ensure_url_keys hens k h4 with h5 | h5
                                    · exact stitch_origin_keys hos k h5
                                    · exact Or.inr h5
                                  · exact Or.inr h4
                  · rw [if_neg hst] at h
                    cases h
                    exact stitch_origin_keys hos

theorem process_hit_core_keys {base : Str} {reg : Registry} {hit : UrlPayloadHit}
    {out : Registry × Bool}
    (h : process_hit_core base reg hit = .ok out) :
    ∀ k ∈ dkeys out.1, k ∈ dkeys reg ∨ KeyCanon base k := by
  unfold process_hit_core at h
  dsimp only [Bind.bind] at h
  simp only [Except.bind] at h
  cases hc : canonicalize_url hit.url_key base with
  | error e => rw [hc] at h; cases h
  | ok url_key =>
      rw [hc] at h
      dsimp only at h
      by_cases hk : url_key = []
      · rw [if_pos hk] at h
        injection h with h2
        subst h2
        exact fun k hk2 => Or.inl hk2
      · rw [if_neg hk] at h
        cases hctx : derive_witness_context url_key base with
        | error e => rw [hctx] at h; cases h
        | ok ctx =>
            rw [hctx] at h
            dsimp only at h
            cases htop : canonicalize_topology (merge_derived_context hit.payload ctx) base with
            | error e => rw [htop] at h; cases h
            | ok ml =>
                rw [htop] at h
                dsimp only at h
                cases hup : upsert_payload reg url_key ml with
                | error e => rw [hup] at h; cases h
                | ok rc =>
                    obtain ⟨reg1, ch⟩ := rc
                    rw [hup] at h
                    dsimp only at h
                    by_cases hch : ctx.chain ≠ []
                    · rw [if_pos hch] at h
                      cases hsy : synthesize_edges_from_witness_chain ctx.chain url_key
                          reg1 base with
                      | error e => rw [hsy] at h; cases h
                      | ok rs =>
                          obtain ⟨reg2, c2⟩ := rs
                          rw [hsy] at h
                          dsimp only at h
                          cases hsl : stitch_loop base 128 reg2 url_key with
                          | error e => rw [hsl] at h; cases h
                          | ok r3 =>
                              obtain ⟨reg3, c3, tr3⟩ := r3
                              rw [hsl] at h
                              dsimp only at h
                              injection h with h2
                              subst h2
                              intro k hk2
                              rcases stitch_loop_keys base 128 reg2 url_key (reg3, c3, tr3)
                                  hsl k hk2 with h4 | h4
                              · rcases synth_keys hsy k h4 with h5 | h5
                                · rcases upsert_keys hup k h5 with h6 | rfl
                                  · exact Or.inl h6
                                  · exact Or.inr ⟨hit.url_key, hc⟩
                                · exact Or.inr h5
                              · exact Or.inr h4
                    · rw [if_neg hch] at h
                      rw [show (pure (reg1, (0 : ℕ)) : Except PyErr (Registry × ℕ)) =
                        Except.ok (reg1, 0) from rfl] at h
                      dsimp only at h
                      cases hsl : stitch_loop base 128 reg1 url_key with
                      | error e => rw [hsl] at h; cases h
                      | ok r3 =>
                          obtain ⟨reg3, c3, tr3⟩ := r3
                          rw [hsl] at h
                          dsimp only at h
                          injection h with h2
                          subst h2
                          intro k hk2
                          rcases stitch_loop_keys base 128 reg1 url_key (reg3, c3, tr3)
                              hsl k hk2 with h4 | h4
                          · rcases upsert_keys hup k h4 with h6 | rfl
                            · exact Or.inl h6
                            · exact Or.inr ⟨hit.url_key, hc⟩
                          · exact Or.inr h4

theorem process_hit_keys {base : Str} {reg : Registry} {rep : InhaleReport}
    {hit : UrlPayloadHit} {out : Registry × InhaleReport}
    (h : process_hit base reg rep hit = .ok out) :
    ∀ k ∈ dkeys out.1, k ∈ dkeys reg ∨ KeyCanon base k := by
  unfold process_hit at h
  cases hc : process_hit_core base reg hit with
  | error e => rw [hc] at h; cases h
  | ok rc =>
      rw [hc] at h
      simp only [Except.map] at h
      injection h with h2
      subst h2
      intro k hk
      exact process_hit_core_keys hc k hk

theorem process_file_keys {base : Str} {reg : Registry} {rep : InhaleReport}
    {file : Str × List ℕ} {out : Registry × InhaleReport}
    (h : process_file base reg rep file = .ok out) :
    ∀ k ∈ dkeys out.1, k ∈ dkeys reg ∨ KeyCanon base k := by
  unfold process_file at h
  cases hl : loads_json_bytes file.2 with
  | error e =>
      rw [hl] at h
      dsimp only at h
      injection h with h2
      subst h2
      exact fun k hk => Or.inl hk
  | ok obj =>
      rw [hl] at h
      dsimp only [Bind.bind] at h
      simp only [Except.bind] at h
      cases hx : extract_many_payloads_from_any obj base (2 * file.2.length + 4) with
      | error e => rw [hx] at h; cases h
      | ok hits =>
          rw [hx] at h
          dsimp only at h
          intro k hk
          exact foldlM_except_inv (P := fun (s s' : Registry × InhaleReport) =>
              ∀ k2 ∈ dkeys s'.1, k2 ∈ dkeys s.1 ∨ KeyCanon base k2)
            (fun s k2 hk2 => Or.inl hk2)
            (fun a b c hab hbc k2 hk2 => by
              rcases hbc k2 hk2 with h3 | h3
              · exact hab k2 h3
              · exact Or.inr h3)
            (fun s x s' hs => process_hit_keys hs)
            hits _ out h k hk

theorem inhale_keys {reg0 : Registry} {files : List (Str × List ℕ)} {base : Str}
    {out : Registry × InhaleReport}
    (h : inhale_files_into_registry reg0 files base = .ok out) :
    ∀ k ∈ dkeys out.1, k ∈ dkeys reg0 ∨ KeyCanon base k := by
  unfold inhale_files_into_registry at h
  dsimp only [Bind.bind] at h
  simp only [Except.bind] at h
  split at h
  · cases h
  · rename_i r heq
    injection h with h2
    subst h2
    intro k hk
    exact foldlM_except_inv (P := fun (s s' : Registry × InhaleReport) =>
        ∀ k2 ∈ dkeys s'.1, k2 ∈ dkeys s.1 ∨ KeyCanon base k2)
      (fun s k2 hk2 => Or.inl hk2)
      (fun a b c hab hbc k2 hk2 => by
        rcases hbc k2 hk2 with h3 | h3
        · exact hab k2 h3
        · exact Or.inr h3)
      (fun s x s' hs => process_file_keys hs)
      files (reg0, {}) r heq k hk

/-- C8 (amended): batch ingestion preserves the key-provenance invariant —
if every key of the starting registry is an output of the canonicaliser
against the base origin, then after a successful
`inhale_files_into_registry` every key of the resulting registry is still
an output of the canonicaliser: every key the pipeline inserts (upsert of a
canonicalised hit key, ancestor insertion during stitching, witness-edge
synthesis) first passes through `canonicalize_url`.  Loading persisted
state is NOT covered: `load_registry_from_obj` accepts keys verbatim, and
the counterexample exhibits a loaded non-canonical key. -/
theorem inhale_keys_canonical (reg0 : Registry) (files : List (Str × List ℕ))
    (base : Str) (regR : Registry) (rep : InhaleReport)
    (h0 : ∀ k ∈ dkeys reg0, KeyCanon base k)
    (h : inhale_files_into_registry reg0 files base = .ok (regR, rep)) :
    ∀ k ∈ dkeys regR, KeyCanon base k := by
  intro k hk
  rcases inhale_keys h k hk with h2 | h2
  · exact h0 k h2
  · exact h2

/-- C8 witness: the key-provenance theorem applied to a one-entry registry
whose key `https://h/x` is the canonicalisation of `/x`, with no files,
instantiated at that key. -/
theorem inhale_keys_canonical_witness :
    KeyCanon (ofS "https://h") (ofS "https://h/x") :=
  inhale_keys_canonical [(ofS "https://h/x", payload0)] [] (ofS "https://h")
    [(ofS "https://h/x", payload0)]
    { crystals_total := 0, crystals_imported := 0, crystals_failed := 0,
      registry_urls := 1, latest_pulse := Option.none, errors := [] }
    (by
      intro k hk
      have hkk : k = ofS "https://h/x" := by
        simpa [dkeys] using hk
      subst hkk
      exact ⟨ofS "/x", rfl⟩)
    rfl (ofS "https://h/x") (by decide)
